import Mathlib

/-! # discodb construction (`contrib/discodb/src/ddb_cons.c`)

A shallow embedding of the builder (`ddb_cons_new`, `ddb_add`) and of the
finalization pipeline (`ddb_finalize` and the static helpers it drives), followed
by the properties established about them.

Conventions of the embedding.

* C functions that report failure return a `Res`: `ok` carries the result,
  `null` stands for the error value of the function (`-1`, `NULL`),
  `out_of_bounds` for a memory access outside the allocation and `undefined`
  for any other undefined behaviour of the C program.
* Unsigned machine arithmetic is written with an explicit modulus.
* Outcomes of `malloc`/`realloc` and of the external collaborators are supplied
  by an environment `Env`.
-/

namespace Discodb

/-! ## Results of fallible C code -/

/-- Result of a C call in the embedding. -/
inductive Res (α : Type) where
  | ok : α → Res α
  | null : Res α
  | out_of_bounds : Res α
  | undefined : Res α

/-- Sequencing of fallible calls: the first fault ends the computation. -/
def Res.bind {α β : Type} : Res α → (α → Res β) → Res β
  | Res.ok a, f => f a
  | Res.null, _ => Res.null
  | Res.out_of_bounds, _ => Res.out_of_bounds
  | Res.undefined, _ => Res.undefined

/-- Whether a result is a success. -/
def Res.isOk {α : Type} : Res α → Bool
  | Res.ok _ => true
  | _ => false

/-! ## Machine constants -/

/-- The constant `BUFFER_INC` of the source: `1024 * 1024 * 64`. -/
def BUFFER_INC : Nat := 1024 * 1024 * 64

/-- Modulus of `uint32_t` arithmetic. -/
def U32 : Nat := 4294967296

/-- Modulus of `uint64_t` arithmetic. -/
def U64 : Nat := 18446744073709551616

/-- The constant `UINT_MAX` of `<limits.h>` for a 32-bit `unsigned int`. -/
def UINT_MAX : Nat := 4294967295

/-- The constant `INT_MAX` of `<limits.h>` for a 32-bit `int`. -/
def INT_MAX : Nat := 2147483647

/-! ## Entries, maps and lists (collaborators of the builder) -/

/-- Modelled from the spec: `struct ddb_entry` (declared in `discodb.h`, which is
not part of the sources at hand). An Entry is a length-prefixed byte string whose
length is a `u32`; bytes are natural numbers, compared exactly. -/
abbrev ddb_entry : Type := { l : List Nat // l.length < 4294967296 }

/-- Modelled from the spec: `struct ddb_map` of `ddb_map.h`, a map from Entry to a
64-bit slot with insertion-order iteration and lookup-or-insert. The item list is
kept in insertion order; `max_num_items` is the argument of `ddb_map_new`. A slot
of the C map is a `uint64_t`; here the slot type is a parameter, so that a slot
holding a pointer can be modelled by the object pointed to. -/
structure ddb_map (α : Type) where
  max_num_items : Nat
  items : List (ddb_entry × α)

/-- Modelled from the spec: `ddb_map_new`, the empty map. -/
def ddb_map_new {α : Type} (max_num_items : Nat) : ddb_map α :=
  { max_num_items := max_num_items, items := [] }

/-- Modelled from the spec: `ddb_map_num_items`, the number of keys of the map. -/
def ddb_map_num_items {α : Type} (m : ddb_map α) : Nat := m.items.length

/-- Lookup in an association list of entries. -/
def assoc_lookup {α : Type} (k : ddb_entry) : List (ddb_entry × α) → Option α
  | [] => none
  | (k', v) :: rest => if k' = k then some v else assoc_lookup k rest

/-- Overwrite the slot of a key in an association list. -/
def assoc_store {α : Type} (k : ddb_entry) (v : α) : List (ddb_entry × α) → List (ddb_entry × α)
  | [] => []
  | (k', v') :: rest => if k' = k then (k', v) :: rest else (k', v') :: assoc_store k v rest

/-- Modelled from the spec: `ddb_map_lookup_str`; `none` is the `NULL` returned for
an absent key, `some s` the content of the slot pointed to. -/
def ddb_map_lookup_str {α : Type} (m : ddb_map α) (k : ddb_entry) : Option α :=
  assoc_lookup k m.items

/-- Modelled from the spec: `ddb_map_insert_str` (lookup-or-insert). A key already
present is found again; a new key is appended with a zeroed slot, unless the
allocation fails (`alloc = false`) or the map already holds `max_num_items` keys,
in which case the result is `none` (`NULL`). The slot itself is then read with
`ddb_map_lookup_str` and written with `ddb_map_store`. -/
def ddb_map_insert_str {α : Type} (zero : α) (alloc : Bool) (m : ddb_map α) (k : ddb_entry) :
    Option (ddb_map α) :=
  match assoc_lookup k m.items with
  | some _ => some m
  | none =>
    if alloc = true ∧ m.items.length < m.max_num_items then
      some { m with items := m.items ++ [(k, zero)] }
    else none

/-- Assignment `*ptr = v` through the slot pointer of key `k`. -/
def ddb_map_store {α : Type} (m : ddb_map α) (k : ddb_entry) (v : α) : ddb_map α :=
  { m with items := assoc_store k v m.items }

/-- Modelled from the spec: `ddb_list_new` of `ddb_list.h`; `none` is `NULL`. -/
def ddb_list_new (alloc : Bool) : Option (List Nat) :=
  if alloc then some [] else none

/-- Modelled from the spec: `ddb_list_append` of `ddb_list.h`: append at the end;
`none` is `NULL`. -/
def ddb_list_append (alloc : Bool) (l : List Nat) (e : Nat) : Option (List Nat) :=
  if alloc then some (l ++ [e]) else none

/-! ## The builder -/

/-- The C `struct ddb_cons`. `values_map` maps a value to its id; a slot of
`keys_map` holds a pointer to a `ddb_list` of value ids (`none` is the zeroed
slot, the `NULL` pointer). A map pointer that is `NULL` is `none`. -/
structure ddb_cons where
  values_map : Option (ddb_map Nat)
  keys_map : Option (ddb_map (Option (List Nat)))
  num_values : Nat

/-- The C function `ddb_cons_new`; the three arguments tell whether `calloc` and the
two `ddb_map_new` calls succeed. -/
def ddb_cons_new (calloc_ok keys_ok values_ok : Bool) : Option ddb_cons :=
  if calloc_ok = false then none
  else if keys_ok = true ∧ values_ok = true then
    some { values_map := some (ddb_map_new UINT_MAX),
           keys_map := some (ddb_map_new UINT_MAX),
           num_values := 0 }
  else none

/-- Outcomes of the allocations that one call of `ddb_add` may request. -/
structure add_alloc where
  values_insert : Bool
  keys_insert : Bool
  list_new : Bool
  list_append : Bool

/-- The C function `ddb_add`. `Res.null` is the return value `-1`, `Res.ok` the
return value `0` together with the builder after the call. -/
def ddb_add (a : add_alloc) (db : ddb_cons) (key value : ddb_entry) : Res ddb_cons :=
  match db.values_map, db.keys_map with
  | some values_map, some keys_map =>
    match ddb_map_insert_str 0 a.values_insert values_map value with
    | none => Res.null
    | some vm1 =>
      let vm2 :=
        if (ddb_map_lookup_str vm1 value).getD 0 = 0 then
          ddb_map_store vm1 value (ddb_map_num_items vm1)
        else vm1
      let value_id := (ddb_map_lookup_str vm2 value).getD 0
      match ddb_map_insert_str none a.keys_insert keys_map key with
      | none => Res.null
      | some km1 =>
        let slot := (ddb_map_lookup_str km1 key).getD none
        let slot1 := if slot.isNone then ddb_list_new a.list_new else slot
        match slot1 with
        | none => Res.null
        | some value_list =>
          match ddb_list_append a.list_append value_list value_id with
          | none => Res.null
          | some value_list1 =>
            Res.ok { values_map := some vm2,
                     keys_map := some (ddb_map_store km1 key (some value_list1)),
                     num_values := (db.num_values + 1) % U32 }
  | _, _ => Res.undefined

/-- A sequence of `ddb_add` calls, each of which has to succeed. -/
def ddb_add_all : ddb_cons → List (add_alloc × ddb_entry × ddb_entry) → Res ddb_cons
  | db, [] => Res.ok db
  | db, (a, key, value) :: rest => (ddb_add a db key value).bind (fun db1 => ddb_add_all db1 rest)

/-! ## Reference functions used to state the properties of the builder -/

/-- The distinct elements of a list, in the order of their first occurrence. -/
def first_occurrences : List ddb_entry → List ddb_entry
  | [] => []
  | x :: xs => x :: (first_occurrences xs).filter (fun y => decide (y ≠ x))

/-- The keys of a sequence of `ddb_add` calls. -/
def added_keys (l : List (add_alloc × ddb_entry × ddb_entry)) : List ddb_entry :=
  l.map (fun x => x.2.1)

/-- The values of a sequence of `ddb_add` calls. -/
def added_values (l : List (add_alloc × ddb_entry × ddb_entry)) : List ddb_entry :=
  l.map (fun x => x.2.2)

/-- The values added with key `k`, in the order of the calls. -/
def values_of_key (l : List (add_alloc × ddb_entry × ddb_entry)) (k : ddb_entry) :
    List ddb_entry :=
  (l.filter (fun x => decide (x.2.1 = k))).map (fun x => x.2.2)

/-- The id stored for a value in the values map (`0` when the value is absent). -/
def value_id_of (vm : ddb_map Nat) (v : ddb_entry) : Nat :=
  (ddb_map_lookup_str vm v).getD 0

/-- Sum of the lengths of the id lists of a keys map. -/
def total_list_length (km : ddb_map (Option (List Nat))) : Nat :=
  (km.items.map (fun e => (e.2.getD []).length)).sum

/-! ## The state of the builder after a sequence of adds -/

/-- What a builder holds after the successful calls `p` on a new builder. -/
def builder_inv (p : List (add_alloc × ddb_entry × ddb_entry)) (db : ddb_cons) : Prop :=
  ∃ vm km, db.values_map = some vm ∧ db.keys_map = some km ∧
    vm.max_num_items = UINT_MAX ∧ km.max_num_items = UINT_MAX ∧
    vm.items.length ≤ UINT_MAX ∧ km.items.length ≤ UINT_MAX ∧
    vm.items.map Prod.fst = first_occurrences (added_values p) ∧
    vm.items.map Prod.snd = List.range' 1 vm.items.length ∧
    km.items.map Prod.fst = first_occurrences (added_keys p) ∧
    (∀ k, assoc_lookup k km.items =
      if k ∈ added_keys p then
        some (some ((values_of_key p k).map (value_id_of vm)))
      else none) ∧
    db.num_values = p.length % U32


/-! ## Memory, header and environment of the finalizer -/

/-- The `n` low-order bytes of `v`, least significant first: the object
representation of an unsigned integer on the little-endian host the image format
is defined for. -/
def le_bytes : Nat → Nat → List Nat
  | 0, _ => []
  | n + 1, v => v % 256 :: le_bytes n (v / 256)

/-- The unsigned integer stored in a little-endian sequence of bytes. -/
def le_value : List Nat → Nat
  | [] => 0
  | b :: bs => b + 256 * le_value bs

/-- The C library function `memcpy` into a byte-addressed memory: the bytes `src`
are stored from address `dst` on. -/
def memcpy (buf : Nat → Nat) (dst : Nat) (src : List Nat) : Nat → Nat :=
  fun a => if dst ≤ a ∧ a < dst + src.length then src.getD (a - dst) 0 else buf a

/-- The `n` bytes of a memory from address `a` on. -/
def slice (buf : Nat → Nat) (a n : Nat) : List Nat :=
  (List.range n).map (fun i => buf (a + i))

/-- The flags of the header (`F_MULTISET`, `F_COMPRESSED`, `F_HASH` of
`ddb_internal.h`). -/
inductive Flag where
  | F_MULTISET : Flag
  | F_COMPRESSED : Flag
  | F_HASH : Flag
  deriving DecidableEq

/-- Modelled from the spec: `struct ddb_header` of `ddb_internal.h` (absent from
the sources at hand). The fields are those the source assigns; `flags` is the
bitset of the spec, kept as the list of the flags that are set; the three counts
are 32-bit and the offsets 64-bit fields. In C the header is the first
`sizeof(struct ddb_header)` bytes of the buffer (`pack->head` aliases
`pack->buffer`); the embedding keeps it beside the byte memory, which is only
written at addresses from `sizeof(struct ddb_header)` on. -/
structure ddb_header where
  magic : Nat
  flags : List Flag
  size : Nat
  num_keys : Nat
  num_uniq_values : Nat
  num_values : Nat
  hash_offs : Nat
  key2values_offs : Nat
  id2value_offs : Nat
  codebook : List Nat

/-- The header after `memset(head, 0, sizeof(struct ddb_header))`. -/
def ddb_header_zero : ddb_header :=
  { magic := 0, flags := [], size := 0, num_keys := 0, num_uniq_values := 0,
    num_values := 0, hash_offs := 0, key2values_offs := 0, id2value_offs := 0,
    codebook := [] }

/-- Modelled from the spec: the macro `SETFLAG` of `ddb_internal.h`, which adds a
flag to the bitset of the header. -/
def SETFLAG (head : ddb_header) (f : Flag) : ddb_header :=
  { head with flags := f :: head.flags }

/-- Modelled from the spec: the macro `HASFLAG`, membership in the bitset. -/
def HASFLAG (head : ddb_header) (f : Flag) : Bool :=
  decide (f ∈ head.flags)

/-- What the finalizer takes from outside `ddb_cons.c`: constants of the absent
headers, the outcomes of the allocations it requests, and the external
collaborators (delta encoder, minimal perfect hash, codebook and compressor).
Keys, values, blobs and codebooks are byte lists. -/
structure Env where
  /-- The value of `sizeof(struct ddb_header)`. -/
  sizeof_header : Nat
  /-- The value of `sizeof(struct ddb_entry)`. -/
  sizeof_entry : Nat
  DISCODB_MAGIC : Nat
  DDB_HASH_MIN_KEYS : Nat
  DDB_OPT_DISABLE_COMPRESSION : Nat
  /-- Content of allocated memory that the program has not written. -/
  fresh : Nat → Nat
  /-- Content of the header region before `pack_header` clears it. -/
  fresh_head : ddb_header
  /-- Whether `realloc` to the given size succeeds when the buffer grows. -/
  realloc : Nat → Bool
  /-- Whether the final `realloc` of `buffer_shrink` to the given size succeeds. -/
  realloc_shrink : Nat → Bool
  /-- Whether `malloc` of the given size returns a non-null pointer. -/
  malloc : Nat → Bool
  /-- Whether `ddb_map_cursor_new(keys_map)` succeeds. -/
  keys_cursor : Bool
  /-- Whether `ddb_map_cursor_new(values_map)` succeeds. -/
  values_cursor : Bool
  /-- The collaborator `ddb_delta_encode`: the encoded bytes and the `duplicates` flag, or failure. -/
  ddb_delta_encode : List Nat → Option (List Nat × Bool)
  /-- The collaborator `ddb_build_cmph`: the packed hash, or failure. -/
  ddb_build_cmph : ddb_map (Option (List Nat)) → Option (List Nat)
  /-- The collaborator `cmph_search_packed` on a packed hash and the bytes of a key. -/
  cmph_search_packed : List Nat → List Nat → Nat
  /-- The collaborator `ddb_create_codemap`: the code map learnt from the values, or failure. -/
  ddb_create_codemap : ddb_map Nat → Option (List Nat)
  /-- The collaborator `ddb_save_codemap`: the serialized codebook, or failure. -/
  ddb_save_codemap : List Nat → Option (List Nat)
  /-- The collaborator `ddb_compress` of the bytes of a value under a code map, or failure. -/
  ddb_compress : List Nat → List Nat → Option (List Nat)

/-- The C `struct ddb_packed`: TOC cursor, write cursor, capacity, the memory of
the buffer and the header it starts with. -/
structure ddb_packed where
  toc_offs : Nat
  offs : Nat
  size : Nat
  buffer : Nat → Nat
  head : ddb_header

/-! ## The packed buffer -/

/-- The C function `_buffer_grow`. A successful `realloc` keeps the bytes already
written, so the memory (a function of the offset) is unchanged and only the
capacity `size` moves; a failing one makes the function return `-1`. -/
def _buffer_grow (E : Env) (p : ddb_packed) (size : Nat) : Res ddb_packed :=
  if (p.offs + size) % U64 > p.size then
    let p1 := { p with size := (p.size + (size + BUFFER_INC) % U64) % U64 }
    if E.realloc p1.size = true then Res.ok p1 else Res.null
  else Res.ok p

/-- The image handed to the caller: the memory of the returned buffer, the number
of bytes allocated for it, and the header stored in its first bytes. -/
structure ddb_image where
  buffer : Nat → Nat
  alloc : Nat
  head : ddb_header

/-- The C function `buffer_shrink`: `realloc` of the buffer to `offs` bytes. A
failing `realloc` leaves `NULL` in `p->buffer`, which `ddb_finalize` then returns. -/
def buffer_shrink (E : Env) (p : ddb_packed) : Res ddb_image :=
  if E.realloc_shrink p.offs = true then
    Res.ok { buffer := p.buffer, alloc := p.offs, head := p.head }
  else Res.null

/-- The C function `buffer_init`. -/
def buffer_init (E : Env) : Res ddb_packed :=
  _buffer_grow E
    { toc_offs := 0, offs := E.sizeof_header % U64, size := 0, buffer := E.fresh,
      head := E.fresh_head }
    (E.sizeof_header % U64)

/-- The C function `buffer_new_section`. -/
def buffer_new_section (E : Env) (p : ddb_packed) (num_items : Nat) : Res ddb_packed :=
  (_buffer_grow E p ((num_items * 8) % U64)).bind fun p1 =>
    Res.ok { p1 with toc_offs := p1.offs, offs := (p1.offs + (num_items * 8) % U64) % U64 }

/-- The C function `buffer_toc_mark`: the 8 bytes of `p->offs` are copied to
`&p->buffer[p->toc_offs]`. A copy that does not lie inside the allocation is a
memory fault. -/
def buffer_toc_mark (p : ddb_packed) : Res ddb_packed :=
  if p.size < p.toc_offs + 8 then Res.out_of_bounds
  else
    Res.ok { p with buffer := memcpy p.buffer p.toc_offs (le_bytes 8 p.offs),
                    toc_offs := (p.toc_offs + 8) % U64 }

/-- The C function `buffer_write_data`; `src` holds the `size` bytes to copy. A
copy that does not lie inside the allocation is a memory fault. -/
def buffer_write_data (E : Env) (p : ddb_packed) (src : List Nat) : Res ddb_packed :=
  (_buffer_grow E p src.length).bind fun p1 =>
    if p1.size < p1.offs + src.length then Res.out_of_bounds
    else
      Res.ok { p1 with buffer := memcpy p1.buffer p1.offs src,
                       offs := (p1.offs + src.length) % U64 }

/-! ## The finalizer -/

/-- The loop of `pack_key2values`, at index `i` with the entries `keys[i..num)` left.
An entry of the `order` array that was never assigned is `none`; its use, a key
absent from the map and a null list pointer are undefined behaviour, and so is
the increment of the `int` counter `i` at `INT_MAX`. -/
def pack_key2values_loop (E : Env) (keys_map : ddb_map (Option (List Nat))) :
    Nat → List (Option ddb_entry) → ddb_packed → Res ddb_packed
  | _, [], pack => Res.ok pack
  | _, none :: _, _ => Res.undefined
  | i, some key :: rest, pack =>
    match ddb_map_lookup_str keys_map key with
    | none => Res.undefined
    | some none => Res.undefined
    | some (some values) =>
      match E.ddb_delta_encode values with
      | none => Res.null
      | some (buf, duplicates) =>
        let pack1 := if duplicates = true then
          { pack with head := SETFLAG pack.head Flag.F_MULTISET } else pack
        (buffer_toc_mark pack1).bind fun pack2 =>
        (buffer_write_data E pack2 (le_bytes 4 key.val.length)).bind fun pack3 =>
        (buffer_write_data E pack3 key.val).bind fun pack4 =>
        (buffer_write_data E pack4 buf).bind fun pack5 =>
        if i = INT_MAX then Res.undefined
        else pack_key2values_loop E keys_map (i + 1) rest pack5

/-- The C function `pack_key2values`; `keys` is the array returned by `pack_hash`. -/
def pack_key2values (E : Env) (pack : ddb_packed) (keys : List (Option ddb_entry))
    (keys_map : ddb_map (Option (List Nat))) : Res ddb_packed :=
  let num := pack.head.num_keys % U32
  (buffer_new_section E pack ((num + 1) % U32)).bind fun pack1 =>
    if keys.length < num then Res.out_of_bounds
    else
      (pack_key2values_loop E keys_map 0 (keys.take num) pack1).bind fun pack2 =>
        buffer_toc_mark pack2

/-- The loop of `pack_id2value` over the cursor of the values map. -/
def pack_id2value_loop (E : Env) (disable_compr : Bool) (code : List Nat) :
    List ddb_entry → ddb_packed → Res ddb_packed
  | [], pack => Res.ok pack
  | key :: rest, pack =>
    (if disable_compr = true then Res.ok key.val
     else
      match E.ddb_compress code key.val with
      | none => Res.null
      | some buf => Res.ok buf).bind fun val =>
    (buffer_toc_mark pack).bind fun pack1 =>
    (buffer_write_data E pack1 val).bind fun pack2 =>
    pack_id2value_loop E disable_compr code rest pack2

/-- The C function `pack_id2value`. The cursor of the values map yields its keys
in insertion order (spec, section 6). The number of TOC entries is
`ddb_map_num_items(values_map) + 1`, taken as the spec gives it (`num_uniq_values + 1`):
the C type of `ddb_map_num_items` is declared in the absent `ddb_map.h`. -/
def pack_id2value (E : Env) (pack : ddb_packed) (values_map : Option (ddb_map Nat))
    (disable_compr : Bool) : Res ddb_packed :=
  match values_map with
  | none => Res.undefined
  | some vm =>
    (buffer_new_section E pack (ddb_map_num_items vm + 1)).bind fun pack1 =>
    (if disable_compr = false then
      let pack2 := { pack1 with head := SETFLAG pack1.head Flag.F_COMPRESSED }
      match E.ddb_create_codemap vm with
      | none => Res.null
      | some code =>
        match E.ddb_save_codemap code with
        | none => Res.null
        | some codebook =>
          Res.ok ({ pack2 with head := { pack2.head with codebook := codebook } }, code)
     else Res.ok (pack1, [])).bind fun pc =>
    if E.values_cursor = false then Res.null
    else
      (pack_id2value_loop E disable_compr pc.2 (vm.items.map Prod.fst) pc.1).bind fun pack3 =>
      (buffer_toc_mark pack3).bind fun pack4 =>
      buffer_write_data E pack4 (le_bytes 4 0)

/-- The `while` loop of `pack_hash`: each key of the cursor is stored at
`order[i++]`, where `i` is first replaced by the hash of the key when a hash was
built. A store outside the `num_keys` entries of `order` is a memory fault. -/
def pack_hash_loop (E : Env) (hash : Option (List Nat)) (num_keys : Nat) :
    Nat → List ddb_entry → List (Option ddb_entry) → Res (List (Option ddb_entry))
  | _, [], order => Res.ok order
  | i, key :: rest, order =>
    let i1 := match hash with
      | some h => E.cmph_search_packed h key.val % U32
      | none => i
    if num_keys ≤ i1 then Res.out_of_bounds
    else pack_hash_loop E hash num_keys ((i1 + 1) % U32) rest (order.set i1 (some key))

/-- The C function `pack_hash`. The result of `buffer_new_section(pack, 0)` is
ignored by the source; had the call failed, `pack->buffer` would be `NULL` for
the copy that follows, so that case is undefined behaviour here. The fresh
`order` array holds no initialized entry. -/
def pack_hash (E : Env) (pack : ddb_packed) (keys_map : ddb_map (Option (List Nat))) :
    Res (ddb_packed × List (Option ddb_entry)) :=
  let num_keys := pack.head.num_keys
  if E.malloc ((num_keys * E.sizeof_entry) % U64) = false then Res.null
  else
    (if num_keys > E.DDB_HASH_MIN_KEYS then
      match E.ddb_build_cmph keys_map with
      | none => Res.null
      | some hash =>
        match buffer_new_section E pack 0 with
        | Res.ok pack1 =>
          (buffer_write_data E pack1 hash).bind fun pack2 =>
            Res.ok ({ pack2 with head := SETFLAG pack2.head Flag.F_HASH }, some hash)
        | _ => Res.undefined
     else Res.ok (pack, none)).bind fun ph =>
    if E.keys_cursor = false then Res.null
    else
      (pack_hash_loop E ph.2 num_keys 0 (keys_map.items.map Prod.fst)
        (List.replicate num_keys none)).bind fun order =>
      Res.ok (ph.1, order)

/-- The C function `pack_header`. The result of `buffer_new_section(pack, 0)` is
ignored by the source; had the call failed, `pack->head` would be `NULL` for the
assignments of `ddb_finalize` that follow, so that case is undefined behaviour
here. A null map pointer is dereferenced by `ddb_map_num_items`. -/
def pack_header (E : Env) (pack : ddb_packed) (cons : ddb_cons) : Res ddb_packed :=
  match buffer_new_section E pack 0 with
  | Res.ok pack1 =>
    match cons.keys_map, cons.values_map with
    | some keys_map, some values_map =>
      Res.ok { pack1 with head :=
        { ddb_header_zero with
          magic := E.DISCODB_MAGIC,
          num_keys := ddb_map_num_items keys_map,
          num_uniq_values := ddb_map_num_items values_map,
          num_values := cons.num_values,
          flags := [] } }
    | _, _ => Res.undefined
  | _ => Res.undefined

/-- The argument `flags & DDB_OPT_DISABLE_COMPRESSION` of `pack_id2value`: a
`uint64_t` converted to the `int` parameter `disable_compr`, which is then only
tested against zero. -/
def disable_compr_arg (E : Env) (flags : Nat) : Bool :=
  decide (((flags % U64) &&& (E.DDB_OPT_DISABLE_COMPRESSION % U64)) % U32 ≠ 0)

/-- The C function `ddb_finalize`. The result holds the returned image, the value
stored in `*length` and the builder as the call leaves it. -/
def ddb_finalize (E : Env) (cons : ddb_cons) (flags : Nat) :
    Res (ddb_image × Nat × ddb_cons) :=
  (buffer_init E).bind fun pack0 =>
  (pack_header E pack0 cons).bind fun pack1 =>
  let pack2 := { pack1 with head := { pack1.head with hash_offs := pack1.offs } }
  match cons.keys_map with
  | none => Res.undefined
  | some keys_map =>
    (pack_hash E pack2 keys_map).bind fun po =>
    let pack3 := { po.1 with head := { po.1.head with key2values_offs := po.1.offs } }
    (pack_key2values E pack3 po.2 keys_map).bind fun pack4 =>
    let pack5 := { pack4 with head := { pack4.head with id2value_offs := pack4.offs } }
    (pack_id2value E pack5 cons.values_map (disable_compr_arg E flags)).bind fun pack6 =>
    let cons1 := { cons with values_map := none }
    let pack7 := { pack6 with head := { pack6.head with size := pack6.offs } }
    (buffer_shrink E pack7).bind fun image =>
    Res.ok (image, pack6.offs, cons1)

/-! ## Reading the image -/

/-- Entry `i` of the TOC that starts at offset `section_offs` of the image: a
little-endian 64-bit offset. -/
def toc_entry (img : ddb_image) (section_offs i : Nat) : Nat :=
  le_value (slice img.buffer (section_offs + 8 * i) 8)

/-- The payload of record `i` of a section: the bytes `[toc[i], toc[i+1])`. -/
def toc_record (img : ddb_image) (section_offs i : Nat) : List Nat :=
  slice img.buffer (toc_entry img section_offs i)
    (toc_entry img section_offs (i + 1) - toc_entry img section_offs i)

/-- The reader-side collaborators: the decoder of the delta encoding, which yields
the ids of a blob, and the decompressor of a value under a serialized codebook. -/
structure Reader where
  ddb_delta_decode : List Nat → List Nat
  ddb_decompress : List Nat → List Nat → List Nat

/-- Modelled from the spec: the key stored in record `i` of the key-to-values
section and the encoded ids that follow it; the payload of a key record is
`(u32 key_len, key_bytes, encoded_value_ids)` (spec, section 6). The reader is
not part of the sources at hand. -/
def reader_key_record (img : ddb_image) (i : Nat) : List Nat × List Nat :=
  let r := toc_record img img.head.key2values_offs i
  let len := le_value (r.take 4)
  ((r.drop 4).take len, (r.drop 4).drop len)

/-- Modelled from the spec: the search of the record of a key by the reader. With
`F_HASH` the record is indexed by the hash of the key, computed on the hash
section (the bytes between `hash_offs` and `key2values_offs`), and membership is
confirmed by comparing the stored key (spec, section 4.5); without it the
records are searched linearly. The result is the encoded id list of the record. -/
def reader_find (E : Env) (img : ddb_image) (key : List Nat) : Option (List Nat) :=
  if HASFLAG img.head Flag.F_HASH = true then
    let hash := slice img.buffer img.head.hash_offs
      (img.head.key2values_offs - img.head.hash_offs)
    let i := E.cmph_search_packed hash key % U32
    if i < img.head.num_keys ∧ (reader_key_record img i).1 = key then
      some (reader_key_record img i).2
    else none
  else
    (List.range img.head.num_keys).findSome? fun i =>
      if (reader_key_record img i).1 = key then some (reader_key_record img i).2 else none

/-- Modelled from the spec: the value of an id as the reader obtains it, from
record `id - 1` of the id-to-value section: raw bytes, or the decompression of
the record under the codebook of the header when `F_COMPRESSED` is set. -/
def reader_value (R : Reader) (img : ddb_image) (id : Nat) : List Nat :=
  let r := toc_record img img.head.id2value_offs (id - 1)
  if HASFLAG img.head Flag.F_COMPRESSED = true then R.ddb_decompress img.head.codebook r
  else r

/-- Modelled from the spec: the values the reader returns for a key. -/
def reader_lookup (E : Env) (R : Reader) (img : ddb_image) (key : List Nat) :
    List (List Nat) :=
  match reader_find E img key with
  | none => []
  | some enc => (R.ddb_delta_decode enc).map (reader_value R img)

/-! ## Reference functions used to state the layout of the image -/

/-- The memory after a run of records has been written the way both section
loops do it: for each record, the write cursor `o` is stored at the TOC cursor
`t`, then the record is appended at `o`. -/
def write_records (buf : Nat → Nat) : Nat → Nat → List (List Nat) → (Nat → Nat)
  | _, _, [] => buf
  | t, o, r :: rs =>
    write_records (memcpy (memcpy buf t (le_bytes 8 o)) o r) (t + 8) (o + r.length) rs

/-- Total number of bytes of a list of records. -/
def total_length (rs : List (List Nat)) : Nat := (rs.map List.length).sum

/-- The record written for a key in the key-to-values section: the four bytes
of its length, its bytes, and the delta encoding of its id list. -/
def key_record (E : Env) (keys_map : ddb_map (Option (List Nat))) (key : ddb_entry) :
    List Nat :=
  match ddb_map_lookup_str keys_map key with
  | some (some values) =>
    match E.ddb_delta_encode values with
    | some (buf, _) => le_bytes 4 key.val.length ++ key.val ++ buf
    | none => []
  | _ => []

/-- Whether the delta encoder reports duplicates for the id list of a key. -/
def key_duplicates (E : Env) (keys_map : ddb_map (Option (List Nat))) (key : ddb_entry) :
    Bool :=
  match ddb_map_lookup_str keys_map key with
  | some (some values) =>
    match E.ddb_delta_encode values with
    | some (_, duplicates) => duplicates
    | none => false
  | _ => false

/-- The record written for a value in the id-to-value section: its bytes, or
their compression under the code map. -/
def value_record (E : Env) (disable_compr : Bool) (code : List Nat) (v : ddb_entry) :
    List Nat :=
  if disable_compr = true then v.val else (E.ddb_compress code v.val).getD []

/-- The memory after a whole section has been written at offset `s`: a TOC of
`recs.length + 1` entries, the records, and the end offset in the last entry. -/
def write_section (buf : Nat → Nat) (s : Nat) (recs : List (List Nat)) : Nat → Nat :=
  memcpy (write_records buf s (s + 8 * (recs.length + 1)) recs) (s + 8 * recs.length)
    (le_bytes 8 (s + 8 * (recs.length + 1) + total_length recs))

/-- The offset at which a section written at `s` ends. -/
def section_end (s : Nat) (recs : List (List Nat)) : Nat :=
  s + 8 * (recs.length + 1) + total_length recs

/-- The layout of a finalized image, for a builder with keys map `km`, values map
`vm` and pair counter `num_values`, finalized with `flags`: `ks` is the order in
which the key records are laid out and `code` the code map of the compressor. -/
structure image_layout (E : Env) (km : ddb_map (Option (List Nat))) (vm : ddb_map Nat)
    (num_values flags : Nat) (img : ddb_image) (len : Nat) (ks : List ddb_entry)
    (code : List Nat) : Prop where
  magic : img.head.magic = E.DISCODB_MAGIC
  num_keys : img.head.num_keys = km.items.length
  num_uniq_values : img.head.num_uniq_values = vm.items.length
  num_values : img.head.num_values = num_values
  size : img.head.size = len
  alloc : img.alloc = len
  hash_offs : img.head.hash_offs = E.sizeof_header % U64
  key2values_offs_hash : km.items.length > E.DDB_HASH_MIN_KEYS →
    ∃ hash, E.ddb_build_cmph km = some hash ∧
      img.head.key2values_offs = img.head.hash_offs + hash.length ∧
      (∀ k ∈ km.items.map Prod.fst,
        E.cmph_search_packed hash k.val % U32 < km.items.length ∧
        ks[E.cmph_search_packed hash k.val % U32]? = some k)
  key2values_offs_plain : ¬ km.items.length > E.DDB_HASH_MIN_KEYS →
    img.head.key2values_offs = img.head.hash_offs ∧ ks = km.items.map Prod.fst
  id2value_offs : img.head.id2value_offs =
    section_end img.head.key2values_offs (ks.map (key_record E km))
  length : len = section_end img.head.id2value_offs
    ((vm.items.map Prod.fst).map (value_record E (disable_compr_arg E flags) code)) + 4
  length_lt : len < U64
  buffer : ∃ B0 : Nat → Nat,
    img.buffer = memcpy
      (write_section
        (write_section B0 img.head.key2values_offs (ks.map (key_record E km)))
        img.head.id2value_offs
        ((vm.items.map Prod.fst).map (value_record E (disable_compr_arg E flags) code)))
      (len - 4) (le_bytes 4 0) ∧
    (km.items.length > E.DDB_HASH_MIN_KEYS → ∀ hash, E.ddb_build_cmph km = some hash →
      B0 = memcpy E.fresh img.head.hash_offs hash)
  ks_length : ks.length = km.items.length
  ks_mem : ∀ k, k ∈ ks ↔ k ∈ km.items.map Prod.fst
  ks_ok : ∀ k ∈ ks, ∃ ids buf d, ddb_map_lookup_str km k = some (some ids) ∧
    E.ddb_delta_encode ids = some (buf, d)
  num_keys_le : km.items.length ≤ INT_MAX
  flag_hash : Flag.F_HASH ∈ img.head.flags ↔ km.items.length > E.DDB_HASH_MIN_KEYS
  flag_multiset : Flag.F_MULTISET ∈ img.head.flags ↔
    ∃ k ∈ ks, key_duplicates E km k = true
  flag_compressed : Flag.F_COMPRESSED ∈ img.head.flags ↔ disable_compr_arg E flags = false
  codebook : disable_compr_arg E flags = false →
    E.ddb_create_codemap vm = some code ∧ E.ddb_save_codemap code = some img.head.codebook ∧
    ∀ v ∈ vm.items.map Prod.fst, ∃ out, E.ddb_compress code v.val = some out

/-! ## Builders obtained by adds, and sample data -/

/-- The builder `db` is what a sequence `l` of successful `ddb_add` calls on a new
builder leaves. -/
def built_by (l : List (add_alloc × ddb_entry × ddb_entry)) (db : ddb_cons) : Prop :=
  ∃ (c k v : Bool) (db0 : ddb_cons),
    ddb_cons_new c k v = some db0 ∧ ddb_add_all db0 l = Res.ok db

/-- Allocation outcomes of a call of `ddb_add` in which no allocation fails. -/
def alloc_ok : add_alloc :=
  { values_insert := true, keys_insert := true, list_new := true, list_append := true }

/-- The entry `"k"`. -/
def entry_k : ddb_entry := ⟨[107], by decide⟩

/-- The entry `"a"`. -/
def entry_a : ddb_entry := ⟨[97], by decide⟩

/-- The entry `"b"`. -/
def entry_b : ddb_entry := ⟨[98], by decide⟩

/-- The calls `add(k,a); add(k,b); add(k,a)` of scenario S6 of the spec. -/
def sample_adds : List (add_alloc × ddb_entry × ddb_entry) :=
  [(alloc_ok, entry_k, entry_a), (alloc_ok, entry_k, entry_b), (alloc_ok, entry_k, entry_a)]

/-- The builder after `sample_adds`. -/
def sample_db : ddb_cons :=
  { values_map := some { max_num_items := UINT_MAX, items := [(entry_a, 1), (entry_b, 2)] },
    keys_map := some { max_num_items := UINT_MAX, items := [(entry_k, some [1, 2, 1])] },
    num_values := 3 }

/-- The call `add(k,a)` repeated `n` times. -/
def repeated_adds (n : Nat) : List (add_alloc × ddb_entry × ddb_entry) :=
  List.replicate n (alloc_ok, entry_k, entry_a)

/-- The builder after `n` calls `add(k,a)`, for `n ≥ 1`. -/
def repeated_db (n : Nat) : ddb_cons :=
  { values_map := some { max_num_items := UINT_MAX, items := [(entry_a, 1)] },
    keys_map := some { max_num_items := UINT_MAX,
                       items := [(entry_k, some (List.replicate n 1))] },
    num_values := n % U32 }

/-- A sample environment: no allocation fails, the delta encoder emits the ids
themselves and reports duplicates exactly when an id is repeated, values are
compressed by the identity, and the hash threshold is 32 keys. -/
def sample_env : Env :=
  { sizeof_header := 64, sizeof_entry := 16, DISCODB_MAGIC := 1296580683,
    DDB_HASH_MIN_KEYS := 32, DDB_OPT_DISABLE_COMPRESSION := 1,
    fresh := fun _ => 0, fresh_head := ddb_header_zero,
    realloc := fun _ => true, realloc_shrink := fun _ => true, malloc := fun _ => true,
    keys_cursor := true, values_cursor := true,
    ddb_delta_encode := fun ids => some (ids, decide (¬ ids.Nodup)),
    ddb_build_cmph := fun _ => some [],
    cmph_search_packed := fun _ _ => 0,
    ddb_create_codemap := fun _ => some [],
    ddb_save_codemap := fun _ => some [],
    ddb_compress := fun _ v => some v }

/-- A second sample environment, in which every non-empty key map is hashed: the
threshold is 0 keys, the hash is the one-byte record of the number of keys, and a
key is sent to its first byte modulo that number. -/
def hash_env : Env :=
  { sample_env with
    DDB_HASH_MIN_KEYS := 0,
    ddb_build_cmph := fun km => some [km.items.length],
    cmph_search_packed := fun hash key => key.headD 0 % hash.headD 1 }

/-- The reader-side collaborators that match `sample_env`. -/
def sample_reader : Reader :=
  { ddb_delta_decode := fun buf => buf, ddb_decompress := fun _ v => v }

/-- The delta encoding of the id list of a key, as `pack_key2values` obtains it. -/
def key_encoding (E : Env) (keys_map : ddb_map (Option (List Nat))) (key : ddb_entry) :
    List Nat :=
  match ddb_map_lookup_str keys_map key with
  | some (some values) =>
    match E.ddb_delta_encode values with
    | some (buf, _) => buf
    | none => []
  | _ => []

/-! ## States and builders used in examples of the buffer and of the empty store -/

/-- A buffer state of the shape `buffer_init` hands to `_buffer_grow` (capacity 0,
write cursor at the size of the header), for a header of 128 MiB. -/
def large_header_state : ddb_packed :=
  { toc_offs := 0, offs := 134217728, size := 0, buffer := fun _ => 0,
    head := ddb_header_zero }

/-- A buffer state whose write cursor lies inside the capacity, two bytes below
`2^64`. -/
def wrapping_state : ddb_packed :=
  { toc_offs := 0, offs := 18446744073709551614, size := 18446744073709551615,
    buffer := fun _ => 0, head := ddb_header_zero }

/-- A buffer state after `buffer_init` for a header of 64 bytes. -/
def initial_state : ddb_packed :=
  { toc_offs := 0, offs := 64, size := 67108928, buffer := fun _ => 0,
    head := ddb_header_zero }

/-- The `order` array that `ddb_finalize` obtains from `pack_hash`: the calls of
`ddb_finalize` up to and including `pack_hash`. -/
def finalize_order (E : Env) (cons : ddb_cons) : Res (List (Option ddb_entry)) :=
  (buffer_init E).bind fun pack0 =>
  (pack_header E pack0 cons).bind fun pack1 =>
  let pack2 := { pack1 with head := { pack1.head with hash_offs := pack1.offs } }
  match cons.keys_map with
  | none => Res.undefined
  | some keys_map =>
    (pack_hash E pack2 keys_map).bind fun po => Res.ok po.2

/-! ## Fault-free results and the size of a run -/

/-- A result that is neither a memory fault nor undefined behaviour: a success
whose value satisfies `P`, or the error value of the function. -/
def Res.safe {α : Type} (r : Res α) (P : α → Prop) : Prop :=
  match r with
  | Res.ok a => P a
  | Res.null => True
  | Res.out_of_bounds => False
  | Res.undefined => False

/-- An upper bound of every offset and capacity that a run of `ddb_finalize` can
reach: twice the header, the hash blob, both TOCs, all records, the trailing
four bytes, and the slack `BUFFER_INC = 67108864` of every growth that can take
place (three per key record, one per value record, eight for the rest). -/
def image_bound (E : Env) (km : ddb_map (Option (List Nat))) (vm : ddb_map Nat)
    (flags : Nat) : Nat :=
  2 * E.sizeof_header + ((E.ddb_build_cmph km).getD []).length +
    8 * (km.items.length + 1) +
    total_length ((km.items.map Prod.fst).map (key_record E km)) +
    8 * (vm.items.length + 1) +
    total_length ((vm.items.map Prod.fst).map
      (value_record E (disable_compr_arg E flags) ((E.ddb_create_codemap vm).getD []))) +
    201326592 * km.items.length + 67108864 * vm.items.length + 536870916

/-! ## Lemmas on results -/

theorem Res.bind_eq_ok {α β : Type} {r : Res α} {f : α → Res β} {b : β} :
    r.bind f = Res.ok b ↔ ∃ a, r = Res.ok a ∧ f a = Res.ok b := by
  cases r <;> simp [Res.bind]

theorem Res.bind_ok {α β : Type} (a : α) (f : α → Res β) : (Res.ok a).bind f = f a := rfl

/-! ## Lemmas on association lists -/

theorem assoc_lookup_eq_none_iff {α : Type} (k : ddb_entry) (l : List (ddb_entry × α)) :
    assoc_lookup k l = none ↔ k ∉ l.map Prod.fst := by
  induction l with
  | nil => simp [assoc_lookup]
  | cons e rest ih =>
    obtain ⟨k', v⟩ := e
    by_cases h : k' = k
    · simp [assoc_lookup, h]
    · have h' : ¬ k = k' := fun e => h e.symm
      simp [assoc_lookup, h, h', ih]

theorem assoc_lookup_mem {α : Type} {k : ddb_entry} {l : List (ddb_entry × α)} {v : α}
    (h : assoc_lookup k l = some v) : (k, v) ∈ l := by
  induction l with
  | nil => simp [assoc_lookup] at h
  | cons e rest ih =>
    obtain ⟨k', v'⟩ := e
    by_cases hk : k' = k
    · simp [assoc_lookup, hk] at h
      simp [hk, h]
    · simp [assoc_lookup, hk] at h
      exact List.mem_cons_of_mem _ (ih h)

theorem assoc_lookup_append_some {α : Type} {k : ddb_entry} {l₁ : List (ddb_entry × α)} {v : α}
    (l₂ : List (ddb_entry × α)) (h : assoc_lookup k l₁ = some v) :
    assoc_lookup k (l₁ ++ l₂) = some v := by
  induction l₁ with
  | nil => simp [assoc_lookup] at h
  | cons e rest ih =>
    obtain ⟨k', v'⟩ := e
    by_cases hk : k' = k
    · simpa [assoc_lookup, hk] using h
    · simp [assoc_lookup, hk] at h
      simpa [assoc_lookup, hk] using ih h

theorem assoc_lookup_append_none {α : Type} {k : ddb_entry} {l₁ : List (ddb_entry × α)}
    (l₂ : List (ddb_entry × α)) (h : assoc_lookup k l₁ = none) :
    assoc_lookup k (l₁ ++ l₂) = assoc_lookup k l₂ := by
  induction l₁ with
  | nil => rfl
  | cons e rest ih =>
    obtain ⟨k', v'⟩ := e
    by_cases hk : k' = k
    · simp [assoc_lookup, hk] at h
    · simp [assoc_lookup, hk] at h
      simpa [assoc_lookup, hk] using ih h

theorem assoc_store_map_fst {α : Type} (k : ddb_entry) (v : α) (l : List (ddb_entry × α)) :
    (assoc_store k v l).map Prod.fst = l.map Prod.fst := by
  induction l with
  | nil => rfl
  | cons e rest ih =>
    obtain ⟨k', v'⟩ := e
    by_cases hk : k' = k
    · simp [assoc_store, hk]
    · simp [assoc_store, hk, ih]

theorem assoc_lookup_store_self {α : Type} {k : ddb_entry} (v : α) {l : List (ddb_entry × α)}
    (h : k ∈ l.map Prod.fst) : assoc_lookup k (assoc_store k v l) = some v := by
  induction l with
  | nil => simp at h
  | cons e rest ih =>
    obtain ⟨k', v'⟩ := e
    by_cases hk : k' = k
    · simp [assoc_store, assoc_lookup, hk]
    · have h' : k ∈ rest.map Prod.fst := by
        simp only [List.map_cons, List.mem_cons] at h
        rcases h with h | h
        · exact absurd h.symm hk
        · exact h
      simp [assoc_store, assoc_lookup, hk, ih h']

theorem assoc_lookup_store_other {α : Type} {k k' : ddb_entry} (v : α)
    (l : List (ddb_entry × α)) (h : k' ≠ k) :
    assoc_lookup k' (assoc_store k v l) = assoc_lookup k' l := by
  induction l with
  | nil => rfl
  | cons e rest ih =>
    obtain ⟨k'', v''⟩ := e
    by_cases hk : k'' = k
    · subst hk
      have : ¬ k'' = k' := fun e => h e.symm
      simp [assoc_store, assoc_lookup, this]
    · by_cases hk' : k'' = k'
      · subst hk'
        simp [assoc_store, assoc_lookup, hk]
      · simp [assoc_store, assoc_lookup, hk, hk', ih]

theorem assoc_store_append_fresh {α : Type} {k : ddb_entry} (z v : α)
    {l : List (ddb_entry × α)} (h : k ∉ l.map Prod.fst) :
    assoc_store k v (l ++ [(k, z)]) = l ++ [(k, v)] := by
  induction l with
  | nil => simp [assoc_store]
  | cons e rest ih =>
    obtain ⟨k', v'⟩ := e
    simp only [List.map_cons, List.mem_cons, not_or] at h
    have hk : ¬ k' = k := fun e => h.1 e.symm
    simp [assoc_store, hk, ih h.2]

/-! ## Lemmas on `first_occurrences` -/

theorem mem_first_occurrences (y : ddb_entry) (l : List ddb_entry) :
    y ∈ first_occurrences l ↔ y ∈ l := by
  induction l with
  | nil => simp [first_occurrences]
  | cons x xs ih =>
    by_cases h : y = x
    · simp [first_occurrences, h]
    · simp [first_occurrences, h, ih, List.mem_filter]

theorem nodup_first_occurrences (l : List ddb_entry) : (first_occurrences l).Nodup := by
  induction l with
  | nil => simp [first_occurrences]
  | cons x xs ih =>
    simp only [first_occurrences, List.nodup_cons]
    refine ⟨?_, ih.filter _⟩
    simp [List.mem_filter]

theorem first_occurrences_append_singleton (l : List ddb_entry) (x : ddb_entry) :
    first_occurrences (l ++ [x]) =
      if x ∈ l then first_occurrences l else first_occurrences l ++ [x] := by
  induction l with
  | nil => simp [first_occurrences]
  | cons y ys ih =>
    have e1 : first_occurrences (y :: (ys ++ [x])) =
        y :: (first_occurrences (ys ++ [x])).filter (fun z => decide (z ≠ y)) := rfl
    have e2 : first_occurrences (y :: ys) =
        y :: (first_occurrences ys).filter (fun z => decide (z ≠ y)) := rfl
    rw [List.cons_append, e1, e2, ih]
    by_cases hxy : x = y
    · subst hxy
      by_cases hx : x ∈ ys
      · simp [hx]
      · simp [hx, List.filter_append]
    · by_cases hx : x ∈ ys
      · simp [hx, hxy]
      · simp [hx, hxy, List.filter_append]

theorem length_first_occurrences_le (l : List ddb_entry) :
    (first_occurrences l).length ≤ l.length := by
  induction l with
  | nil => simp [first_occurrences]
  | cons x xs ih =>
    simp only [first_occurrences, List.length_cons]
    exact Nat.succ_le_succ (le_trans (List.length_filter_le _ _) ih)

theorem intern_value_spec {alloc : Bool} {vm vm1 : ddb_map Nat} {v : ddb_entry}
    (hvs : vm.items.map Prod.snd = List.range' 1 vm.items.length)
    (h : ddb_map_insert_str 0 alloc vm v = some vm1) :
    (v ∈ vm.items.map Prod.fst ∧
      (if (ddb_map_lookup_str vm1 v).getD 0 = 0 then
        ddb_map_store vm1 v (ddb_map_num_items vm1) else vm1) = vm) ∨
    (v ∉ vm.items.map Prod.fst ∧ vm.items.length < vm.max_num_items ∧
      (if (ddb_map_lookup_str vm1 v).getD 0 = 0 then
        ddb_map_store vm1 v (ddb_map_num_items vm1) else vm1) =
        { vm with items := vm.items ++ [(v, vm.items.length + 1)] }) := by
  unfold ddb_map_insert_str at h
  cases hl : assoc_lookup v vm.items with
  | some id =>
    rw [hl] at h
    simp only [Option.some.injEq] at h
    subst h
    left
    have hmem : v ∈ vm.items.map Prod.fst := by
      by_contra hc
      rw [← assoc_lookup_eq_none_iff] at hc
      rw [hc] at hl
      cases hl
    have hid : id ∈ vm.items.map Prod.snd := List.mem_map.mpr ⟨(v, id), assoc_lookup_mem hl, rfl⟩
    rw [hvs, List.mem_range'_1] at hid
    have hne : id ≠ 0 := by omega
    refine ⟨hmem, ?_⟩
    simp [ddb_map_lookup_str, hl, hne]
  | none =>
    rw [hl] at h
    right
    have hnot : v ∉ vm.items.map Prod.fst := (assoc_lookup_eq_none_iff v vm.items).mp hl
    by_cases hc : alloc = true ∧ vm.items.length < vm.max_num_items
    · rw [if_pos hc] at h
      simp only [Option.some.injEq] at h
      subst h
      refine ⟨hnot, hc.2, ?_⟩
      have h0 : assoc_lookup v (vm.items ++ [(v, 0)]) = some 0 := by
        rw [assoc_lookup_append_none _ hl]
        simp [assoc_lookup]
      simp [ddb_map_lookup_str, h0, ddb_map_store, ddb_map_num_items,
        assoc_store_append_fresh 0 _ hnot]
    · rw [if_neg hc] at h
      cases h

theorem assoc_lookup_append_singleton {α : Type} (k k' : ddb_entry) (x : α)
    (l : List (ddb_entry × α)) :
    assoc_lookup k' (l ++ [(k, x)]) =
      match assoc_lookup k' l with
      | some s => some s
      | none => if k = k' then some x else none := by
  cases h : assoc_lookup k' l with
  | some s => simp [assoc_lookup_append_some _ h]
  | none => simp [assoc_lookup_append_none _ h, assoc_lookup]

theorem intern_key_spec {alloc a_new a_app : Bool} {km km1 : ddb_map (Option (List Nat))}
    {k : ddb_entry} {vid : Nat} {value_list value_list1 : List Nat}
    (hsome : ∀ s, assoc_lookup k km.items = some s → s ≠ none)
    (h : ddb_map_insert_str none alloc km k = some km1)
    (h1 : (if ((ddb_map_lookup_str km1 k).getD none).isNone then ddb_list_new a_new
            else (ddb_map_lookup_str km1 k).getD none) = some value_list)
    (h2 : ddb_list_append a_app value_list vid = some value_list1) :
    (∃ ids, assoc_lookup k km.items = some (some ids) ∧ km1 = km ∧
        value_list1 = ids ++ [vid]) ∨
    (assoc_lookup k km.items = none ∧ km.items.length < km.max_num_items ∧
        km1 = { km with items := km.items ++ [(k, none)] } ∧ value_list1 = [vid]) := by
  have h2' : value_list1 = value_list ++ [vid] := by
    unfold ddb_list_append at h2
    by_cases ha : a_app = true
    · simp [ha] at h2
      exact h2.symm
    · simp [ha] at h2
  unfold ddb_map_insert_str at h
  cases hl : assoc_lookup k km.items with
  | some s =>
    rw [hl] at h
    simp only [Option.some.injEq] at h
    subst h
    left
    have hs := hsome s hl
    cases s with
    | none => exact absurd rfl hs
    | some ids =>
      refine ⟨ids, rfl, rfl, ?_⟩
      simp [ddb_map_lookup_str, hl] at h1
      rw [h2', h1]
  | none =>
    rw [hl] at h
    right
    by_cases hc : alloc = true ∧ km.items.length < km.max_num_items
    · rw [if_pos hc] at h
      simp only [Option.some.injEq] at h
      subst h
      have h0 : assoc_lookup k (km.items ++ [(k, (none : Option (List Nat)))]) = some none := by
        rw [assoc_lookup_append_none _ hl]
        simp [assoc_lookup]
      simp only [ddb_map_lookup_str, h0, Option.getD_some, Option.isNone_none, if_true] at h1
      unfold ddb_list_new at h1
      by_cases hn : a_new = true
      · simp [hn] at h1
        refine ⟨rfl, hc.2, rfl, ?_⟩
        rw [h2', h1]
        rfl
      · simp [hn] at h1
    · rw [if_neg hc] at h
      cases h

theorem added_values_append (p : List (add_alloc × ddb_entry × ddb_entry)) (a : add_alloc)
    (k v : ddb_entry) : added_values (p ++ [(a, k, v)]) = added_values p ++ [v] := by
  simp [added_values]

theorem added_keys_append (p : List (add_alloc × ddb_entry × ddb_entry)) (a : add_alloc)
    (k v : ddb_entry) : added_keys (p ++ [(a, k, v)]) = added_keys p ++ [k] := by
  simp [added_keys]

theorem values_of_key_append (p : List (add_alloc × ddb_entry × ddb_entry)) (a : add_alloc)
    (k v k' : ddb_entry) :
    values_of_key (p ++ [(a, k, v)]) k' =
      values_of_key p k' ++ (if k = k' then [v] else []) := by
  by_cases h : k = k'
  · simp [values_of_key, List.filter_append, List.filter_cons, h]
  · simp [values_of_key, List.filter_append, List.filter_cons, h]

theorem values_of_key_subset (p : List (add_alloc × ddb_entry × ddb_entry)) (k : ddb_entry) :
    ∀ w ∈ values_of_key p k, w ∈ added_values p := by
  intro w hw
  simp only [values_of_key, List.mem_map, List.mem_filter] at hw
  obtain ⟨x, ⟨hx, _⟩, rfl⟩ := hw
  exact List.mem_map.mpr ⟨x, hx, rfl⟩

theorem values_of_key_eq_nil (p : List (add_alloc × ddb_entry × ddb_entry)) (k : ddb_entry)
    (h : k ∉ added_keys p) : values_of_key p k = [] := by
  simp only [values_of_key, List.map_eq_nil_iff, List.filter_eq_nil_iff]
  intro x hx
  simp only [decide_eq_true_eq]
  intro hk
  exact h (List.mem_map.mpr ⟨x, hx, hk⟩)

theorem values_part {p : List (add_alloc × ddb_entry × ddb_entry)} {vm vm2 : ddb_map Nat}
    {v : ddb_entry}
    (hvmax : vm.max_num_items = UINT_MAX)
    (hvf : vm.items.map Prod.fst = first_occurrences (added_values p))
    (hvs : vm.items.map Prod.snd = List.range' 1 vm.items.length)
    (hspec : (v ∈ vm.items.map Prod.fst ∧ vm2 = vm) ∨
      (v ∉ vm.items.map Prod.fst ∧ vm.items.length < vm.max_num_items ∧
        vm2 = { vm with items := vm.items ++ [(v, vm.items.length + 1)] })) :
    vm2.max_num_items = UINT_MAX ∧ (vm.items.length ≤ UINT_MAX → vm2.items.length ≤ UINT_MAX) ∧
    vm2.items.map Prod.fst = first_occurrences (added_values p ++ [v]) ∧
    vm2.items.map Prod.snd = List.range' 1 vm2.items.length ∧
    (∀ w ∈ added_values p, value_id_of vm2 w = value_id_of vm w) ∧
    (v ∈ vm2.items.map Prod.fst) := by
  rcases hspec with ⟨hmem, rfl⟩ | ⟨hnot, hlt, rfl⟩
  · have hv : v ∈ added_values p := by
      rw [hvf, mem_first_occurrences] at hmem
      exact hmem
    refine ⟨hvmax, fun h => h, ?_, hvs, fun _ _ => rfl, hmem⟩
    rw [first_occurrences_append_singleton, if_pos hv, hvf]
  · have hv : v ∉ added_values p := by
      rw [hvf, mem_first_occurrences] at hnot
      exact hnot
    refine ⟨hvmax, fun _ => ?_, ?_, ?_, ?_, ?_⟩
    · simp only [List.length_append, List.length_singleton]
      rw [hvmax] at hlt
      omega
    · rw [first_occurrences_append_singleton, if_neg hv]
      simp [hvf]
    · simp only [List.map_append, List.map_cons, List.map_nil, List.length_append,
        List.length_singleton, List.range'_1_concat, hvs]
      rw [Nat.add_comm 1]
    · intro w hw
      have hw' : w ∈ vm.items.map Prod.fst := by
        rw [hvf, mem_first_occurrences]
        exact hw
      cases hl : assoc_lookup w vm.items with
      | none =>
        rw [assoc_lookup_eq_none_iff] at hl
        exact absurd hw' hl
      | some id =>
        simp [value_id_of, ddb_map_lookup_str, hl, assoc_lookup_append_some _ hl]
    · simp

theorem builder_inv_step {p : List (add_alloc × ddb_entry × ddb_entry)} {a : add_alloc}
    {db db' : ddb_cons} {k v : ddb_entry}
    (h : builder_inv p db) (hadd : ddb_add a db k v = Res.ok db') :
    builder_inv (p ++ [(a, k, v)]) db' := by
  obtain ⟨vm, km, hv, hk, hvmax, hkmax, hvlen, hklen, hvf, hvs, hkf, hkl, hn⟩ := h
  unfold ddb_add at hadd
  rw [hv, hk] at hadd
  simp only at hadd
  cases hi : ddb_map_insert_str 0 a.values_insert vm v with
  | none => rw [hi] at hadd; cases hadd
  | some vm1 =>
    rw [hi] at hadd
    simp only at hadd
    cases hik : ddb_map_insert_str none a.keys_insert km k with
    | none => rw [hik] at hadd; cases hadd
    | some km1 =>
      rw [hik] at hadd
      simp only at hadd
      have hvspec := intern_value_spec hvs hi
      generalize hvm2 : (if (ddb_map_lookup_str vm1 v).getD 0 = 0 then
        ddb_map_store vm1 v (ddb_map_num_items vm1) else vm1) = vm2 at hadd hvspec
      cases hs1 : (if ((ddb_map_lookup_str km1 k).getD none).isNone = true then
          ddb_list_new a.list_new else (ddb_map_lookup_str km1 k).getD none) with
      | none => rw [hs1] at hadd; cases hadd
      | some value_list =>
        rw [hs1] at hadd
        simp only at hadd
        cases hap : ddb_list_append a.list_append value_list
            ((ddb_map_lookup_str vm2 v).getD 0) with
        | none => rw [hap] at hadd; cases hadd
        | some value_list1 =>
          rw [hap] at hadd
          simp only [Res.ok.injEq] at hadd
          subst hadd
          have hsome : ∀ s, assoc_lookup k km.items = some s → s ≠ none := by
            intro s hs
            rw [hkl k] at hs
            by_cases hkm : k ∈ added_keys p
            · rw [if_pos hkm] at hs
              simp only [Option.some.injEq] at hs
              rw [← hs]
              simp
            · rw [if_neg hkm] at hs
              cases hs
          have hkspec := intern_key_spec hsome hik hs1 hap
          obtain ⟨hvmax2, hvlen2, hvf2, hvs2, hstab, hvin⟩ := values_part hvmax hvf hvs hvspec
          have hids : ∀ k', (values_of_key p k').map (value_id_of vm2) =
              (values_of_key p k').map (value_id_of vm) := by
            intro k'
            apply List.map_congr_left
            intro w hw
            exact hstab w (values_of_key_subset p k' w hw)
          refine ⟨vm2, ddb_map_store km1 k (some value_list1), rfl, rfl, hvmax2, ?_,
            hvlen2 hvlen, ?_, ?_, hvs2, ?_, ?_, ?_⟩
          · rcases hkspec with ⟨ids, _, rfl, _⟩ | ⟨_, _, rfl, _⟩
            · exact hkmax
            · exact hkmax
          · rcases hkspec with ⟨ids, _, rfl, _⟩ | ⟨_, hlt, rfl, _⟩
            · simp only [ddb_map_store]
              rw [← List.length_map (f := Prod.fst), assoc_store_map_fst, List.length_map]
              exact hklen
            · simp only [ddb_map_store]
              rw [← List.length_map (f := Prod.fst), assoc_store_map_fst, List.length_map]
              simp only [List.length_append, List.length_singleton]
              rw [hkmax] at hlt
              omega
          · rw [added_values_append]
            exact hvf2
          · rw [added_keys_append, first_occurrences_append_singleton]
            simp only [ddb_map_store, assoc_store_map_fst]
            rcases hkspec with ⟨ids, hl, rfl, _⟩ | ⟨hl, _, rfl, _⟩
            · have hkm : k ∈ added_keys p := by
                by_contra hc
                rw [hkl k, if_neg hc] at hl
                cases hl
              rw [if_pos hkm, hkf]
            · have hkm : k ∉ added_keys p := by
                intro hc
                rw [hkl k, if_pos hc] at hl
                cases hl
              rw [if_neg hkm]
              simp [hkf]
          · intro k'
            rw [added_keys_append, values_of_key_append, List.map_append, hids k']
            simp only [ddb_map_store]
            rcases hkspec with ⟨ids, hl, rfl, rfl⟩ | ⟨hl, _, rfl, rfl⟩
            · have hkm : k ∈ added_keys p := by
                by_contra hc
                rw [hkl k, if_neg hc] at hl
                cases hl
              have hkin : k ∈ km1.items.map Prod.fst := by
                by_contra hc
                rw [← assoc_lookup_eq_none_iff] at hc
                rw [hc] at hl
                cases hl
              by_cases hkk : k = k'
              · subst hkk
                rw [assoc_lookup_store_self _ hkin]
                rw [hkl k, if_pos hkm] at hl
                simp only [Option.some.injEq] at hl
                simp [hl, value_id_of]
              · have hkk' : k' ≠ k := fun e => hkk e.symm
                rw [assoc_lookup_store_other _ _ hkk', hkl k']
                simp [hkk, hkk']
            · have hkm : k ∉ added_keys p := by
                intro hc
                rw [hkl k, if_pos hc] at hl
                cases hl
              have hnot : k ∉ km.items.map Prod.fst := (assoc_lookup_eq_none_iff _ _).mp hl
              rw [assoc_store_append_fresh _ _ hnot, assoc_lookup_append_singleton]
              by_cases hkk : k = k'
              · subst hkk
                rw [hl]
                simp [values_of_key_eq_nil p k hkm, value_id_of]
              · have hkk' : k' ≠ k := fun e => hkk e.symm
                rw [hkl k']
                by_cases hk'm : k' ∈ added_keys p
                · simp [hk'm, hkk]
                · simp [hk'm, hkk, hkk']
          · simp only [List.length_append, List.length_singleton, hn, U32]
            omega

/-! ## The builder after a sequence of adds -/

theorem builder_inv_new {c k v : Bool} {db : ddb_cons}
    (h : ddb_cons_new c k v = some db) : builder_inv [] db := by
  unfold ddb_cons_new at h
  by_cases hc : c = false
  · simp [hc] at h
  · by_cases hkv : k = true ∧ v = true
    · simp [hc, hkv] at h
      subst h
      refine ⟨ddb_map_new UINT_MAX, ddb_map_new UINT_MAX, rfl, rfl, rfl, rfl, ?_, ?_, rfl, rfl,
        rfl, ?_, rfl⟩
      · simp [ddb_map_new]
      · simp [ddb_map_new]
      · intro k'
        simp [ddb_map_new, assoc_lookup, added_keys]
    · simp [hc, hkv] at h

theorem builder_inv_add_all {l p : List (add_alloc × ddb_entry × ddb_entry)}
    {db db' : ddb_cons} (h : builder_inv p db) (hadd : ddb_add_all db l = Res.ok db') :
    builder_inv (p ++ l) db' := by
  induction l generalizing p db with
  | nil =>
    simp only [ddb_add_all, Res.ok.injEq] at hadd
    subst hadd
    simpa using h
  | cons x rest ih =>
    obtain ⟨a, k, v⟩ := x
    simp only [ddb_add_all, Res.bind_eq_ok] at hadd
    obtain ⟨db1, h1, h2⟩ := hadd
    have := ih (builder_inv_step h h1) h2
    simpa using this

theorem builder_inv_of_adds {c k v : Bool} {db0 db : ddb_cons}
    {l : List (add_alloc × ddb_entry × ddb_entry)}
    (hnew : ddb_cons_new c k v = some db0) (hadd : ddb_add_all db0 l = Res.ok db) :
    builder_inv l db := by
  have := builder_inv_add_all (builder_inv_new hnew) hadd
  simpa using this

/-! ## The operations of the packed buffer -/

theorem U64_pos : 0 < U64 := by decide

theorem buffer_grow_ok {E : Env} {p p' : ddb_packed} {n : Nat}
    (h : _buffer_grow E p n = Res.ok p') :
    p'.offs = p.offs ∧ p'.toc_offs = p.toc_offs ∧ p'.buffer = p.buffer ∧ p'.head = p.head ∧
    (p.size < U64 → p'.size < U64) ∧
    (p'.size = p.size ∨ p'.size = (p.size + (n + BUFFER_INC) % U64) % U64) := by
  unfold _buffer_grow at h
  by_cases hc : (p.offs + n) % U64 > p.size
  · rw [if_pos hc] at h
    simp only at h
    by_cases hr : E.realloc ((p.size + (n + BUFFER_INC) % U64) % U64) = true
    · rw [if_pos hr] at h
      simp only [Res.ok.injEq] at h
      subst h
      exact ⟨rfl, rfl, rfl, rfl, fun _ => Nat.mod_lt _ U64_pos, Or.inr rfl⟩
    · rw [if_neg hr] at h
      cases h
  · rw [if_neg hc] at h
    simp only [Res.ok.injEq] at h
    subst h
    exact ⟨rfl, rfl, rfl, rfl, fun h => h, Or.inl rfl⟩

theorem buffer_write_data_ok {E : Env} {p p' : ddb_packed} {src : List Nat}
    (hs : p.size < U64) (h : buffer_write_data E p src = Res.ok p') :
    p'.offs = p.offs + src.length ∧ p'.offs ≤ p'.size ∧ p'.size < U64 ∧
    p'.toc_offs = p.toc_offs ∧ p'.buffer = memcpy p.buffer p.offs src ∧ p'.head = p.head := by
  unfold buffer_write_data at h
  rw [Res.bind_eq_ok] at h
  obtain ⟨p1, hg, h⟩ := h
  obtain ⟨ho, ht, hb, hh, hsz, _⟩ := buffer_grow_ok hg
  by_cases hc : p1.size < p1.offs + src.length
  · rw [if_pos hc] at h
    cases h
  · rw [if_neg hc] at h
    simp only [Res.ok.injEq] at h
    subst h
    have h1 := hsz hs
    have h2 : p1.offs + src.length < U64 := by omega
    simp only [Nat.mod_eq_of_lt h2]
    refine ⟨by rw [ho], by omega, h1, ht, by rw [hb, ho], hh⟩

theorem buffer_toc_mark_ok {p p' : ddb_packed}
    (hs : p.size < U64) (h : buffer_toc_mark p = Res.ok p') :
    p'.toc_offs = p.toc_offs + 8 ∧ p.toc_offs + 8 ≤ p.size ∧ p'.size = p.size ∧
    p'.offs = p.offs ∧ p'.buffer = memcpy p.buffer p.toc_offs (le_bytes 8 p.offs) ∧
    p'.head = p.head := by
  unfold buffer_toc_mark at h
  by_cases hc : p.size < p.toc_offs + 8
  · rw [if_pos hc] at h
    cases h
  · rw [if_neg hc] at h
    simp only [Res.ok.injEq] at h
    subst h
    have h2 : p.toc_offs + 8 < U64 := by omega
    exact ⟨Nat.mod_eq_of_lt h2, by omega, rfl, rfl, rfl, rfl⟩

theorem buffer_new_section_ok {E : Env} {p p' : ddb_packed} {n : Nat}
    (hs : p.size < U64) (h : buffer_new_section E p n = Res.ok p') :
    p'.toc_offs = p.offs ∧ p'.offs = (p.offs + (n * 8) % U64) % U64 ∧ p'.size < U64 ∧
    p'.buffer = p.buffer ∧ p'.head = p.head := by
  unfold buffer_new_section at h
  rw [Res.bind_eq_ok] at h
  obtain ⟨p1, hg, h⟩ := h
  obtain ⟨ho, ht, hb, hh, hsz, _⟩ := buffer_grow_ok hg
  simp only [Res.ok.injEq] at h
  subst h
  exact ⟨ho, by simp only [ho], hsz hs, hb, hh⟩

/-- The unchecked calls `buffer_new_section(pack, 0)`: when the write cursor lies
inside the allocation the call succeeds, allocates nothing and only moves the TOC
cursor to the write cursor. -/
theorem buffer_new_section_zero {E : Env} {p : ddb_packed}
    (ho : p.offs ≤ p.size) (hs : p.size < U64) :
    buffer_new_section E p 0 = Res.ok { p with toc_offs := p.offs } := by
  have h1 : p.offs < U64 := by omega
  have h2 : ¬ (p.offs + 0 * 8 % U64) % U64 > p.size := by
    simp [Nat.mod_eq_of_lt h1]
    exact ho
  unfold buffer_new_section _buffer_grow
  rw [if_neg h2]
  simp [Res.bind, Nat.mod_eq_of_lt h1]

/-! ## Bytes, memory and slices -/

theorem length_le_bytes (n v : Nat) : (le_bytes n v).length = n := by
  induction n generalizing v with
  | zero => rfl
  | succ n ih => simp [le_bytes, ih]

theorem le_value_le_bytes (n v : Nat) (h : v < 256 ^ n) : le_value (le_bytes n v) = v := by
  induction n generalizing v with
  | zero =>
    simp at h
    simp [le_bytes, le_value, h]
  | succ n ih =>
    have h1 : v / 256 < 256 ^ n := by
      rw [Nat.div_lt_iff_lt_mul (by decide)]
      rw [pow_succ] at h
      exact h
    simp only [le_bytes, le_value, ih _ h1]
    omega

theorem length_slice (buf : Nat → Nat) (a n : Nat) : (slice buf a n).length = n := by
  simp [slice]

theorem getElem_slice (buf : Nat → Nat) (a n i : Nat) (h : i < (slice buf a n).length) :
    (slice buf a n)[i] = buf (a + i) := by
  simp [slice]

theorem slice_eq_of_forall {buf : Nat → Nat} {a : Nat} {l : List Nat}
    (h : ∀ i, i < l.length → buf (a + i) = l.getD i 0) : slice buf a l.length = l := by
  apply List.ext_getElem
  · simp [slice]
  · intro i h1 h2
    rw [getElem_slice, h i h2, List.getD_eq_getElem _ _ h2]

theorem slice_congr {b1 b2 : Nat → Nat} {a n : Nat}
    (h : ∀ i, i < n → b1 (a + i) = b2 (a + i)) : slice b1 a n = slice b2 a n := by
  apply List.ext_getElem
  · simp [slice]
  · intro i h1 h2
    rw [getElem_slice, getElem_slice]
    rw [length_slice] at h1
    exact h i h1

theorem memcpy_outside {buf : Nat → Nat} {dst : Nat} {src : List Nat} {a : Nat}
    (h : a < dst ∨ dst + src.length ≤ a) : memcpy buf dst src a = buf a := by
  unfold memcpy
  rw [if_neg]
  omega

theorem memcpy_inside {buf : Nat → Nat} {dst : Nat} {src : List Nat} {i : Nat}
    (h : i < src.length) : memcpy buf dst src (dst + i) = src.getD i 0 := by
  unfold memcpy
  rw [if_pos (by omega)]
  simp

theorem slice_memcpy_self (buf : Nat → Nat) (dst : Nat) (src : List Nat) :
    slice (memcpy buf dst src) dst src.length = src :=
  slice_eq_of_forall (fun _ hi => memcpy_inside hi)

theorem memcpy_append (buf : Nat → Nat) (o : Nat) (a b : List Nat) :
    memcpy (memcpy buf o a) (o + a.length) b = memcpy buf o (a ++ b) := by
  funext x
  unfold memcpy
  by_cases h1 : o + a.length ≤ x ∧ x < o + a.length + b.length
  · rw [if_pos h1, if_pos (by simp only [List.length_append]; omega)]
    rw [List.getD_append_right _ _ _ _ (by omega)]
    congr 1
    omega
  · rw [if_neg h1]
    by_cases h2 : o ≤ x ∧ x < o + a.length
    · rw [if_pos h2, if_pos (by simp only [List.length_append]; omega)]
      rw [List.getD_append _ _ _ _ (by omega)]
    · rw [if_neg h2, if_neg (by simp only [List.length_append]; omega)]

/-! ## The pure description of a run of records -/

theorem total_length_cons (r : List Nat) (rs : List (List Nat)) :
    total_length (r :: rs) = r.length + total_length rs := by
  simp [total_length]

theorem total_length_append (r s : List (List Nat)) :
    total_length (r ++ s) = total_length r + total_length s := by
  simp [total_length]

theorem write_records_frame (buf : Nat → Nat) (t o : Nat) (rs : List (List Nat)) (a : Nat)
    (h1 : a < t ∨ t + 8 * rs.length ≤ a) (h2 : a < o ∨ o + total_length rs ≤ a) :
    write_records buf t o rs a = buf a := by
  induction rs generalizing buf t o with
  | nil => rfl
  | cons r rs ih =>
    simp only [List.length_cons, total_length_cons] at h1 h2
    rw [write_records, ih _ _ _ (by omega) (by omega)]
    rw [memcpy_outside (by omega), memcpy_outside (by simp only [length_le_bytes]; omega)]

theorem write_records_toc (buf : Nat → Nat) (t o : Nat) (rs : List (List Nat)) (i : Nat)
    (hd : t + 8 * rs.length ≤ o) (hi : i < rs.length) :
    slice (write_records buf t o rs) (t + 8 * i) 8 =
      le_bytes 8 (o + total_length (rs.take i)) := by
  induction rs generalizing buf t o i with
  | nil => simp at hi
  | cons r rs ih =>
    simp only [List.length_cons] at hd hi
    cases i with
    | zero =>
      simp only [Nat.mul_zero, Nat.add_zero, List.take_zero, total_length, List.map_nil,
        List.sum_nil, write_records]
      have e : slice (write_records (memcpy (memcpy buf t (le_bytes 8 o)) o r) (t + 8)
          (o + r.length) rs) t 8 = slice (memcpy buf t (le_bytes 8 o)) t 8 := by
        apply slice_congr
        intro j hj
        rw [write_records_frame _ _ _ _ _ (by omega) (by omega), memcpy_outside (by omega)]
      rw [e]
      have := slice_memcpy_self buf t (le_bytes 8 o)
      rw [length_le_bytes] at this
      exact this
    | succ j =>
      have := ih (memcpy (memcpy buf t (le_bytes 8 o)) o r) (t + 8) (o + r.length) j
        (by omega) (by omega)
      simp only [List.take_succ_cons, total_length_cons, write_records]
      rw [show t + 8 * (j + 1) = t + 8 + 8 * j by omega,
        show o + (r.length + total_length (rs.take j)) = o + r.length + total_length (rs.take j)
          by omega]
      exact this

theorem write_records_data (buf : Nat → Nat) (t o : Nat) (rs : List (List Nat)) (i : Nat)
    (hd : t + 8 * rs.length ≤ o) (hi : i < rs.length) :
    slice (write_records buf t o rs) (o + total_length (rs.take i)) (rs.getD i []).length =
      rs.getD i [] := by
  induction rs generalizing buf t o i with
  | nil => simp at hi
  | cons r rs ih =>
    simp only [List.length_cons] at hd hi
    cases i with
    | zero =>
      simp only [List.take_zero, total_length, List.map_nil, List.sum_nil, Nat.add_zero,
        write_records, List.getD_cons_zero]
      have e : slice (write_records (memcpy (memcpy buf t (le_bytes 8 o)) o r) (t + 8)
          (o + r.length) rs) o r.length = slice (memcpy (memcpy buf t (le_bytes 8 o)) o r) o
            r.length := by
        apply slice_congr
        intro j hj
        rw [write_records_frame _ _ _ _ _ (by omega) (by omega)]
      rw [e]
      exact slice_memcpy_self _ o r
    | succ j =>
      have := ih (memcpy (memcpy buf t (le_bytes 8 o)) o r) (t + 8) (o + r.length) j
        (by omega) (by omega)
      simp only [List.take_succ_cons, total_length_cons, write_records, List.getD_cons_succ]
      rw [show o + (r.length + total_length (rs.take j)) = o + r.length + total_length (rs.take j)
          by omega]
      exact this

/-! ## The loops of the two sections -/

theorem or_and_regroup {a b c d : Prop} :
    ((a ∨ (b ∧ c)) ∨ (b ∧ d)) ↔ (a ∨ (b ∧ (c ∨ d))) := by
  tauto

theorem key_body_ok {E : Env} {p p2 p3 p4 p5 : ddb_packed} {dup : Bool}
    {len key buf : List Nat} (hs : p.size < U64)
    (hm : buffer_toc_mark (if dup = true then
      { p with head := SETFLAG p.head Flag.F_MULTISET } else p) = Res.ok p2)
    (hw1 : buffer_write_data E p2 len = Res.ok p3)
    (hw2 : buffer_write_data E p3 key = Res.ok p4)
    (hw3 : buffer_write_data E p4 buf = Res.ok p5) :
    p5.buffer = memcpy (memcpy p.buffer p.toc_offs (le_bytes 8 p.offs)) p.offs
      (len ++ key ++ buf) ∧
    p5.toc_offs = p.toc_offs + 8 ∧
    p5.offs = p.offs + (len ++ key ++ buf).length ∧
    p5.size < U64 ∧ p5.offs ≤ p5.size ∧
    p5.head = if dup = true then SETFLAG p.head Flag.F_MULTISET else p.head := by
  have hq : ∀ q : ddb_packed, (if dup = true then
      { p with head := SETFLAG p.head Flag.F_MULTISET } else p) = q →
      q.offs = p.offs ∧ q.toc_offs = p.toc_offs ∧ q.buffer = p.buffer ∧ q.size = p.size ∧
      q.head = if dup = true then SETFLAG p.head Flag.F_MULTISET else p.head := by
    intro q hq
    subst hq
    split <;> exact ⟨rfl, rfl, rfl, rfl, rfl⟩
  obtain ⟨q1, q2, q3, q4, q5⟩ := hq _ rfl
  obtain ⟨m1, m2, m3, m4, m5, m6⟩ := buffer_toc_mark_ok (by rw [q4]; exact hs) hm
  have hs2 : p2.size < U64 := by rw [m3, q4]; exact hs
  obtain ⟨a1, a2, a3, a4, a5, a6⟩ := buffer_write_data_ok hs2 hw1
  obtain ⟨b1, b2, b3, b4, b5, b6⟩ := buffer_write_data_ok a3 hw2
  obtain ⟨c1, c2, c3, c4, c5, c6⟩ := buffer_write_data_ok b3 hw3
  refine ⟨?_, ?_, ?_, c3, c2, ?_⟩
  · rw [c5, b5, a5, b1, a1, m5, m4, q1, q2, q3, memcpy_append, memcpy_append,
      List.append_assoc]
  · rw [c4, b4, a4, m1, q2]
  · rw [c1, b1, a1, m4, q1]
    simp only [List.length_append]
    omega
  · rw [c6, b6, a6, m6, q5]

theorem pack_key2values_loop_ok {E : Env} {km : ddb_map (Option (List Nat))} :
    ∀ (keys : List (Option ddb_entry)) (i : Nat) (p p' : ddb_packed),
      p.size < U64 → pack_key2values_loop E km i keys p = Res.ok p' →
      ∃ ks : List ddb_entry, keys = ks.map some ∧
        (∀ k ∈ ks, ∃ ids buf d, ddb_map_lookup_str km k = some (some ids) ∧
          E.ddb_delta_encode ids = some (buf, d)) ∧
        p'.buffer = write_records p.buffer p.toc_offs p.offs (ks.map (key_record E km)) ∧
        p'.offs = p.offs + total_length (ks.map (key_record E km)) ∧
        p'.toc_offs = p.toc_offs + 8 * ks.length ∧
        p'.size < U64 ∧
        (p.offs < U64 → p'.offs < U64) ∧
        (i ≤ INT_MAX → i + ks.length ≤ INT_MAX) ∧
        (∀ f, f ∈ p'.head.flags ↔ f ∈ p.head.flags ∨
          (f = Flag.F_MULTISET ∧ ∃ k ∈ ks, key_duplicates E km k = true)) ∧
        p'.head = { p.head with flags := p'.head.flags } := by
  intro keys
  induction keys with
  | nil =>
    intro i p p' hs h
    simp only [pack_key2values_loop, Res.ok.injEq] at h
    subst h
    exact ⟨[], rfl, by simp, rfl, by simp [total_length], by simp, hs, fun h => h,
      fun h => by simpa using h, by simp, rfl⟩
  | cons key rest ih =>
    intro i p p' hs h
    cases key with
    | none => simp [pack_key2values_loop] at h
    | some key =>
      simp only [pack_key2values_loop] at h
      cases hl : ddb_map_lookup_str km key with
      | none => rw [hl] at h; cases h
      | some slot =>
        cases slot with
        | none => rw [hl] at h; cases h
        | some values =>
          rw [hl] at h
          simp only at h
          cases hd : E.ddb_delta_encode values with
          | none => rw [hd] at h; cases h
          | some bd =>
            obtain ⟨buf, dup⟩ := bd
            rw [hd] at h
            simp only [Res.bind_eq_ok] at h
            obtain ⟨p2, hm, p3, hw1, p4, hw2, p5, hw3, h⟩ := h
            by_cases hi : i = INT_MAX
            · rw [if_pos hi] at h
              cases h
            · rw [if_neg hi] at h
              obtain ⟨hbuf, hto, hof, hs5, hos5, hhead⟩ :=
                key_body_ok hs hm hw1 hw2 hw3
              obtain ⟨ks, e1, e2, e3, e4, e5, e6, e7, e8, e9, e10⟩ := ih (i + 1) p5 p' hs5 h
              have hrec : key_record E km key = le_bytes 4 key.val.length ++ key.val ++ buf := by
                simp [key_record, hl, hd]
              have hdup : key_duplicates E km key = dup := by
                simp [key_duplicates, hl, hd]
              rw [← hrec] at hbuf hof
              refine ⟨key :: ks, by simp [e1], ?_, ?_, ?_, ?_, e6,
                fun _ => e7 (Nat.lt_of_le_of_lt hos5 hs5), ?_, ?_, ?_⟩
              · intro k hk
                rcases List.mem_cons.mp hk with rfl | hk
                · exact ⟨values, buf, dup, hl, hd⟩
                · exact e2 k hk
              · simp only [List.map_cons, write_records]
                rw [e3, hbuf, hto, hof]
              · simp only [List.map_cons, total_length_cons]
                rw [e4, hof]
                omega
              · simp only [List.length_cons]
                rw [e5, hto]
                omega
              · intro hle
                have := e8 (by omega)
                simp only [List.length_cons]
                omega
              · intro f
                have hx : (∃ k ∈ key :: ks, key_duplicates E km k = true) ↔
                    (dup = true ∨ ∃ k ∈ ks, key_duplicates E km k = true) := by
                  simp [hdup]
                have hf5 : f ∈ p5.head.flags ↔
                    (f ∈ p.head.flags ∨ (f = Flag.F_MULTISET ∧ dup = true)) := by
                  rw [hhead]
                  by_cases hdd : dup = true
                  · simp only [hdd, if_true, SETFLAG, List.mem_cons, and_true]
                    tauto
                  · simp [hdd]
                rw [e9 f, hx, hf5]
                exact or_and_regroup
              · rw [e10, hhead]
                by_cases hdd : dup = true
                · simp [hdd, SETFLAG]
                · simp [hdd]

theorem pack_id2value_loop_ok {E : Env} {dc : Bool} {code : List Nat} :
    ∀ (vs : List ddb_entry) (p p' : ddb_packed),
      p.size < U64 → pack_id2value_loop E dc code vs p = Res.ok p' →
      (dc = false → ∀ v ∈ vs, ∃ out, E.ddb_compress code v.val = some out) ∧
      p'.buffer = write_records p.buffer p.toc_offs p.offs
        (vs.map (value_record E dc code)) ∧
      p'.offs = p.offs + total_length (vs.map (value_record E dc code)) ∧
      p'.toc_offs = p.toc_offs + 8 * vs.length ∧
      p'.size < U64 ∧
      (p.offs < U64 → p'.offs < U64) ∧
      p'.head = p.head := by
  intro vs
  induction vs with
  | nil =>
    intro p p' hs h
    simp only [pack_id2value_loop, Res.ok.injEq] at h
    subst h
    exact ⟨by simp, rfl, by simp [total_length], by simp, hs, fun h => h, rfl⟩
  | cons v rest ih =>
    intro p p' hs h
    simp only [pack_id2value_loop, Res.bind_eq_ok] at h
    obtain ⟨val, hval, p1, hm, p2, hw, h⟩ := h
    obtain ⟨m1, m2, m3, m4, m5, m6⟩ := buffer_toc_mark_ok hs hm
    obtain ⟨a1, a2, a3, a4, a5, a6⟩ := buffer_write_data_ok (by rw [m3]; exact hs) hw
    obtain ⟨e1, e2, e3, e4, e5, e6, e7⟩ := ih p2 p' a3 h
    have hrec : value_record E dc code v = val ∧
        (dc = false → ∃ out, E.ddb_compress code v.val = some out) := by
      unfold value_record
      by_cases hdc : dc = true
      · rw [if_pos hdc] at hval
        simp only [Res.ok.injEq] at hval
        rw [if_pos hdc]
        exact ⟨hval, fun h => by rw [hdc] at h; cases h⟩
      · rw [if_neg hdc] at hval
        rw [if_neg hdc]
        cases hc : E.ddb_compress code v.val with
        | none => rw [hc] at hval; cases hval
        | some out =>
          rw [hc] at hval
          simp only [Res.ok.injEq] at hval
          exact ⟨by simpa using hval, fun _ => ⟨out, rfl⟩⟩
    obtain ⟨hr1, hr2⟩ := hrec
    refine ⟨?_, ?_, ?_, ?_, e5, fun _ => e6 (Nat.lt_of_le_of_lt a2 a3), ?_⟩
    · intro hdc w hw
      rcases List.mem_cons.mp hw with rfl | hw
      · exact hr2 hdc
      · exact e1 hdc w hw
    · simp only [List.map_cons, write_records]
      rw [e2, a5, m5, a4, m1, a1, m4, hr1]
    · simp only [List.map_cons, total_length_cons]
      rw [e3, a1, m4, hr1]
      omega
    · simp only [List.length_cons]
      rw [e4, a4, m1]
      omega
    · rw [e7, a6, m6]

/-! ## The two sections -/

theorem pack_key2values_ok {E : Env} {km : ddb_map (Option (List Nat))} {p p' : ddb_packed}
    {keys : List (Option ddb_entry)} (hs : p.size < U64)
    (h : pack_key2values E p keys km = Res.ok p') :
    ∃ ks : List ddb_entry, keys.take (p.head.num_keys % U32) = ks.map some ∧
      ks.length = p.head.num_keys % U32 ∧ ks.length ≤ INT_MAX ∧
      (∀ k ∈ ks, ∃ ids buf d, ddb_map_lookup_str km k = some (some ids) ∧
        E.ddb_delta_encode ids = some (buf, d)) ∧
      p'.buffer = memcpy
        (write_records p.buffer p.offs (p.offs + 8 * (ks.length + 1)) (ks.map (key_record E km)))
        (p.offs + 8 * ks.length) (le_bytes 8 p'.offs) ∧
      p'.offs = p.offs + 8 * (ks.length + 1) + total_length (ks.map (key_record E km)) ∧
      p'.size < U64 ∧ p'.offs < U64 ∧
      (∀ f, f ∈ p'.head.flags ↔ f ∈ p.head.flags ∨
        (f = Flag.F_MULTISET ∧ ∃ k ∈ ks, key_duplicates E km k = true)) ∧
      p'.head = { p.head with flags := p'.head.flags } := by
  unfold pack_key2values at h
  simp only [Res.bind_eq_ok] at h
  obtain ⟨p1, hsec, h⟩ := h
  by_cases hk : keys.length < p.head.num_keys % U32
  · rw [if_pos hk] at h
    cases h
  · rw [if_neg hk, Res.bind_eq_ok] at h
    obtain ⟨p2, hloop, hmark⟩ := h
    obtain ⟨s1, s2, s3, s4, s5⟩ := buffer_new_section_ok hs hsec
    obtain ⟨ks, e1, e2, e3, e4, e5, e6, e7, e8, e9, e10⟩ :=
      pack_key2values_loop_ok _ _ _ _ s3 hloop
    obtain ⟨m1, m2, m3, m4, m5, m6⟩ := buffer_toc_mark_ok e6 hmark
    have hlen : ks.length = p.head.num_keys % U32 := by
      have := congrArg List.length e1
      simp only [List.length_take, List.length_map] at this
      omega
    have hint : ks.length ≤ INT_MAX := by
      have := e8 (Nat.zero_le _)
      omega
    have hnum : (p.head.num_keys % U32 + 1) % U32 = ks.length + 1 := by
      rw [← hlen]
      apply Nat.mod_eq_of_lt
      simp only [INT_MAX] at hint
      simp only [U32]
      omega
    have hbound : p.offs + 8 * ks.length + 8 < U64 := by
      rw [e5, s1] at m2
      omega
    have hm8 : ((ks.length + 1) * 8) % U64 = 8 * (ks.length + 1) := by
      rw [Nat.mod_eq_of_lt (by omega)]
      omega
    have ho1 : p1.offs = p.offs + 8 * (ks.length + 1) := by
      rw [s2, hnum, hm8, Nat.mod_eq_of_lt (by omega)]
    have ho2 : p1.offs < U64 := by omega
    refine ⟨ks, e1, hlen, hint, e2, ?_, ?_, ?_, ?_, ?_, ?_⟩
    · rw [m5, e3, e5, s1, s4, ho1, m4]
    · rw [m4, e4, ho1]
    · rw [m3]
      exact e6
    · rw [m4]
      exact e7 ho2
    · intro f
      rw [m6, e9 f, s5]
    · rw [m6, e10, s5]

theorem pack_id2value_ok {E : Env} {vm : ddb_map Nat} {p p' : ddb_packed} {dc : Bool}
    (hs : p.size < U64) (h : pack_id2value E p (some vm) dc = Res.ok p') :
    ∃ code : List Nat,
      (dc = false → ∃ cb, E.ddb_create_codemap vm = some code ∧
        E.ddb_save_codemap code = some cb ∧
        p'.head = { SETFLAG p.head Flag.F_COMPRESSED with codebook := cb }) ∧
      (dc = true → p'.head = p.head) ∧
      (dc = false → ∀ v ∈ vm.items.map Prod.fst, ∃ out, E.ddb_compress code v.val = some out) ∧
      p'.buffer = memcpy (memcpy
        (write_records p.buffer p.offs (p.offs + 8 * (vm.items.length + 1))
          ((vm.items.map Prod.fst).map (value_record E dc code)))
        (p.offs + 8 * vm.items.length) (le_bytes 8 (p'.offs - 4)))
        (p'.offs - 4) (le_bytes 4 0) ∧
      p'.offs = p.offs + 8 * (vm.items.length + 1) +
        total_length ((vm.items.map Prod.fst).map (value_record E dc code)) + 4 ∧
      p'.size < U64 ∧ p'.offs ≤ p'.size := by
  unfold pack_id2value at h
  simp only [Res.bind_eq_ok] at h
  obtain ⟨p1, hsec, pc, hcode, h⟩ := h
  by_cases hcur : E.values_cursor = false
  · rw [if_pos hcur] at h
    cases h
  · rw [if_neg hcur] at h
    simp only [Res.bind_eq_ok] at h
    obtain ⟨p3, hloop, p4, hmark, hw⟩ := h
    obtain ⟨s1, s2, s3, s4, s5⟩ := buffer_new_section_ok hs hsec
    have hpc : pc.1.toc_offs = p1.toc_offs ∧ pc.1.offs = p1.offs ∧ pc.1.size = p1.size ∧
        pc.1.buffer = p1.buffer ∧
        (dc = false → ∃ cb, E.ddb_create_codemap vm = some pc.2 ∧
          E.ddb_save_codemap pc.2 = some cb ∧
          pc.1.head = { SETFLAG p1.head Flag.F_COMPRESSED with codebook := cb }) ∧
        (dc = true → pc.1.head = p1.head) := by
      by_cases hdc : dc = false
      · rw [if_pos hdc] at hcode
        cases hcm : E.ddb_create_codemap vm with
        | none => rw [hcm] at hcode; cases hcode
        | some code =>
          rw [hcm] at hcode
          simp only at hcode
          cases hsv : E.ddb_save_codemap code with
          | none => rw [hsv] at hcode; cases hcode
          | some cb =>
            rw [hsv] at hcode
            simp only [Res.ok.injEq] at hcode
            subst hcode
            exact ⟨rfl, rfl, rfl, rfl, fun _ => ⟨cb, rfl, hsv, rfl⟩,
              fun h => by rw [hdc] at h; cases h⟩
      · rw [if_neg hdc] at hcode
        simp only [Res.ok.injEq] at hcode
        subst hcode
        exact ⟨rfl, rfl, rfl, rfl, fun h => absurd h hdc, fun _ => rfl⟩
    obtain ⟨c1, c2, c3, c4, c5, c6⟩ := hpc
    obtain ⟨e1, e2, e3, e4, e5, e6, e7⟩ :=
      pack_id2value_loop_ok _ _ _ (by rw [c3]; exact s3) hloop
    obtain ⟨m1, m2, m3, m4, m5, m6⟩ := buffer_toc_mark_ok e5 hmark
    obtain ⟨a1, a2, a3, a4, a5, a6⟩ := buffer_write_data_ok (by rw [m3]; exact e5) hw
    have hbound : p.offs + 8 * vm.items.length + 8 < U64 := by
      rw [e4, c1, s1] at m2
      simp only [List.length_map] at m2
      omega
    have hm8 : ((ddb_map_num_items vm + 1) * 8) % U64 = 8 * (vm.items.length + 1) := by
      unfold ddb_map_num_items
      rw [Nat.mod_eq_of_lt (by omega)]
      omega
    have ho1 : p1.offs = p.offs + 8 * (vm.items.length + 1) := by
      rw [s2, hm8, Nat.mod_eq_of_lt (by omega)]
    have ho4 : p4.offs = p.offs + 8 * (vm.items.length + 1) +
        total_length ((vm.items.map Prod.fst).map (value_record E dc pc.2)) := by
      rw [m4, e3, c2, ho1]
    have ho' : p'.offs - 4 = p4.offs := by
      rw [a1, length_le_bytes]
      omega
    refine ⟨pc.2, ?_, ?_, e1, ?_, ?_, a3, a2⟩
    · intro hdc
      obtain ⟨cb, x1, x2, x3⟩ := c5 hdc
      exact ⟨cb, x1, x2, by rw [a6, m6, e7, x3, s5]⟩
    · intro hdc
      rw [a6, m6, e7, c6 hdc, s5]
    · rw [a5, m5, e2, ho', m4, e4, c1, c2, c4, s1, s4, ho1]
      simp only [List.length_map]
    · rw [a1, ho4, length_le_bytes]

/-! ## The order array of `pack_hash` -/

theorem pack_hash_loop_none {E : Env} {n : Nat} :
    ∀ (ks : List ddb_entry) (i : Nat) (order order' : List (Option ddb_entry)),
      i + ks.length ≤ n → n < U32 → order.length = n →
      pack_hash_loop E none n i ks order = Res.ok order' →
      order'.length = n ∧
      ∀ j, order'[j]? =
        if i ≤ j ∧ j < i + ks.length then (ks[j - i]?).map some else order[j]? := by
  intro ks
  induction ks with
  | nil =>
    intro i order order' _ _ hl h
    simp only [pack_hash_loop, Res.ok.injEq] at h
    subst h
    refine ⟨hl, fun j => ?_⟩
    rw [if_neg]
    simp
  | cons k rest ih =>
    intro i order order' hi hn hl h
    simp only [List.length_cons] at hi
    simp only [pack_hash_loop] at h
    rw [if_neg (by omega), Nat.mod_eq_of_lt (by omega)] at h
    obtain ⟨h1, h2⟩ := ih (i + 1) (order.set i (some k)) order' (by omega) hn
      (by rw [List.length_set]; exact hl) h
    refine ⟨h1, fun j => ?_⟩
    rw [h2 j]
    simp only [List.length_cons]
    by_cases hj : i + 1 ≤ j ∧ j < i + 1 + rest.length
    · rw [if_pos hj, if_pos (by omega)]
      have : j - i = (j - (i + 1)) + 1 := by omega
      rw [this, List.getElem?_cons_succ]
    · rw [if_neg hj]
      by_cases hji : j = i
      · subst hji
        rw [if_pos (by omega)]
        simp only [Nat.sub_self, List.getElem?_cons_zero, Option.map_some']
        rw [List.getElem?_set_self (by omega)]
      · rw [if_neg (by omega), List.getElem?_set_ne (fun e => hji e.symm)]

theorem pack_hash_loop_some {E : Env} {n : Nat} {hash : List Nat} :
    ∀ (ks : List ddb_entry) (i : Nat) (order order' : List (Option ddb_entry)),
      pack_hash_loop E (some hash) n i ks order = Res.ok order' →
      order'.length = order.length ∧
      (∀ k ∈ ks, E.cmph_search_packed hash k.val % U32 < n) ∧
      ∀ j k, order'[j]? = some (some k) →
        order[j]? = some (some k) ∨ (k ∈ ks ∧ E.cmph_search_packed hash k.val % U32 = j) := by
  intro ks
  induction ks with
  | nil =>
    intro i order order' h
    simp only [pack_hash_loop, Res.ok.injEq] at h
    subst h
    exact ⟨rfl, by simp, fun j k hj => Or.inl hj⟩
  | cons k rest ih =>
    intro i order order' h
    simp only [pack_hash_loop] at h
    by_cases hc : n ≤ E.cmph_search_packed hash k.val % U32
    · rw [if_pos hc] at h
      cases h
    · rw [if_neg hc] at h
      obtain ⟨h1, h2, h3⟩ := ih _ _ _ h
      refine ⟨by rw [h1, List.length_set], ?_, ?_⟩
      · intro k' hk'
        rcases List.mem_cons.mp hk' with rfl | hk'
        · omega
        · exact h2 k' hk'
      · intro j k' hj
        rcases h3 j k' hj with h4 | ⟨h4, h5⟩
        · by_cases hji : E.cmph_search_packed hash k.val % U32 = j
          · rw [← hji, List.getElem?_set] at h4
            right
            have : k' = k := by
              by_cases hlt : E.cmph_search_packed hash k.val % U32 < order.length
              · simp only [if_true, if_pos hlt, Option.some.injEq] at h4
                exact h4.symm
              · simp [hlt] at h4
            subst this
            exact ⟨List.mem_cons_self _ _, hji⟩
          · rw [List.getElem?_set_ne hji] at h4
            exact Or.inl h4
        · exact Or.inr ⟨List.mem_cons_of_mem _ h4, h5⟩

theorem order_none {E : Env} {n : Nat} {keys ks : List ddb_entry}
    {order : List (Option ddb_entry)} (hn : keys.length = n) (hU : n < U32)
    (h : pack_hash_loop E none n 0 keys (List.replicate n none) = Res.ok order)
    (hk : order.take n = ks.map some) : ks = keys := by
  obtain ⟨h1, h2⟩ := pack_hash_loop_none keys 0 _ _ (by omega) hU (by simp) h
  have ho : order = keys.map some := by
    apply List.ext_getElem?
    intro j
    rw [h2 j]
    by_cases hj : j < n
    · rw [if_pos (by omega)]
      simp
    · rw [if_neg (by omega)]
      rw [List.getElem?_eq_none (by simp; omega), List.getElem?_eq_none (by simp; omega)]
  rw [List.take_of_length_le (by omega), ho] at hk
  exact ((List.map_injective_iff.mpr (Option.some_injective _)) hk).symm

theorem surjective_nodup_map {n : Nat} {keys : List ddb_entry} {f : ddb_entry → Nat}
    (hn : keys.length = n) (hsurj : ∀ j, j < n → ∃ k ∈ keys, f k = j) :
    (keys.map f).Nodup := by
  have hsub : List.range n ⊆ keys.map f := by
    intro j hj
    rw [List.mem_range] at hj
    obtain ⟨k, hk, hf⟩ := hsurj j hj
    exact List.mem_map.mpr ⟨k, hk, hf⟩
  have hsp : (List.range n).Subperm (keys.map f) := List.subperm_of_subset (List.nodup_range n) hsub
  have hp : (List.range n).Perm (keys.map f) :=
    hsp.perm_of_length_le (by simp [hn])
  exact hp.nodup_iff.mp (List.nodup_range n)

theorem order_some {E : Env} {n : Nat} {hash : List Nat} {keys ks : List ddb_entry}
    {order : List (Option ddb_entry)} (hn : keys.length = n)
    (h : pack_hash_loop E (some hash) n 0 keys (List.replicate n none) = Res.ok order)
    (hk : order.take n = ks.map some) :
    (∀ k ∈ ks, k ∈ keys) ∧
    ∀ k ∈ keys, E.cmph_search_packed hash k.val % U32 < n ∧
      ks[E.cmph_search_packed hash k.val % U32]? = some k := by
  obtain ⟨h1, h2, h3⟩ := pack_hash_loop_some keys 0 _ _ h
  simp only [List.length_replicate] at h1
  rw [List.take_of_length_le (by omega)] at hk
  have hlen : ks.length = n := by
    have := congrArg List.length hk
    simp only [List.length_map] at this
    omega
  have hslot : ∀ j k, ks[j]? = some k →
      k ∈ keys ∧ E.cmph_search_packed hash k.val % U32 = j := by
    intro j k hj
    have : order[j]? = some (some k) := by
      rw [hk, List.getElem?_map, hj]
      rfl
    rcases h3 j k this with h4 | h4
    · have hr := List.getElem?_replicate (a := (none : Option ddb_entry)) (n := n) (m := j)
      rw [hr] at h4
      split at h4 <;> simp at h4
    · exact h4
  have hsurj : ∀ j, j < n → ∃ k ∈ keys, E.cmph_search_packed hash k.val % U32 = j := by
    intro j hj
    have hj' : j < ks.length := by omega
    exact ⟨ks[j], (hslot j _ (List.getElem?_eq_getElem hj')).1,
      (hslot j _ (List.getElem?_eq_getElem hj')).2⟩
  have hinj := List.inj_on_of_nodup_map (surjective_nodup_map hn hsurj)
  refine ⟨?_, ?_⟩
  · intro k hk'
    obtain ⟨j, hj, hjk⟩ := List.getElem_of_mem hk'
    exact (hslot j k (by rw [List.getElem?_eq_getElem hj, hjk])).1
  · intro k hk'
    have hlt := h2 k hk'
    refine ⟨hlt, ?_⟩
    have hj' : E.cmph_search_packed hash k.val % U32 < ks.length := by omega
    obtain ⟨hm, hf⟩ := hslot _ _ (List.getElem?_eq_getElem hj')
    have := hinj hm hk' hf
    rw [List.getElem?_eq_getElem hj', this]

/-! ## Header, hash section and start of the buffer -/

theorem buffer_init_ok {E : Env} {p : ddb_packed} (h : buffer_init E = Res.ok p) :
    p.offs = E.sizeof_header % U64 ∧ p.size < U64 ∧ p.buffer = E.fresh := by
  unfold buffer_init at h
  obtain ⟨h1, _, h3, _, h5, _⟩ := buffer_grow_ok h
  exact ⟨h1, h5 U64_pos, h3⟩

theorem pack_header_ok {E : Env} {p p' : ddb_packed} {cons : ddb_cons}
    (hs : p.size < U64) (ho : p.offs < U64) (h : pack_header E p cons = Res.ok p') :
    ∃ km vm, cons.keys_map = some km ∧ cons.values_map = some vm ∧
      p'.offs = p.offs ∧ p'.size < U64 ∧ p'.buffer = p.buffer ∧
      p'.head = { ddb_header_zero with
        magic := E.DISCODB_MAGIC,
        num_keys := km.items.length,
        num_uniq_values := vm.items.length,
        num_values := cons.num_values } := by
  unfold pack_header at h
  cases hsec : buffer_new_section E p 0 with
  | ok p1 =>
    rw [hsec] at h
    simp only at h
    obtain ⟨s1, s2, s3, s4, s5⟩ := buffer_new_section_ok hs hsec
    cases hk : cons.keys_map with
    | none => rw [hk] at h; cases h
    | some km =>
      cases hv : cons.values_map with
      | none => rw [hk, hv] at h; cases h
      | some vm =>
        rw [hk, hv] at h
        simp only [Res.ok.injEq] at h
        subst h
        refine ⟨km, vm, rfl, rfl, ?_, s3, s4, rfl⟩
        simp only [s2, Nat.zero_mul, Nat.zero_mod, Nat.add_zero, Nat.mod_eq_of_lt ho]
  | null => rw [hsec] at h; cases h
  | out_of_bounds => rw [hsec] at h; cases h
  | undefined => rw [hsec] at h; cases h

theorem pack_hash_ok {E : Env} {km : ddb_map (Option (List Nat))} {p p' : ddb_packed}
    {order : List (Option ddb_entry)} (hs : p.size < U64) (ho : p.offs < U64)
    (h : pack_hash E p km = Res.ok (p', order)) :
    p'.size < U64 ∧ p'.offs < U64 ∧
    ((p.head.num_keys > E.DDB_HASH_MIN_KEYS ∧ ∃ hash, E.ddb_build_cmph km = some hash ∧
        p'.buffer = memcpy p.buffer p.offs hash ∧ p'.offs = p.offs + hash.length ∧
        p'.head = SETFLAG p.head Flag.F_HASH ∧
        pack_hash_loop E (some hash) p.head.num_keys 0 (km.items.map Prod.fst)
          (List.replicate p.head.num_keys none) = Res.ok order) ∨
     (¬ p.head.num_keys > E.DDB_HASH_MIN_KEYS ∧ p' = p ∧
        pack_hash_loop E none p.head.num_keys 0 (km.items.map Prod.fst)
          (List.replicate p.head.num_keys none) = Res.ok order)) := by
  unfold pack_hash at h
  simp only at h
  by_cases hm : E.malloc (p.head.num_keys * E.sizeof_entry % U64) = false
  · rw [if_pos hm] at h
    cases h
  · rw [if_neg hm, Res.bind_eq_ok] at h
    obtain ⟨ph, h1, h⟩ := h
    by_cases hc : E.keys_cursor = false
    · rw [if_pos hc] at h
      cases h
    · rw [if_neg hc, Res.bind_eq_ok] at h
      obtain ⟨order1, hloop, h⟩ := h
      simp only [Res.ok.injEq, Prod.mk.injEq] at h
      obtain ⟨hp, hord⟩ := h
      subst hord
      by_cases hn : p.head.num_keys > E.DDB_HASH_MIN_KEYS
      · rw [if_pos hn] at h1
        cases hb : E.ddb_build_cmph km with
        | none => rw [hb] at h1; cases h1
        | some hash =>
          rw [hb] at h1
          simp only at h1
          cases hsec : buffer_new_section E p 0 with
          | ok p1 =>
            rw [hsec] at h1
            simp only [Res.bind_eq_ok] at h1
            obtain ⟨p2, hw, h1⟩ := h1
            simp only [Res.ok.injEq] at h1
            subst h1
            obtain ⟨s1, s2, s3, s4, s5⟩ := buffer_new_section_ok hs hsec
            obtain ⟨a1, a2, a3, a4, a5, a6⟩ := buffer_write_data_ok s3 hw
            have ho1 : p1.offs = p.offs := by
              simp only [s2, Nat.zero_mul, Nat.zero_mod, Nat.add_zero, Nat.mod_eq_of_lt ho]
            simp only at hp hloop
            subst hp
            refine ⟨a3, Nat.lt_of_le_of_lt a2 a3, Or.inl ⟨hn, hash, rfl, ?_, ?_, ?_, hloop⟩⟩
            · simp only [a5, s4, ho1]
            · simp only [a1, ho1]
            · simp only [a6, s5]
          | null => rw [hsec] at h1; cases h1
          | out_of_bounds => rw [hsec] at h1; cases h1
          | undefined => rw [hsec] at h1; cases h1
      · rw [if_neg hn] at h1
        simp only [Res.ok.injEq] at h1
        subst h1
        simp only at hp hloop
        subst hp
        exact ⟨hs, ho, Or.inr ⟨hn, rfl, hloop⟩⟩

/-! ## Reading a section back -/

theorem total_length_take_le (recs : List (List Nat)) (i : Nat) :
    total_length (recs.take i) ≤ total_length recs := by
  have h : total_length recs = total_length (recs.take i) + total_length (recs.drop i) := by
    rw [← total_length_append, List.take_append_drop]
  omega

theorem total_length_take_succ (recs : List (List Nat)) (i : Nat) :
    total_length (recs.take (i + 1)) = total_length (recs.take i) + (recs.getD i []).length := by
  induction recs generalizing i with
  | nil => simp [total_length]
  | cons r rs ih =>
    cases i with
    | zero => simp [total_length]
    | succ j =>
      simp only [List.take_succ_cons, total_length_cons, List.getD_cons_succ, ih j]
      omega

theorem write_section_frame (buf : Nat → Nat) (s : Nat) (recs : List (List Nat)) (a : Nat)
    (h : a < s ∨ section_end s recs ≤ a) : write_section buf s recs a = buf a := by
  unfold section_end at h
  unfold write_section
  rw [memcpy_outside (by simp only [length_le_bytes]; omega)]
  exact write_records_frame _ _ _ _ _ (by omega) (by omega)

theorem write_section_toc (buf : Nat → Nat) (s : Nat) (recs : List (List Nat)) (i : Nat)
    (hi : i ≤ recs.length) (hlt : section_end s recs < U64) :
    le_value (slice (write_section buf s recs) (s + 8 * i) 8) =
      s + 8 * (recs.length + 1) + total_length (recs.take i) := by
  unfold section_end at hlt
  have h256 : U64 = 256 ^ 8 := by decide
  rcases Nat.lt_or_ge i recs.length with hlt' | hge
  · have e : slice (write_section buf s recs) (s + 8 * i) 8 =
        slice (write_records buf s (s + 8 * (recs.length + 1)) recs) (s + 8 * i) 8 := by
      apply slice_congr
      intro j hj
      unfold write_section
      rw [memcpy_outside (by omega)]
    rw [e, write_records_toc _ _ _ _ _ (by omega) hlt', le_value_le_bytes]
    have := total_length_take_le recs i
    omega
  · have hi' : i = recs.length := by omega
    subst hi'
    unfold write_section
    have := slice_memcpy_self
      (write_records buf s (s + 8 * (recs.length + 1)) recs) (s + 8 * recs.length)
      (le_bytes 8 (s + 8 * (recs.length + 1) + total_length recs))
    rw [length_le_bytes] at this
    rw [this, le_value_le_bytes _ _ (by omega), List.take_length]

theorem write_section_data (buf : Nat → Nat) (s : Nat) (recs : List (List Nat)) (i : Nat)
    (hi : i < recs.length) :
    slice (write_section buf s recs)
      (s + 8 * (recs.length + 1) + total_length (recs.take i)) (recs.getD i []).length =
      recs.getD i [] := by
  have e : slice (write_section buf s recs)
      (s + 8 * (recs.length + 1) + total_length (recs.take i)) (recs.getD i []).length =
      slice (write_records buf s (s + 8 * (recs.length + 1)) recs)
        (s + 8 * (recs.length + 1) + total_length (recs.take i)) (recs.getD i []).length := by
    apply slice_congr
    intro j hj
    unfold write_section
    rw [memcpy_outside (by simp only [length_le_bytes]; omega)]
  rw [e]
  exact write_records_data _ _ _ _ _ (by omega) hi

/-! ## The layout of the finalized image -/

theorem finalize_prefix {E : Env} {cons : ddb_cons} {km : ddb_map (Option (List Nat))}
    {vm : ddb_map Nat} {p0 p1 p3 : ddb_packed} {order : List (Option ddb_entry)}
    (hk : cons.keys_map = some km) (hv : cons.values_map = some vm)
    (hinit : buffer_init E = Res.ok p0) (hhead : pack_header E p0 cons = Res.ok p1)
    (hhash : pack_hash E { p1 with head := { p1.head with hash_offs := p1.offs } } km =
      Res.ok (p3, order)) :
    p3.size < U64 ∧ p3.offs < U64 ∧
    p3.head.magic = E.DISCODB_MAGIC ∧ p3.head.num_keys = km.items.length ∧
    p3.head.num_uniq_values = vm.items.length ∧ p3.head.num_values = cons.num_values ∧
    p3.head.hash_offs = E.sizeof_header % U64 ∧ p3.head.codebook = [] ∧
    (∀ f, f ∈ p3.head.flags ↔ (f = Flag.F_HASH ∧ km.items.length > E.DDB_HASH_MIN_KEYS)) ∧
    (km.items.length > E.DDB_HASH_MIN_KEYS → ∃ hash, E.ddb_build_cmph km = some hash ∧
      p3.buffer = memcpy E.fresh (E.sizeof_header % U64) hash ∧
      p3.offs = E.sizeof_header % U64 + hash.length ∧
      pack_hash_loop E (some hash) km.items.length 0 (km.items.map Prod.fst)
        (List.replicate km.items.length none) = Res.ok order) ∧
    (¬ km.items.length > E.DDB_HASH_MIN_KEYS →
      p3.buffer = E.fresh ∧ p3.offs = E.sizeof_header % U64 ∧
      pack_hash_loop E none km.items.length 0 (km.items.map Prod.fst)
        (List.replicate km.items.length none) = Res.ok order) := by
  obtain ⟨i1, i2, i3⟩ := buffer_init_ok hinit
  have io : p0.offs < U64 := by rw [i1]; exact Nat.mod_lt _ U64_pos
  obtain ⟨km', vm', hk', hv', h1, h2, h3, h4⟩ := pack_header_ok i2 io hhead
  rw [hk] at hk'
  rw [hv] at hv'
  simp only [Option.some.injEq] at hk' hv'
  subst hk' hv'
  generalize hp2 : ({ p1 with head := { p1.head with hash_offs := p1.offs } } : ddb_packed) = p2
    at hhash
  have p2o : p2.offs = E.sizeof_header % U64 := by rw [← hp2]; dsimp only; rw [h1, i1]
  have p2s : p2.size < U64 := by rw [← hp2]; exact h2
  have p2b : p2.buffer = E.fresh := by rw [← hp2]; dsimp only; rw [h3, i3]
  have p2h : p2.head = { ddb_header_zero with
      magic := E.DISCODB_MAGIC, num_keys := km.items.length,
      num_uniq_values := vm.items.length, num_values := cons.num_values,
      hash_offs := E.sizeof_header % U64 } := by
    rw [← hp2]; dsimp only; rw [h4, h1, i1]
  have p2n : p2.head.num_keys = km.items.length := by rw [p2h]
  obtain ⟨g1, g2, g3⟩ := pack_hash_ok p2s (by rw [p2o]; exact Nat.mod_lt _ U64_pos) hhash
  rw [p2n, p2o, p2b] at g3
  rcases g3 with ⟨hn, hash, x1, x2, x3, x4, x5⟩ | ⟨hn, x1, x5⟩
  · refine ⟨g1, g2, ?_, ?_, ?_, ?_, ?_, ?_, ?_, fun _ => ⟨hash, x1, x2, x3, x5⟩,
      fun h => absurd hn h⟩
    · rw [x4, p2h]; rfl
    · rw [x4, p2h]; rfl
    · rw [x4, p2h]; rfl
    · rw [x4, p2h]; rfl
    · rw [x4, p2h]; rfl
    · rw [x4, p2h]; rfl
    · intro f
      rw [x4, p2h]
      simp [SETFLAG, ddb_header_zero, hn]
  · subst x1
    refine ⟨g1, g2, ?_, ?_, ?_, ?_, ?_, ?_, ?_, fun h => absurd h hn,
      fun _ => ⟨p2b, p2o, x5⟩⟩
    · rw [p2h]
    · rw [p2h]
    · rw [p2h]
    · rw [p2h]
    · rw [p2h]
    · rw [p2h]; rfl
    · intro f
      rw [p2h]
      simp [ddb_header_zero, hn]

theorem or_rotate {a b c d : Prop} (hd : d) : (a ∨ (b ∨ c)) ↔ (b ∨ c ∨ (a ∧ d)) := by
  tauto

theorem mod_U32_of_le {n : Nat} (h : n ≤ UINT_MAX) : n % U32 = n := by
  apply Nat.mod_eq_of_lt
  simp only [UINT_MAX] at h
  simp only [U32]
  omega

theorem finalize_suffix {E : Env} {km : ddb_map (Option (List Nat))} {vm : ddb_map Nat}
    {p3 p4 p6 : ddb_packed} {order : List (Option ddb_entry)} {dc : Bool}
    (hs : p3.size < U64) (hn : p3.head.num_keys = km.items.length)
    (hkn : km.items.length ≤ UINT_MAX)
    (hkeys : pack_key2values E
      { p3 with head := { p3.head with key2values_offs := p3.offs } } order km = Res.ok p4)
    (hvals : pack_id2value E
      { p4 with head := { p4.head with id2value_offs := p4.offs } } (some vm) dc = Res.ok p6) :
    ∃ (ks : List ddb_entry) (code : List Nat),
      order.take km.items.length = ks.map some ∧ ks.length = km.items.length ∧
      km.items.length ≤ INT_MAX ∧
      (∀ k ∈ ks, ∃ ids buf d, ddb_map_lookup_str km k = some (some ids) ∧
        E.ddb_delta_encode ids = some (buf, d)) ∧
      p4.offs = section_end p3.offs (ks.map (key_record E km)) ∧
      p6.offs = section_end p4.offs ((vm.items.map Prod.fst).map (value_record E dc code)) + 4 ∧
      p6.offs < U64 ∧
      p6.buffer = memcpy
        (write_section (write_section p3.buffer p3.offs (ks.map (key_record E km))) p4.offs
          ((vm.items.map Prod.fst).map (value_record E dc code)))
        (p6.offs - 4) (le_bytes 4 0) ∧
      p6.head.magic = p3.head.magic ∧ p6.head.num_keys = p3.head.num_keys ∧
      p6.head.num_uniq_values = p3.head.num_uniq_values ∧
      p6.head.num_values = p3.head.num_values ∧ p6.head.hash_offs = p3.head.hash_offs ∧
      p6.head.key2values_offs = p3.offs ∧ p6.head.id2value_offs = p4.offs ∧
      (∀ f, f ∈ p6.head.flags ↔ f ∈ p3.head.flags ∨
        (f = Flag.F_MULTISET ∧ ∃ k ∈ ks, key_duplicates E km k = true) ∨
        (f = Flag.F_COMPRESSED ∧ dc = false)) ∧
      (dc = false → E.ddb_create_codemap vm = some code ∧
        E.ddb_save_codemap code = some p6.head.codebook ∧
        ∀ v ∈ vm.items.map Prod.fst, ∃ out, E.ddb_compress code v.val = some out) := by
  generalize hq3 : ({ p3 with head := { p3.head with key2values_offs := p3.offs } } : ddb_packed)
    = q3 at hkeys
  have q3o : q3.offs = p3.offs := by rw [← hq3]
  have q3s : q3.size < U64 := by rw [← hq3]; exact hs
  have q3b : q3.buffer = p3.buffer := by rw [← hq3]
  have q3h : q3.head = { p3.head with key2values_offs := p3.offs } := by rw [← hq3]
  have q3n : q3.head.num_keys % U32 = km.items.length := by
    rw [q3h]
    dsimp only
    rw [hn, mod_U32_of_le hkn]
  obtain ⟨ks, e1, e2, e3, e4, e5, e6, e7, e8, e9, e10⟩ := pack_key2values_ok q3s hkeys
  rw [q3n] at e1 e2
  rw [q3o, q3b] at e5
  rw [q3o] at e6
  generalize hq5 : ({ p4 with head := { p4.head with id2value_offs := p4.offs } } : ddb_packed)
    = q5 at hvals
  have q5o : q5.offs = p4.offs := by rw [← hq5]
  have q5s : q5.size < U64 := by rw [← hq5]; exact e7
  have q5b : q5.buffer = p4.buffer := by rw [← hq5]
  have q5h : q5.head = { p4.head with id2value_offs := p4.offs } := by rw [← hq5]
  obtain ⟨code, v1, v2, v3, v4, v5, v6, v7⟩ := pack_id2value_ok q5s hvals
  rw [q5o, q5b] at v4
  rw [q5o] at v5
  have hV : p4.offs = section_end p3.offs (ks.map (key_record E km)) := by
    rw [e6]
    simp only [section_end, List.length_map]
  have hL : p6.offs = section_end p4.offs
      ((vm.items.map Prod.fst).map (value_record E dc code)) + 4 := by
    rw [v5]
    simp only [section_end, List.length_map]
  have hB4 : p4.buffer = write_section p3.buffer p3.offs (ks.map (key_record E km)) := by
    rw [e5, e6]
    simp only [write_section, List.length_map]
  have hB6 : p6.buffer = memcpy
      (write_section (write_section p3.buffer p3.offs (ks.map (key_record E km))) p4.offs
        ((vm.items.map Prod.fst).map (value_record E dc code)))
      (p6.offs - 4) (le_bytes 4 0) := by
    rw [v4, hB4]
    have : p6.offs - 4 = p4.offs + 8 * (vm.items.length + 1) +
        total_length ((vm.items.map Prod.fst).map (value_record E dc code)) := by
      rw [v5]
      omega
    simp only [write_section, List.length_map, this]
  have h6 : ∀ cb, p6.head = { SETFLAG q5.head Flag.F_COMPRESSED with codebook := cb } ∨
      p6.head = q5.head →
      p6.head.magic = p3.head.magic ∧ p6.head.num_keys = p3.head.num_keys ∧
      p6.head.num_uniq_values = p3.head.num_uniq_values ∧
      p6.head.num_values = p3.head.num_values ∧ p6.head.hash_offs = p3.head.hash_offs ∧
      p6.head.key2values_offs = p3.offs ∧ p6.head.id2value_offs = p4.offs := by
    intro cb hcb
    rcases hcb with hcb | hcb
    · rw [hcb, q5h, e10, q3h]
      exact ⟨rfl, rfl, rfl, rfl, rfl, rfl, rfl⟩
    · rw [hcb, q5h, e10, q3h]
      exact ⟨rfl, rfl, rfl, rfl, rfl, rfl, rfl⟩
  have hq5f : ∀ f, f ∈ q5.head.flags ↔ f ∈ p3.head.flags ∨
      (f = Flag.F_MULTISET ∧ ∃ k ∈ ks, key_duplicates E km k = true) := by
    intro f
    rw [q5h]
    dsimp only
    rw [e9 f, q3h]
  have hfields : p6.head.magic = p3.head.magic ∧ p6.head.num_keys = p3.head.num_keys ∧
      p6.head.num_uniq_values = p3.head.num_uniq_values ∧
      p6.head.num_values = p3.head.num_values ∧ p6.head.hash_offs = p3.head.hash_offs ∧
      p6.head.key2values_offs = p3.offs ∧ p6.head.id2value_offs = p4.offs := by
    by_cases hdc : dc = false
    · obtain ⟨cb, _, _, x3⟩ := v1 hdc
      exact h6 cb (Or.inl x3)
    · exact h6 [] (Or.inr (v2 (by simpa using hdc)))
  obtain ⟨f1, f2, f3, f4, f5, f6, f7⟩ := hfields
  refine ⟨ks, code, e1, e2, by omega, e4, hV, hL, Nat.lt_of_le_of_lt v7 v6, hB6,
    f1, f2, f3, f4, f5, f6, f7, ?_, ?_⟩
  · intro f
    by_cases hdc : dc = false
    · obtain ⟨cb, _, _, x3⟩ := v1 hdc
      rw [x3]
      show f ∈ Flag.F_COMPRESSED :: q5.head.flags ↔ _
      rw [List.mem_cons, hq5f f]
      exact or_rotate hdc
    · rw [v2 (by simpa using hdc), hq5f f]
      have hdc' : dc = true := by simpa using hdc
      subst hdc'
      simp
  · intro hdc
    obtain ⟨cb, x1, x2, x3⟩ := v1 hdc
    refine ⟨x1, ?_, v3 hdc⟩
    rw [x3]
    exact x2

/-- The layout of a finalized image, together with the `order` array the run
obtained from `pack_hash`: every entry of the array is set, and `ks` lists its
keys. -/
theorem ddb_finalize_layout_order {E : Env} {cons cons' : ddb_cons} {flags len : Nat}
    {img : ddb_image} {km : ddb_map (Option (List Nat))} {vm : ddb_map Nat}
    (hk : cons.keys_map = some km) (hv : cons.values_map = some vm)
    (hkn : km.items.length ≤ UINT_MAX)
    (h : ddb_finalize E cons flags = Res.ok (img, len, cons')) :
    (∃ ks code, finalize_order E cons = Res.ok (ks.map some) ∧
      image_layout E km vm cons.num_values flags img len ks code) ∧
    cons' = { cons with values_map := none } := by
  unfold ddb_finalize at h
  simp only [Res.bind_eq_ok] at h
  obtain ⟨p0, hinit, p1, hhead, h⟩ := h
  rw [hk] at h
  simp only [Res.bind_eq_ok] at h
  obtain ⟨po, hhash, p4, hkeys, p6, hvals, image, hshrink, h⟩ := h
  simp only [Res.ok.injEq, Prod.mk.injEq] at h
  obtain ⟨rfl, rfl, rfl⟩ := h
  refine ⟨?_, by rw [hk]⟩
  obtain ⟨p3, order⟩ := po
  rw [hv] at hvals
  obtain ⟨a1, a2, a3, a4, a5, a6, a7, a8, a9, a10, a11⟩ :=
    finalize_prefix hk hv hinit hhead hhash
  obtain ⟨ks, code, b1, b2, b3, b4, b5, b6, b7, b8, c1, c2, c3, c4, c5, c6, c7, c8, c9⟩ :=
    finalize_suffix a1 a4 hkn hkeys hvals
  have himg : image.buffer = p6.buffer ∧ image.alloc = p6.offs ∧
      image.head = { p6.head with size := p6.offs } := by
    unfold buffer_shrink at hshrink
    split at hshrink
    · simp only [Res.ok.injEq] at hshrink
      subst hshrink
      exact ⟨rfl, rfl, rfl⟩
    · cases hshrink
  obtain ⟨d1, d2, d3⟩ := himg
  have hord : (km.items.length > E.DDB_HASH_MIN_KEYS → ∃ hash, E.ddb_build_cmph km = some hash ∧
        p3.offs = E.sizeof_header % U64 + hash.length ∧
        (∀ k ∈ ks, k ∈ km.items.map Prod.fst) ∧
        (∀ k ∈ km.items.map Prod.fst,
          E.cmph_search_packed hash k.val % U32 < km.items.length ∧
          ks[E.cmph_search_packed hash k.val % U32]? = some k)) ∧
      (¬ km.items.length > E.DDB_HASH_MIN_KEYS →
        p3.offs = E.sizeof_header % U64 ∧ ks = km.items.map Prod.fst) := by
    constructor
    · intro hgt
      obtain ⟨hash, x1, x2, x3, x4⟩ := a10 hgt
      obtain ⟨y1, y2⟩ := order_some (by simp) x4 b1
      exact ⟨hash, x1, x3, y1, y2⟩
    · intro hgt
      obtain ⟨x1, x2, x3⟩ := a11 hgt
      refine ⟨x2, order_none (by simp) ?_ x3 b1⟩
      simp only [UINT_MAX] at hkn
      simp only [U32]
      omega
  obtain ⟨o1, o2⟩ := hord
  have hordlen : order.length = km.items.length := by
    by_cases hgt : km.items.length > E.DDB_HASH_MIN_KEYS
    · obtain ⟨hash, _, _, _, x4⟩ := a10 hgt
      have := (pack_hash_loop_some _ 0 _ _ x4).1
      simpa using this
    · obtain ⟨_, _, x3⟩ := a11 hgt
      refine (pack_hash_loop_none _ 0 _ _ (by simp) ?_ (by simp) x3).1
      simp only [UINT_MAX] at hkn
      simp only [U32]
      omega
  have hfo : finalize_order E cons = Res.ok (ks.map some) := by
    unfold finalize_order
    rw [hinit]
    simp only [Res.bind_ok]
    rw [hhead]
    simp only [Res.bind_ok, hk]
    rw [hhash]
    show Res.ok order = Res.ok (ks.map some)
    rw [← b1, List.take_of_length_le (Nat.le_of_eq hordlen)]
  refine ⟨ks, code, hfo, ?_⟩
  refine
    { magic := by rw [d3]; exact c1.trans a3
      num_keys := by rw [d3]; exact c2.trans a4
      num_uniq_values := by rw [d3]; exact c3.trans a5
      num_values := by rw [d3]; exact c4.trans a6
      size := by rw [d3]
      alloc := d2
      hash_offs := by rw [d3]; exact c5.trans a7
      key2values_offs_hash := ?_
      key2values_offs_plain := ?_
      id2value_offs := ?_
      length := ?_
      length_lt := b7
      buffer := ?_
      ks_length := b2
      ks_mem := ?_
      ks_ok := b4
      num_keys_le := b3
      flag_hash := ?_
      flag_multiset := ?_
      flag_compressed := ?_
      codebook := ?_ }
  · intro hgt
    obtain ⟨hash, x1, x2, _, x4⟩ := o1 hgt
    refine ⟨hash, x1, ?_, x4⟩
    rw [d3]
    show p6.head.key2values_offs = p6.head.hash_offs + hash.length
    rw [c6, c5, a7, x2]
  · intro hgt
    obtain ⟨x1, x2⟩ := o2 hgt
    refine ⟨?_, x2⟩
    rw [d3]
    show p6.head.key2values_offs = p6.head.hash_offs
    rw [c6, c5, a7, x1]
  · rw [d3]
    show p6.head.id2value_offs = section_end p6.head.key2values_offs _
    rw [c7, c6, b5]
  · rw [d3]
    show p6.offs = section_end p6.head.id2value_offs _ + 4
    rw [c7, b6]
  · by_cases hgt : km.items.length > E.DDB_HASH_MIN_KEYS
    · obtain ⟨hash, x1, x2, x3, x4⟩ := a10 hgt
      refine ⟨memcpy E.fresh (E.sizeof_header % U64) hash, ?_, ?_⟩
      · rw [d1, d3]
        show p6.buffer = memcpy (write_section (write_section _ p6.head.key2values_offs _)
          p6.head.id2value_offs _) _ _
        rw [c6, c7, b8, x2]
      · intro _ hash' hh
        rw [x1] at hh
        simp only [Option.some.injEq] at hh
        subst hh
        rw [d3]
        show _ = memcpy E.fresh p6.head.hash_offs hash
        rw [c5, a7]
    · obtain ⟨x1, x2, x3⟩ := a11 hgt
      refine ⟨E.fresh, ?_, fun h => absurd h hgt⟩
      rw [d1, d3]
      show p6.buffer = memcpy (write_section (write_section _ p6.head.key2values_offs _)
        p6.head.id2value_offs _) _ _
      rw [c6, c7, b8, x1]
  · intro k
    by_cases hgt : km.items.length > E.DDB_HASH_MIN_KEYS
    · obtain ⟨hash, _, _, x3, x4⟩ := o1 hgt
      exact ⟨x3 k, fun hk' => List.getElem?_mem (x4 k hk').2⟩
    · rw [(o2 hgt).2]
  · rw [d3]
    show Flag.F_HASH ∈ p6.head.flags ↔ _
    rw [c8, a9]
    simp
  · rw [d3]
    show Flag.F_MULTISET ∈ p6.head.flags ↔ _
    rw [c8, a9]
    simp
  · rw [d3]
    show Flag.F_COMPRESSED ∈ p6.head.flags ↔ _
    rw [c8, a9]
    simp
  · intro hdc
    rw [d3]
    exact c9 hdc

theorem ddb_finalize_layout {E : Env} {cons cons' : ddb_cons} {flags len : Nat}
    {img : ddb_image} {km : ddb_map (Option (List Nat))} {vm : ddb_map Nat}
    (hk : cons.keys_map = some km) (hv : cons.values_map = some vm)
    (hkn : km.items.length ≤ UINT_MAX)
    (h : ddb_finalize E cons flags = Res.ok (img, len, cons')) :
    (∃ ks code, image_layout E km vm cons.num_values flags img len ks code) ∧
    cons' = { cons with values_map := none } := by
  obtain ⟨⟨ks, code, _, L⟩, hc⟩ := ddb_finalize_layout_order hk hv hkn h
  exact ⟨⟨ks, code, L⟩, hc⟩

/-! ## Reading the finalized image -/

theorem section_end_ge (s : Nat) (recs : List (List Nat)) :
    s + 8 * (recs.length + 1) ≤ section_end s recs := by
  unfold section_end
  omega

theorem layout_key_frame {E : Env} {km : ddb_map (Option (List Nat))} {vm : ddb_map Nat}
    {nv flags len : Nat} {img : ddb_image} {ks : List ddb_entry} {code : List Nat}
    (L : image_layout E km vm nv flags img len ks code) :
    ∃ B0 : Nat → Nat,
      (∀ a, a < img.head.id2value_offs → img.buffer a =
        write_section B0 img.head.key2values_offs (ks.map (key_record E km)) a) ∧
      (∀ a, a < img.head.key2values_offs → img.buffer a = B0 a) ∧
      (km.items.length > E.DDB_HASH_MIN_KEYS → ∀ hash, E.ddb_build_cmph km = some hash →
        B0 = memcpy E.fresh img.head.hash_offs hash) := by
  obtain ⟨B0, hB, hB0⟩ := L.buffer
  have hlen := L.length
  have hV := L.id2value_offs
  have h1 := section_end_ge img.head.id2value_offs
    ((vm.items.map Prod.fst).map (value_record E (disable_compr_arg E flags) code))
  have h2 := section_end_ge img.head.key2values_offs (ks.map (key_record E km))
  have hfr : ∀ a, a < img.head.id2value_offs → img.buffer a =
      write_section B0 img.head.key2values_offs (ks.map (key_record E km)) a := by
    intro a ha
    rw [hB, memcpy_outside (by omega), write_section_frame _ _ _ _ (Or.inl ha)]
  refine ⟨B0, hfr, ?_, hB0⟩
  intro a ha
  rw [hfr a (by omega), write_section_frame _ _ _ _ (Or.inl ha)]

/-- Entry `i` of the TOC of the key-to-values section. -/
theorem layout_key_toc {E : Env} {km : ddb_map (Option (List Nat))} {vm : ddb_map Nat}
    {nv flags len : Nat} {img : ddb_image} {ks : List ddb_entry} {code : List Nat}
    (L : image_layout E km vm nv flags img len ks code) (i : Nat) (hi : i ≤ ks.length) :
    toc_entry img img.head.key2values_offs i =
      img.head.key2values_offs + 8 * (ks.length + 1) +
        total_length ((ks.map (key_record E km)).take i) := by
  obtain ⟨B0, hfr, _, _⟩ := layout_key_frame L
  have hV := L.id2value_offs
  have hlen := L.length
  have hlt := L.length_lt
  have h1 := section_end_ge img.head.id2value_offs
    ((vm.items.map Prod.fst).map (value_record E (disable_compr_arg E flags) code))
  have h2 := section_end_ge img.head.key2values_offs (ks.map (key_record E km))
  simp only [List.length_map] at h2
  unfold toc_entry
  have e : slice img.buffer (img.head.key2values_offs + 8 * i) 8 =
      slice (write_section B0 img.head.key2values_offs (ks.map (key_record E km)))
        (img.head.key2values_offs + 8 * i) 8 := by
    apply slice_congr
    intro j hj
    exact hfr _ (by omega)
  rw [e, write_section_toc _ _ _ _ (by simpa using hi) (by omega)]
  simp only [List.length_map]

/-- Record `i` of the key-to-values section. -/
theorem layout_key_record {E : Env} {km : ddb_map (Option (List Nat))} {vm : ddb_map Nat}
    {nv flags len : Nat} {img : ddb_image} {ks : List ddb_entry} {code : List Nat}
    (L : image_layout E km vm nv flags img len ks code) (i : Nat) (hi : i < ks.length) :
    toc_record img img.head.key2values_offs i = (ks.map (key_record E km)).getD i [] := by
  obtain ⟨B0, hfr, _, _⟩ := layout_key_frame L
  have hV := L.id2value_offs
  have hle := total_length_take_le (ks.map (key_record E km)) (i + 1)
  have hsucc := total_length_take_succ (ks.map (key_record E km)) i
  unfold toc_record
  rw [layout_key_toc L i (by omega), layout_key_toc L (i + 1) (by omega), hsucc]
  have e1 : img.head.key2values_offs + 8 * (ks.length + 1) +
      (total_length ((ks.map (key_record E km)).take i) +
        ((ks.map (key_record E km)).getD i []).length) -
      (img.head.key2values_offs + 8 * (ks.length + 1) +
        total_length ((ks.map (key_record E km)).take i)) =
      ((ks.map (key_record E km)).getD i []).length := by omega
  rw [e1]
  have e : slice img.buffer (img.head.key2values_offs + 8 * (ks.length + 1) +
      total_length ((ks.map (key_record E km)).take i))
      ((ks.map (key_record E km)).getD i []).length =
      slice (write_section B0 img.head.key2values_offs (ks.map (key_record E km)))
        (img.head.key2values_offs + 8 * (ks.length + 1) +
          total_length ((ks.map (key_record E km)).take i))
        ((ks.map (key_record E km)).getD i []).length := by
    apply slice_congr
    intro j hj
    apply hfr
    rw [hV]
    unfold section_end
    simp only [List.length_map]
    rw [hsucc] at hle
    omega
  rw [e]
  have := write_section_data B0 img.head.key2values_offs (ks.map (key_record E km)) i
    (by simpa using hi)
  simp only [List.length_map] at this
  exact this

theorem layout_value_frame {E : Env} {km : ddb_map (Option (List Nat))} {vm : ddb_map Nat}
    {nv flags len : Nat} {img : ddb_image} {ks : List ddb_entry} {code : List Nat}
    (L : image_layout E km vm nv flags img len ks code) :
    ∃ B1 : Nat → Nat, ∀ a, a < len - 4 → img.buffer a =
      write_section B1 img.head.id2value_offs
        ((vm.items.map Prod.fst).map (value_record E (disable_compr_arg E flags) code)) a := by
  obtain ⟨B0, hB, _⟩ := L.buffer
  refine ⟨write_section B0 img.head.key2values_offs (ks.map (key_record E km)), ?_⟩
  intro a ha
  rw [hB, memcpy_outside (Or.inl ha)]

/-- Entry `i` of the TOC of the id-to-value section. -/
theorem layout_value_toc {E : Env} {km : ddb_map (Option (List Nat))} {vm : ddb_map Nat}
    {nv flags len : Nat} {img : ddb_image} {ks : List ddb_entry} {code : List Nat}
    (L : image_layout E km vm nv flags img len ks code) (i : Nat) (hi : i ≤ vm.items.length) :
    toc_entry img img.head.id2value_offs i =
      img.head.id2value_offs + 8 * (vm.items.length + 1) +
        total_length
          (((vm.items.map Prod.fst).map
            (value_record E (disable_compr_arg E flags) code)).take i) := by
  obtain ⟨B1, hfr⟩ := layout_value_frame L
  have hlen := L.length
  have hlt := L.length_lt
  have h1 := section_end_ge img.head.id2value_offs
    ((vm.items.map Prod.fst).map (value_record E (disable_compr_arg E flags) code))
  simp only [List.length_map] at h1
  unfold toc_entry
  have e : slice img.buffer (img.head.id2value_offs + 8 * i) 8 =
      slice (write_section B1 img.head.id2value_offs
        ((vm.items.map Prod.fst).map (value_record E (disable_compr_arg E flags) code)))
        (img.head.id2value_offs + 8 * i) 8 := by
    apply slice_congr
    intro j hj
    exact hfr _ (by omega)
  rw [e, write_section_toc _ _ _ _ (by simpa using hi) (by omega)]
  simp only [List.length_map]

/-- Record `i` of the id-to-value section. -/
theorem layout_value_record {E : Env} {km : ddb_map (Option (List Nat))} {vm : ddb_map Nat}
    {nv flags len : Nat} {img : ddb_image} {ks : List ddb_entry} {code : List Nat}
    (L : image_layout E km vm nv flags img len ks code) (i : Nat) (hi : i < vm.items.length) :
    toc_record img img.head.id2value_offs i =
      ((vm.items.map Prod.fst).map
        (value_record E (disable_compr_arg E flags) code)).getD i [] := by
  obtain ⟨B1, hfr⟩ := layout_value_frame L
  have hlen := L.length
  generalize hvr : (vm.items.map Prod.fst).map
    (value_record E (disable_compr_arg E flags) code) = vrecs at hfr hlen
  have hvl : vrecs.length = vm.items.length := by rw [← hvr]; simp
  have hle := total_length_take_le vrecs (i + 1)
  have hsucc := total_length_take_succ vrecs i
  have ht1 := layout_value_toc L i (by omega)
  have ht2 := layout_value_toc L (i + 1) (by omega)
  rw [hvr] at ht1 ht2
  unfold toc_record
  rw [ht1, ht2, hsucc]
  have e1 : img.head.id2value_offs + 8 * (vm.items.length + 1) +
      (total_length (vrecs.take i) + (vrecs.getD i []).length) -
      (img.head.id2value_offs + 8 * (vm.items.length + 1) + total_length (vrecs.take i)) =
      (vrecs.getD i []).length := by omega
  rw [e1]
  have e : slice img.buffer (img.head.id2value_offs + 8 * (vm.items.length + 1) +
      total_length (vrecs.take i)) (vrecs.getD i []).length =
      slice (write_section B1 img.head.id2value_offs vrecs)
        (img.head.id2value_offs + 8 * (vm.items.length + 1) + total_length (vrecs.take i))
        (vrecs.getD i []).length := by
    apply slice_congr
    intro j hj
    apply hfr
    rw [hlen]
    unfold section_end
    rw [hsucc] at hle
    omega
  rw [e]
  have := write_section_data B1 img.head.id2value_offs vrecs i (by omega)
  rw [hvl] at this
  exact this

/-- The four bytes that follow the id-to-value section. -/
theorem layout_trailer {E : Env} {km : ddb_map (Option (List Nat))} {vm : ddb_map Nat}
    {nv flags len : Nat} {img : ddb_image} {ks : List ddb_entry} {code : List Nat}
    (L : image_layout E km vm nv flags img len ks code) :
    slice img.buffer (len - 4) 4 = [0, 0, 0, 0] := by
  obtain ⟨B0, hB, _⟩ := L.buffer
  rw [hB]
  exact slice_memcpy_self _ (len - 4) (le_bytes 4 0)

/-- The bytes of the hash section. -/
theorem layout_hash {E : Env} {km : ddb_map (Option (List Nat))} {vm : ddb_map Nat}
    {nv flags len : Nat} {img : ddb_image} {ks : List ddb_entry} {code : List Nat}
    (L : image_layout E km vm nv flags img len ks code)
    (hgt : km.items.length > E.DDB_HASH_MIN_KEYS) {hash : List Nat}
    (hh : E.ddb_build_cmph km = some hash) :
    slice img.buffer img.head.hash_offs hash.length = hash := by
  obtain ⟨B0, _, hfr, hB0⟩ := layout_key_frame L
  obtain ⟨hash', x1, x2, _⟩ := L.key2values_offs_hash hgt
  rw [hh] at x1
  simp only [Option.some.injEq] at x1
  subst x1
  have e : slice img.buffer img.head.hash_offs hash.length =
      slice (memcpy E.fresh img.head.hash_offs hash) img.head.hash_offs hash.length := by
    apply slice_congr
    intro j hj
    rw [hfr _ (by omega), hB0 hgt hash hh]
  rw [e]
  exact slice_memcpy_self _ _ _

/-! ## Properties of the builder -/

theorem built_by_inv {l : List (add_alloc × ddb_entry × ddb_entry)} {db : ddb_cons}
    (h : built_by l db) : builder_inv l db := by
  obtain ⟨c, k, v, db0, h1, h2⟩ := h
  exact builder_inv_of_adds h1 h2

theorem sample_built : built_by sample_adds sample_db :=
  ⟨true, true, true, _, rfl, rfl⟩

theorem eq_of_map_fst_snd {α β : Type} :
    ∀ (l₁ l₂ : List (α × β)), l₁.map Prod.fst = l₂.map Prod.fst →
      l₁.map Prod.snd = l₂.map Prod.snd → l₁ = l₂
  | [], [], _, _ => rfl
  | [], _ :: _, h, _ => by simp at h
  | _ :: _, [], h, _ => by simp at h
  | (a, b) :: l₁, (a', b') :: l₂, h1, h2 => by
    simp only [List.map_cons, List.cons.injEq] at h1 h2
    obtain ⟨rfl, h1⟩ := h1
    obtain ⟨rfl, h2⟩ := h2
    rw [eq_of_map_fst_snd l₁ l₂ h1 h2]

/-- Claim C2 (value-id assignment). After a sequence of successful `ddb_add` calls on a
new builder, the keys of `values_map`, in insertion order, are the distinct values
in the order of their first insertion, and their ids are `1, 2, ..., |values_map|`
in that order: the `j`-th distinct value has id `j` and id `0` is never
assigned. A further successful add of a value that is already present leaves
the values map, hence every id, unchanged. -/
theorem C2_value_ids (l : List (add_alloc × ddb_entry × ddb_entry)) (db : ddb_cons)
    (h : built_by l db) :
    ∃ vm, db.values_map = some vm ∧
      vm.items.map Prod.fst = first_occurrences (added_values l) ∧
      vm.items.map Prod.snd = List.range' 1 (ddb_map_num_items vm) ∧
      ∀ (a : add_alloc) (key value : ddb_entry) (db1 : ddb_cons),
        value ∈ added_values l → ddb_add a db key value = Res.ok db1 →
        db1.values_map = some vm := by
  have hinv := built_by_inv h
  obtain ⟨vm, km, hv, hk, hvmax, hkmax, hvlen, hklen, hvf, hvs, hkf, hkl, hn⟩ := hinv
  refine ⟨vm, hv, hvf, hvs, ?_⟩
  intro a key value db1 hmem hadd
  have hinv' : builder_inv (l ++ [(a, key, value)]) db1 :=
    builder_inv_step ⟨vm, km, hv, hk, hvmax, hkmax, hvlen, hklen, hvf, hvs, hkf, hkl, hn⟩ hadd
  obtain ⟨vm1, km1, hv1, _, hvmax1, _, _, _, hvf1, hvs1, _, _, _⟩ := hinv'
  rw [added_values_append, first_occurrences_append_singleton, if_pos hmem, ← hvf] at hvf1
  have hlen : vm1.items.length = vm.items.length := by
    have := congrArg List.length hvf1
    simpa using this
  rw [hlen, ← hvs] at hvs1
  have hitems : vm1.items = vm.items := eq_of_map_fst_snd _ _ hvf1 hvs1
  rw [hv1]
  congr 1
  cases vm1
  cases vm
  simp only at hitems hvmax hvmax1
  subst hitems
  rw [hvmax, hvmax1]

/-- Witness of claim C2: the builder after `add(k,a); add(k,b); add(k,a)`. -/
theorem C2_value_ids_witness :
    built_by sample_adds sample_db ∧
    ∃ vm, sample_db.values_map = some vm ∧
      vm.items.map Prod.fst = first_occurrences (added_values sample_adds) ∧
      vm.items.map Prod.snd = List.range' 1 (ddb_map_num_items vm) ∧
      ∀ (a : add_alloc) (key value : ddb_entry) (db1 : ddb_cons),
        value ∈ added_values sample_adds → ddb_add a sample_db key value = Res.ok db1 →
        db1.values_map = some vm :=
  ⟨sample_built, C2_value_ids sample_adds sample_db sample_built⟩

/-- Claim C3 (per-key id list). After a sequence of successful `ddb_add` calls on a new
builder, the list stored in `keys_map` for a key `k` is the sequence of the
`values_map` ids of the values added with `k`, in the order of the calls and
with duplicates retained (a key that was never added is absent); in particular,
for every added pair `(k, v)` the value `v` has an id in `values_map` and that
id occurs in the list of `k`. -/
theorem C3_key_id_lists (l : List (add_alloc × ddb_entry × ddb_entry)) (db : ddb_cons)
    (h : built_by l db) :
    ∃ vm km, db.values_map = some vm ∧ db.keys_map = some km ∧
      (∀ k, ddb_map_lookup_str km k =
        if k ∈ added_keys l then
          some (some ((values_of_key l k).map (value_id_of vm)))
        else none) ∧
      ∀ x ∈ l, ∃ ids id, ddb_map_lookup_str km x.2.1 = some (some ids) ∧
        ddb_map_lookup_str vm x.2.2 = some id ∧ id ∈ ids := by
  have hinv := built_by_inv h
  obtain ⟨vm, km, hv, hk, hvmax, hkmax, hvlen, hklen, hvf, hvs, hkf, hkl, hn⟩ := hinv
  refine ⟨vm, km, hv, hk, hkl, ?_⟩
  intro x hx
  have hkm : x.2.1 ∈ added_keys l := List.mem_map.mpr ⟨x, hx, rfl⟩
  have hvm : x.2.2 ∈ vm.items.map Prod.fst := by
    rw [hvf, mem_first_occurrences]
    exact List.mem_map.mpr ⟨x, hx, rfl⟩
  cases hl : assoc_lookup x.2.2 vm.items with
  | none =>
    rw [assoc_lookup_eq_none_iff] at hl
    exact absurd hvm hl
  | some id =>
    refine ⟨(values_of_key l x.2.1).map (value_id_of vm), id, ?_, hl, ?_⟩
    · show assoc_lookup x.2.1 km.items = _
      rw [hkl, if_pos hkm]
    · refine List.mem_map.mpr ⟨x.2.2, ?_, ?_⟩
      · simp only [values_of_key, List.mem_map, List.mem_filter, decide_eq_true_eq]
        exact ⟨x, ⟨hx, rfl⟩, rfl⟩
      · simp [value_id_of, ddb_map_lookup_str, hl]

/-- Witness of claim C3: the builder after `add(k,a); add(k,b); add(k,a)`. -/
theorem C3_key_id_lists_witness :
    built_by sample_adds sample_db ∧
    ∃ vm km, sample_db.values_map = some vm ∧ sample_db.keys_map = some km ∧
      (∀ k, ddb_map_lookup_str km k =
        if k ∈ added_keys sample_adds then
          some (some ((values_of_key sample_adds k).map (value_id_of vm)))
        else none) ∧
      ∀ x ∈ sample_adds, ∃ ids id, ddb_map_lookup_str km x.2.1 = some (some ids) ∧
        ddb_map_lookup_str vm x.2.2 = some id ∧ id ∈ ids :=
  ⟨sample_built, C3_key_id_lists sample_adds sample_db sample_built⟩

theorem sum_indicator (L : List ddb_entry) (k : ddb_entry) (hnd : L.Nodup) :
    (L.map (fun k' => if k = k' then 1 else 0)).sum = if k ∈ L then 1 else 0 := by
  induction L with
  | nil => simp
  | cons y ys ih =>
    rw [List.nodup_cons] at hnd
    simp only [List.map_cons, List.sum_cons, ih hnd.2, List.mem_cons]
    by_cases hky : k = y
    · subst hky
      simp [hnd.1]
    · simp [hky]

theorem sum_values_of_key (l : List (add_alloc × ddb_entry × ddb_entry)) :
    ((first_occurrences (added_keys l)).map (fun k => (values_of_key l k).length)).sum =
      l.length := by
  induction l using List.reverseRecOn with
  | nil => simp [added_keys, first_occurrences]
  | append_singleton l x ih =>
    obtain ⟨a, k, v⟩ := x
    have hval : ∀ k', (values_of_key (l ++ [(a, k, v)]) k').length =
        (values_of_key l k').length + (if k = k' then 1 else 0) := by
      intro k'
      rw [values_of_key_append]
      by_cases h : k = k' <;> simp [h]
    rw [added_keys_append, first_occurrences_append_singleton]
    simp only [hval, List.length_append, List.length_singleton]
    by_cases hk : k ∈ added_keys l
    · rw [if_pos hk, List.sum_map_add, ih,
        sum_indicator _ _ (nodup_first_occurrences _),
        if_pos ((mem_first_occurrences _ _).mpr hk)]
    · rw [if_neg hk, List.map_append, List.sum_append, List.sum_map_add, ih,
        sum_indicator _ _ (nodup_first_occurrences _),
        if_neg (fun h => hk ((mem_first_occurrences _ _).mp h))]
      simp [values_of_key_eq_nil l k hk]

theorem assoc_lookup_of_mem_nodup {α : Type} {k : ddb_entry} {s : α}
    {items : List (ddb_entry × α)} (hnd : (items.map Prod.fst).Nodup)
    (hmem : (k, s) ∈ items) : assoc_lookup k items = some s := by
  induction items with
  | nil => simp at hmem
  | cons e rest ih =>
    obtain ⟨k', s'⟩ := e
    simp only [List.map_cons, List.nodup_cons] at hnd
    rcases List.mem_cons.mp hmem with heq | hmem'
    · simp only [Prod.mk.injEq] at heq
      obtain ⟨rfl, rfl⟩ := heq
      simp [assoc_lookup]
    · have hne : k' ≠ k := by
        intro e
        subst e
        exact hnd.1 (List.mem_map.mpr ⟨(k', s), hmem', rfl⟩)
      simp [assoc_lookup, hne, ih hnd.2 hmem']

theorem total_list_length_of_inv {l : List (add_alloc × ddb_entry × ddb_entry)}
    {km : ddb_map (Option (List Nat))} {vm : ddb_map Nat}
    (hkf : km.items.map Prod.fst = first_occurrences (added_keys l))
    (hkl : ∀ k, assoc_lookup k km.items =
      if k ∈ added_keys l then
        some (some ((values_of_key l k).map (value_id_of vm)))
      else none) :
    total_list_length km = l.length := by
  have hnd : (km.items.map Prod.fst).Nodup := by
    rw [hkf]
    exact nodup_first_occurrences _
  have hmap : km.items.map (fun e => (e.2.getD []).length) =
      (km.items.map Prod.fst).map (fun k => (values_of_key l k).length) := by
    rw [List.map_map]
    apply List.map_congr_left
    intro e he
    obtain ⟨k, s⟩ := e
    have h1 := assoc_lookup_of_mem_nodup hnd he
    have hk : k ∈ added_keys l := by
      rw [← mem_first_occurrences, ← hkf]
      exact List.mem_map.mpr ⟨(k, s), he, rfl⟩
    rw [hkl k, if_pos hk] at h1
    simp only [Option.some.injEq] at h1
    simp [← h1]
  unfold total_list_length
  rw [hmap, hkf]
  exact sum_values_of_key l

/-- Claim C4, amended (counter invariant). In every builder state reached from
`ddb_cons_new` by successful `ddb_add` calls, the sum over all keys of the length
of the id list of the key is the number of pairs added (duplicates included),
and `num_values`, a `uint32_t`, equals that sum modulo `2^32`; the two are equal
as long as fewer than `2^32` pairs have been added. -/
theorem C4_num_values_mod (l : List (add_alloc × ddb_entry × ddb_entry)) (db : ddb_cons)
    (h : built_by l db) :
    ∃ km, db.keys_map = some km ∧ total_list_length km = l.length ∧
      db.num_values = total_list_length km % U32 ∧
      (l.length < U32 → db.num_values = total_list_length km) := by
  have hinv := built_by_inv h
  obtain ⟨vm, km, hv, hk, hvmax, hkmax, hvlen, hklen, hvf, hvs, hkf, hkl, hn⟩ := hinv
  have ht := total_list_length_of_inv hkf hkl
  refine ⟨km, hk, ht, by rw [ht, hn], fun hlt => ?_⟩
  rw [ht, hn, Nat.mod_eq_of_lt hlt]

/-- Witness of claim C4, amended: the builder after `add(k,a); add(k,b); add(k,a)`. -/
theorem C4_num_values_mod_witness :
    built_by sample_adds sample_db ∧
    ∃ km, sample_db.keys_map = some km ∧ total_list_length km = sample_adds.length ∧
      sample_db.num_values = total_list_length km % U32 ∧
      (sample_adds.length < U32 → sample_db.num_values = total_list_length km) :=
  ⟨sample_built, C4_num_values_mod sample_adds sample_db sample_built⟩

theorem repeated_add_step (m : Nat) :
    ddb_add alloc_ok (repeated_db m) entry_k entry_a = Res.ok (repeated_db (m + 1)) := by
  have h1 : (m % U32 + 1) % U32 = (m + 1) % U32 := by
    rw [Nat.add_mod, Nat.mod_mod, ← Nat.add_mod]
  have h2 : List.replicate m 1 ++ [1] = List.replicate (m + 1) 1 := by
    rw [List.replicate_succ']
  simp [ddb_add, repeated_db, ddb_map_insert_str, assoc_lookup, ddb_map_lookup_str,
    ddb_list_append, alloc_ok, ddb_map_store, assoc_store, h1, h2]

theorem repeated_add_all (n : Nat) : ∀ m,
    ddb_add_all (repeated_db m) (repeated_adds n) = Res.ok (repeated_db (m + n)) := by
  induction n with
  | zero => intro m; rfl
  | succ n ih =>
    intro m
    have : repeated_adds (n + 1) = (alloc_ok, entry_k, entry_a) :: repeated_adds n := by
      simp [repeated_adds, List.replicate_succ]
    rw [this, ddb_add_all, repeated_add_step m]
    simp only [Res.bind]
    rw [ih (m + 1)]
    congr 2
    omega

theorem repeated_built (n : Nat) : built_by (repeated_adds (n + 1)) (repeated_db (n + 1)) := by
  refine ⟨true, true, true, _, rfl, ?_⟩
  have : repeated_adds (n + 1) = (alloc_ok, entry_k, entry_a) :: repeated_adds n := by
    simp [repeated_adds, List.replicate_succ]
  rw [this, ddb_add_all]
  have h1 : ddb_add alloc_ok
      { values_map := some (ddb_map_new UINT_MAX), keys_map := some (ddb_map_new UINT_MAX),
        num_values := 0 } entry_k entry_a = Res.ok (repeated_db 1) := by
    rfl
  rw [h1]
  simp only [Res.bind]
  rw [repeated_add_all n 1]
  congr 2
  omega

theorem repeated_db_counts (n : Nat) :
    (repeated_db n).num_values = n % U32 ∧
    ∀ km, (repeated_db n).keys_map = some km → total_list_length km = n := by
  refine ⟨rfl, ?_⟩
  intro km hkm
  simp only [repeated_db, Option.some.injEq] at hkm
  subst hkm
  simp [total_list_length]

/-- Counterexample to claim C4 as stated: after `2^32` successful calls `add(k,a)` on a
new builder the counter `num_values` has wrapped to `0`, while the id list of `k`
holds `2^32` entries. -/
theorem C4_counterexample :
    ∃ db km, built_by (repeated_adds 4294967296) db ∧ db.keys_map = some km ∧
      db.num_values = 0 ∧ total_list_length km = 4294967296 ∧
      db.num_values ≠ total_list_length km := by
  have hb := repeated_built 4294967295
  have e : 4294967295 + 1 = 4294967296 := by norm_num
  rw [e] at hb
  obtain ⟨h1, h2⟩ := repeated_db_counts 4294967296
  have h0 : 4294967296 % U32 = 0 := by norm_num [U32]
  rw [h0] at h1
  have h3 := h2 _ rfl
  refine ⟨repeated_db 4294967296, _, hb, rfl, h1, h3, ?_⟩
  rw [h1, h3]
  norm_num

/-! ## Properties of the finalized image -/

theorem Res.exists_of_isOk {α : Type} {r : Res α} (h : r.isOk = true) : ∃ a, r = Res.ok a := by
  cases r with
  | ok a => exact ⟨a, rfl⟩
  | null => cases h
  | out_of_bounds => cases h
  | undefined => cases h

theorem sample_finalize (flags : Nat) (h : (ddb_finalize sample_env sample_db flags).isOk = true) :
    ∃ img len db', ddb_finalize sample_env sample_db flags = Res.ok (img, len, db') := by
  obtain ⟨⟨img, len, db'⟩, hr⟩ := Res.exists_of_isOk h
  exact ⟨img, len, db', hr⟩

theorem layout_of_built {E : Env} {l : List (add_alloc × ddb_entry × ddb_entry)}
    {db db' : ddb_cons} {flags len : Nat} {img : ddb_image}
    (hb : built_by l db) (h : ddb_finalize E db flags = Res.ok (img, len, db')) :
    ∃ vm km ks code, db.values_map = some vm ∧ db.keys_map = some km ∧
      vm.items.map Prod.fst = first_occurrences (added_values l) ∧
      vm.items.map Prod.snd = List.range' 1 vm.items.length ∧
      km.items.map Prod.fst = first_occurrences (added_keys l) ∧
      (∀ k, assoc_lookup k km.items =
        if k ∈ added_keys l then
          some (some ((values_of_key l k).map (value_id_of vm)))
        else none) ∧
      db.num_values = l.length % U32 ∧
      image_layout E km vm db.num_values flags img len ks code := by
  obtain ⟨vm, km, hv, hk, hvmax, hkmax, hvlen, hklen, hvf, hvs, hkf, hkl, hn⟩ := built_by_inv hb
  obtain ⟨⟨ks, code, L⟩, _⟩ := ddb_finalize_layout hk hv hklen h
  exact ⟨vm, km, ks, code, hv, hk, hvf, hvs, hkf, hkl, hn, L⟩

/-- Claim C5, amended (header counts). A successful `ddb_finalize` of a builder obtained
by successful adds returns an image whose header has `magic = DISCODB_MAGIC`,
`num_keys` the number of distinct keys added, `num_uniq_values` the number of
distinct values added, and `num_values` the number of pairs added modulo `2^32`
(hence the number of pairs itself when fewer than `2^32` pairs were added). -/
theorem C5_header_counts (E : Env) (l : List (add_alloc × ddb_entry × ddb_entry))
    (db db' : ddb_cons) (flags len : Nat) (img : ddb_image)
    (hb : built_by l db) (h : ddb_finalize E db flags = Res.ok (img, len, db')) :
    img.head.magic = E.DISCODB_MAGIC ∧
    img.head.num_keys = (first_occurrences (added_keys l)).length ∧
    img.head.num_uniq_values = (first_occurrences (added_values l)).length ∧
    img.head.num_values = l.length % U32 ∧
    (l.length < U32 → img.head.num_values = l.length) := by
  obtain ⟨vm, km, ks, code, hv, hk, hvf, hvs, hkf, hkl, hn, L⟩ := layout_of_built hb h
  have h1 : img.head.num_keys = (first_occurrences (added_keys l)).length := by
    rw [L.num_keys, ← hkf, List.length_map]
  have h2 : img.head.num_uniq_values = (first_occurrences (added_values l)).length := by
    rw [L.num_uniq_values, ← hvf, List.length_map]
  have h3 : img.head.num_values = l.length % U32 := by rw [L.num_values, hn]
  exact ⟨L.magic, h1, h2, h3, fun hlt => by rw [h3, Nat.mod_eq_of_lt hlt]⟩

/-- Witness of claim C5, amended: `add(k,a); add(k,b); add(k,a)` gives `num_keys = 1`,
`num_uniq_values = 2` and `num_values = 3`. -/
theorem C5_header_counts_witness :
    ∃ img len db', built_by sample_adds sample_db ∧
      ddb_finalize sample_env sample_db 0 = Res.ok (img, len, db') ∧
      img.head.num_keys = 1 ∧ img.head.num_uniq_values = 2 ∧ img.head.num_values = 3 := by
  obtain ⟨img, len, db', hr⟩ := sample_finalize 0 (by decide)
  obtain ⟨_, h1, h2, h3, _⟩ :=
    C5_header_counts sample_env sample_adds sample_db db' 0 len img sample_built hr
  exact ⟨img, len, db', sample_built, hr, h1, h2, h3⟩

/-- Claim C9 (size fidelity). On every successful `ddb_finalize`, the `size` field of
the header, the value stored in `*length` and the number of bytes of the
returned buffer, which `buffer_shrink` reallocates to the final write cursor,
are equal. -/
theorem C9_size_fidelity (E : Env) (db db' : ddb_cons) (flags len : Nat) (img : ddb_image)
    (h : ddb_finalize E db flags = Res.ok (img, len, db')) :
    img.head.size = len ∧ len = img.alloc := by
  unfold ddb_finalize at h
  simp only [Res.bind_eq_ok] at h
  obtain ⟨p0, _, p1, _, h⟩ := h
  cases hk : db.keys_map with
  | none => rw [hk] at h; cases h
  | some km =>
    rw [hk] at h
    simp only [Res.bind_eq_ok] at h
    obtain ⟨po, _, p4, _, p6, _, image, hshrink, h⟩ := h
    simp only [Res.ok.injEq, Prod.mk.injEq] at h
    obtain ⟨rfl, rfl, _⟩ := h
    unfold buffer_shrink at hshrink
    split at hshrink
    · simp only [Res.ok.injEq] at hshrink
      subst hshrink
      exact ⟨rfl, rfl⟩
    · cases hshrink

/-- Witness of claim C9: the finalization of the builder after
`add(k,a); add(k,b); add(k,a)`. -/
theorem C9_size_fidelity_witness :
    ∃ img len db', ddb_finalize sample_env sample_db 0 = Res.ok (img, len, db') ∧
      img.head.size = len ∧ len = img.alloc := by
  obtain ⟨img, len, db', hr⟩ := sample_finalize 0 (by decide)
  exact ⟨img, len, db', hr, C9_size_fidelity sample_env sample_db db' 0 len img hr⟩

theorem HASFLAG_iff (head : ddb_header) (f : Flag) : HASFLAG head f = true ↔ f ∈ head.flags := by
  simp [HASFLAG]

/-- Claim C7 (`F_HASH`). In a successfully finalized image `F_HASH` is set if and only if
`num_keys > DDB_HASH_MIN_KEYS`, and the hash is written exactly in that case: when
`num_keys > DDB_HASH_MIN_KEYS` the bytes from `hash_offs` on are the blob returned
by `ddb_build_cmph` and `key2values_offs` lies right after it, otherwise
`key2values_offs = hash_offs` and no byte lies between the two. -/
theorem C7_flag_hash (E : Env) (l : List (add_alloc × ddb_entry × ddb_entry))
    (db db' : ddb_cons) (flags len : Nat) (img : ddb_image)
    (hb : built_by l db) (h : ddb_finalize E db flags = Res.ok (img, len, db')) :
    (HASFLAG img.head Flag.F_HASH = true ↔ img.head.num_keys > E.DDB_HASH_MIN_KEYS) ∧
    (img.head.num_keys > E.DDB_HASH_MIN_KEYS →
      ∃ km hash, db.keys_map = some km ∧ E.ddb_build_cmph km = some hash ∧
        slice img.buffer img.head.hash_offs hash.length = hash ∧
        img.head.key2values_offs = img.head.hash_offs + hash.length) ∧
    (¬ img.head.num_keys > E.DDB_HASH_MIN_KEYS →
      img.head.key2values_offs = img.head.hash_offs) := by
  obtain ⟨vm, km, ks, code, hv, hk, hvf, hvs, hkf, hkl, hn, L⟩ := layout_of_built hb h
  rw [HASFLAG_iff, L.num_keys]
  refine ⟨L.flag_hash, ?_, ?_⟩
  · intro hgt
    obtain ⟨hash, x1, x2, _⟩ := L.key2values_offs_hash hgt
    exact ⟨km, hash, hk, x1, layout_hash L hgt x1, x2⟩
  · intro hgt
    exact (L.key2values_offs_plain hgt).1

/-- Witness of claim C7: the finalization of the builder after
`add(k,a); add(k,b); add(k,a)` under a threshold of 0 keys, which has one key and
a hash section. -/
theorem C7_flag_hash_witness :
    ∃ img len db', built_by sample_adds sample_db ∧
      ddb_finalize hash_env sample_db 0 = Res.ok (img, len, db') ∧
      (HASFLAG img.head Flag.F_HASH = true ↔
        img.head.num_keys > hash_env.DDB_HASH_MIN_KEYS) := by
  have hok : (ddb_finalize hash_env sample_db 0).isOk = true := by decide
  obtain ⟨⟨img, len, db'⟩, hr⟩ := Res.exists_of_isOk hok
  exact ⟨img, len, db', sample_built, hr,
    (C7_flag_hash hash_env sample_adds sample_db db' 0 len img sample_built hr).1⟩

theorem mod_U64_and (x y : Nat) (hy : y < U64) : (x % U64) &&& y = x &&& y := by
  have h64 : U64 = 2 ^ 64 := by decide
  rw [h64] at hy ⊢
  rw [← Nat.and_pow_two_sub_one_eq_mod x 64, Nat.and_assoc,
    Nat.and_comm (2 ^ 64 - 1) y, Nat.and_pow_two_sub_one_eq_mod y 64, Nat.mod_eq_of_lt hy]

theorem disable_compr_arg_eq_false (E : Env) (flags : Nat)
    (hopt : E.DDB_OPT_DISABLE_COMPRESSION < U32) :
    disable_compr_arg E flags = false ↔ flags &&& E.DDB_OPT_DISABLE_COMPRESSION = 0 := by
  have h1 : E.DDB_OPT_DISABLE_COMPRESSION < U64 := by
    simp only [U32] at hopt
    simp only [U64]
    omega
  have h2 : flags &&& E.DDB_OPT_DISABLE_COMPRESSION < U32 :=
    Nat.lt_of_le_of_lt Nat.and_le_right hopt
  unfold disable_compr_arg
  rw [Nat.mod_eq_of_lt h1, mod_U64_and _ _ h1, Nat.mod_eq_of_lt h2]
  simp

/-- Claim C8 (`F_COMPRESSED`). In a successfully finalized image `F_COMPRESSED` is set if
and only if the `flags` argument of `ddb_finalize` has no bit in common with
`DDB_OPT_DISABLE_COMPRESSION`, whatever the other bits of `flags` are. The
constant comes from the absent `discodb.h`; it is taken to fit the `int`
parameter `disable_compr` it is passed through. -/
theorem C8_flag_compressed (E : Env) (l : List (add_alloc × ddb_entry × ddb_entry))
    (db db' : ddb_cons) (flags len : Nat) (img : ddb_image)
    (hopt : E.DDB_OPT_DISABLE_COMPRESSION < U32)
    (hb : built_by l db) (h : ddb_finalize E db flags = Res.ok (img, len, db')) :
    HASFLAG img.head Flag.F_COMPRESSED = true ↔
      flags &&& E.DDB_OPT_DISABLE_COMPRESSION = 0 := by
  obtain ⟨vm, km, ks, code, hv, hk, hvf, hvs, hkf, hkl, hn, L⟩ := layout_of_built hb h
  rw [HASFLAG_iff, L.flag_compressed, disable_compr_arg_eq_false E flags hopt]

/-- Witness of claim C8: finalization with `flags = 3`, which contains
`DDB_OPT_DISABLE_COMPRESSION = 1` of the sample environment: `F_COMPRESSED` is clear. -/
theorem C8_flag_compressed_witness :
    ∃ img len db', sample_env.DDB_OPT_DISABLE_COMPRESSION < U32 ∧
      built_by sample_adds sample_db ∧
      ddb_finalize sample_env sample_db 3 = Res.ok (img, len, db') ∧
      HASFLAG img.head Flag.F_COMPRESSED = false := by
  obtain ⟨img, len, db', hr⟩ := sample_finalize 3 (by decide)
  have hopt : sample_env.DDB_OPT_DISABLE_COMPRESSION < U32 := by decide
  have h := C8_flag_compressed sample_env sample_adds sample_db db' 3 len img hopt
    sample_built hr
  refine ⟨img, len, db', hopt, sample_built, hr, ?_⟩
  cases hf : HASFLAG img.head Flag.F_COMPRESSED with
  | false => rfl
  | true =>
    have := h.mp hf
    revert this
    decide

/-- Claim C10 (TOC monotonicity). In a successfully finalized image, for the
key-to-values section (`N = num_keys`) and for the id-to-value section
(`N = num_uniq_values`), the `N + 1` TOC entries satisfy `toc[i] ≤ toc[i+1]` for
all `i < N`, `toc[0] ≥ section_start + 8·(N+1)` (with equality), and every entry
is at most `header.size`. -/
theorem C10_toc_monotone (E : Env) (l : List (add_alloc × ddb_entry × ddb_entry))
    (db db' : ddb_cons) (flags len : Nat) (img : ddb_image)
    (hb : built_by l db) (h : ddb_finalize E db flags = Res.ok (img, len, db')) :
    ((∀ i, i < img.head.num_keys →
        toc_entry img img.head.key2values_offs i ≤
          toc_entry img img.head.key2values_offs (i + 1)) ∧
      toc_entry img img.head.key2values_offs 0 =
        img.head.key2values_offs + 8 * (img.head.num_keys + 1) ∧
      (∀ i, i ≤ img.head.num_keys →
        toc_entry img img.head.key2values_offs i ≤ img.head.size)) ∧
    ((∀ i, i < img.head.num_uniq_values →
        toc_entry img img.head.id2value_offs i ≤
          toc_entry img img.head.id2value_offs (i + 1)) ∧
      toc_entry img img.head.id2value_offs 0 =
        img.head.id2value_offs + 8 * (img.head.num_uniq_values + 1) ∧
      (∀ i, i ≤ img.head.num_uniq_values →
        toc_entry img img.head.id2value_offs i ≤ img.head.size)) := by
  obtain ⟨vm, km, ks, code, hv, hk, hvf, hvs, hkf, hkl, hn, L⟩ := layout_of_built hb h
  have hks := L.ks_length
  have hV := L.id2value_offs
  have hlen := L.length
  rw [L.num_keys, L.num_uniq_values, L.size]
  unfold section_end at hV hlen
  simp only [List.length_map] at hV hlen
  refine ⟨⟨?_, ?_, ?_⟩, ⟨?_, ?_, ?_⟩⟩
  · intro i hi
    rw [layout_key_toc L i (by omega), layout_key_toc L (i + 1) (by omega),
      total_length_take_succ]
    omega
  · rw [layout_key_toc L 0 (by omega), hks]
    simp [total_length]
  · intro i hi
    rw [layout_key_toc L i (by omega)]
    have := total_length_take_le (ks.map (key_record E km)) i
    omega
  · intro i hi
    rw [layout_value_toc L i (by omega), layout_value_toc L (i + 1) (by omega),
      total_length_take_succ]
    omega
  · rw [layout_value_toc L 0 (by omega)]
    simp [total_length]
  · intro i hi
    rw [layout_value_toc L i (by omega)]
    have := total_length_take_le
      ((vm.items.map Prod.fst).map (value_record E (disable_compr_arg E flags) code)) i
    omega

/-- Witness of claim C10: the finalization of the builder after
`add(k,a); add(k,b); add(k,a)`. -/
theorem C10_toc_monotone_witness :
    ∃ img len db', built_by sample_adds sample_db ∧
      ddb_finalize sample_env sample_db 0 = Res.ok (img, len, db') ∧
      toc_entry img img.head.key2values_offs 0 =
        img.head.key2values_offs + 8 * (img.head.num_keys + 1) ∧
      toc_entry img img.head.id2value_offs 0 =
        img.head.id2value_offs + 8 * (img.head.num_uniq_values + 1) := by
  obtain ⟨img, len, db', hr⟩ := sample_finalize 0 (by decide)
  have h := C10_toc_monotone sample_env sample_adds sample_db db' 0 len img sample_built hr
  exact ⟨img, len, db', sample_built, hr, h.1.2.1, h.2.2.1⟩

theorem value_lookup_of_mem {vm : ddb_map Nat} {v : ddb_entry}
    (h : v ∈ vm.items.map Prod.fst) :
    ∃ id, assoc_lookup v vm.items = some id ∧ value_id_of vm v = id ∧ (v, id) ∈ vm.items := by
  cases hl : assoc_lookup v vm.items with
  | none =>
    rw [assoc_lookup_eq_none_iff] at hl
    exact absurd h hl
  | some id =>
    exact ⟨id, rfl, by simp [value_id_of, ddb_map_lookup_str, hl], assoc_lookup_mem hl⟩

theorem value_id_injective {vm : ddb_map Nat}
    (hvs : vm.items.map Prod.snd = List.range' 1 vm.items.length) {v w : ddb_entry}
    (hv : v ∈ vm.items.map Prod.fst) (hw : w ∈ vm.items.map Prod.fst)
    (h : value_id_of vm v = value_id_of vm w) : v = w := by
  obtain ⟨i, _, hi, hmi⟩ := value_lookup_of_mem hv
  obtain ⟨j, _, hj, hmj⟩ := value_lookup_of_mem hw
  have hnd : (vm.items.map Prod.snd).Nodup := by
    rw [hvs]
    exact List.nodup_range' 1 vm.items.length
  have := List.inj_on_of_nodup_map hnd hmi hmj (by
    show i = j
    rw [← hi, ← hj, h])
  exact (Prod.mk.inj this).1

theorem nodup_value_ids {l : List (add_alloc × ddb_entry × ddb_entry)} {vm : ddb_map Nat}
    (hvf : vm.items.map Prod.fst = first_occurrences (added_values l))
    (hvs : vm.items.map Prod.snd = List.range' 1 vm.items.length) (k : ddb_entry) :
    ((values_of_key l k).map (value_id_of vm)).Nodup ↔ (values_of_key l k).Nodup := by
  have hmem : ∀ v ∈ values_of_key l k, v ∈ vm.items.map Prod.fst := by
    intro v hv
    rw [hvf, mem_first_occurrences]
    exact values_of_key_subset l k v hv
  constructor
  · exact List.Nodup.of_map _
  · intro hnd
    exact List.Nodup.map_on
      (fun v hv w hw e => value_id_injective hvs (hmem v hv) (hmem w hw) e) hnd

/-- Claim C6 (`F_MULTISET`). Assume that the delta encoder reports duplicates exactly
when its input id list contains a repeated id. Then the header of a successfully
finalized image has `F_MULTISET` set if and only if some key was added with the
same value more than once, that is, the values added with some key are not
pairwise distinct. -/
theorem C6_flag_multiset (E : Env) (l : List (add_alloc × ddb_entry × ddb_entry))
    (db db' : ddb_cons) (flags len : Nat) (img : ddb_image)
    (hdelta : ∀ ids buf d, E.ddb_delta_encode ids = some (buf, d) →
      (d = true ↔ ¬ ids.Nodup))
    (hb : built_by l db) (h : ddb_finalize E db flags = Res.ok (img, len, db')) :
    HASFLAG img.head Flag.F_MULTISET = true ↔ ∃ k, ¬ (values_of_key l k).Nodup := by
  obtain ⟨vm, km, ks, code, hv, hk, hvf, hvs, hkf, hkl, hn, L⟩ := layout_of_built hb h
  rw [HASFLAG_iff, L.flag_multiset]
  have hdup : ∀ k ∈ ks, (key_duplicates E km k = true ↔ ¬ (values_of_key l k).Nodup) := by
    intro k hk'
    obtain ⟨ids, buf, d, x1, x2⟩ := L.ks_ok k hk'
    have hkm : k ∈ added_keys l := by
      rw [← mem_first_occurrences, ← hkf]
      exact (L.ks_mem k).mp hk'
    have x3 := hkl k
    rw [if_pos hkm] at x3
    have x4 : ids = (values_of_key l k).map (value_id_of vm) := by
      have : some (some ids) = some (some ((values_of_key l k).map (value_id_of vm))) := by
        rw [← x1, ← x3]
        rfl
      simpa using this
    have x5 : key_duplicates E km k = d := by
      simp [key_duplicates, x1, x2]
    rw [x5, hdelta ids buf d x2, x4, nodup_value_ids hvf hvs k]
  constructor
  · rintro ⟨k, hk', hd⟩
    exact ⟨k, (hdup k hk').mp hd⟩
  · rintro ⟨k, hnd⟩
    have hkm : k ∈ added_keys l := by
      by_contra hc
      rw [values_of_key_eq_nil l k hc] at hnd
      exact hnd List.nodup_nil
    have hk' : k ∈ ks := by
      rw [L.ks_mem k, hkf, mem_first_occurrences]
      exact hkm
    exact ⟨k, hk', (hdup k hk').mpr hnd⟩

/-- Witness of claim C6: after `add(k,a); add(k,b); add(k,a)` the value `a` is repeated
for `k` and `F_MULTISET` is set. -/
theorem C6_flag_multiset_witness :
    ∃ img len db',
      (∀ ids buf d, sample_env.ddb_delta_encode ids = some (buf, d) →
        (d = true ↔ ¬ ids.Nodup)) ∧
      built_by sample_adds sample_db ∧
      ddb_finalize sample_env sample_db 0 = Res.ok (img, len, db') ∧
      HASFLAG img.head Flag.F_MULTISET = true := by
  obtain ⟨img, len, db', hr⟩ := sample_finalize 0 (by decide)
  have hdelta : ∀ ids buf d, sample_env.ddb_delta_encode ids = some (buf, d) →
      (d = true ↔ ¬ ids.Nodup) := by
    intro ids buf d hd
    simp only [sample_env, Option.some.injEq, Prod.mk.injEq] at hd
    rw [← hd.2]
    simp
  refine ⟨img, len, db', hdelta, sample_built, hr, ?_⟩
  rw [C6_flag_multiset sample_env sample_adds sample_db db' 0 len img hdelta sample_built hr]
  exact ⟨entry_k, by decide⟩

/-! ## The reader on a finalized image -/

theorem findSome_unique {β : Type} {f : Nat → Option β} {b : β} :
    ∀ (l : List Nat), (∃ i ∈ l, f i = some b) → (∀ j ∈ l, ∀ b', f j = some b' → b' = b) →
      l.findSome? f = some b
  | [], hex, _ => by
    obtain ⟨i, hi, _⟩ := hex
    simp at hi
  | x :: xs, hex, hall => by
    cases hfx : f x with
    | some b' =>
      have := hall x (List.mem_cons_self _ _) b' hfx
      subst this
      simp [List.findSome?, hfx]
    | none =>
      have hex' : ∃ i ∈ xs, f i = some b := by
        obtain ⟨i, hi, hfi⟩ := hex
        rcases List.mem_cons.mp hi with rfl | hi
        · rw [hfx] at hfi
          cases hfi
        · exact ⟨i, hi, hfi⟩
      have := findSome_unique xs hex' (fun j hj => hall j (List.mem_cons_of_mem _ hj))
      simp [List.findSome?, hfx, this]

theorem key_record_eq {E : Env} {km : ddb_map (Option (List Nat))} {k : ddb_entry}
    (h : ∃ ids buf d, ddb_map_lookup_str km k = some (some ids) ∧
      E.ddb_delta_encode ids = some (buf, d)) :
    key_record E km k = le_bytes 4 k.val.length ++ k.val ++ key_encoding E km k := by
  obtain ⟨ids, buf, d, h1, h2⟩ := h
  simp [key_record, key_encoding, h1, h2]

/-- What the reader parses from record `i` of the key-to-values section: the key
laid out there and the delta encoding of its id list. -/
theorem reader_key_record_eq {E : Env} {km : ddb_map (Option (List Nat))} {vm : ddb_map Nat}
    {nv flags len : Nat} {img : ddb_image} {ks : List ddb_entry} {code : List Nat}
    (L : image_layout E km vm nv flags img len ks code) {i : Nat} {k : ddb_entry}
    (hk : ks[i]? = some k) :
    reader_key_record img i = (k.val, key_encoding E km k) := by
  have hi : i < ks.length := by
    by_contra hc
    rw [List.getElem?_eq_none (by omega)] at hk
    cases hk
  have hmem : k ∈ ks := List.getElem?_mem hk
  have hrec : toc_record img img.head.key2values_offs i =
      le_bytes 4 k.val.length ++ k.val ++ key_encoding E km k := by
    rw [layout_key_record L i hi, List.getD_eq_getElem?_getD, List.getElem?_map, hk]
    exact key_record_eq (L.ks_ok k hmem)
  have hlen : le_value (le_bytes 4 k.val.length) = k.val.length :=
    le_value_le_bytes 4 _ (by
      have := k.property
      omega)
  unfold reader_key_record
  simp only [hrec, List.append_assoc]
  rw [List.take_left' (length_le_bytes 4 _), List.drop_left' (length_le_bytes 4 _), hlen,
    List.take_left, List.drop_left]

/-- The record the reader finds for a key: the delta encoding of its id list when
the key is in the store, nothing otherwise. -/
theorem reader_find_eq {E : Env} {km : ddb_map (Option (List Nat))} {vm : ddb_map Nat}
    {nv flags len : Nat} {img : ddb_image} {ks : List ddb_entry} {code : List Nat}
    (L : image_layout E km vm nv flags img len ks code) (k : ddb_entry) :
    reader_find E img k.val =
      if k ∈ km.items.map Prod.fst then some (key_encoding E km k) else none := by
  have hrec_mem : ∀ i k', ks[i]? = some k' → (reader_key_record img i).1 = k.val → k ∈ ks := by
    intro i k' hk' heq
    rw [reader_key_record_eq L hk'] at heq
    have : k' = k := Subtype.ext heq
    subst this
    exact List.getElem?_mem hk'
  unfold reader_find
  by_cases hgt : km.items.length > E.DDB_HASH_MIN_KEYS
  · have hflag : HASFLAG img.head Flag.F_HASH = true := by
      rw [HASFLAG_iff]
      exact L.flag_hash.mpr hgt
    obtain ⟨hash, x1, x2, x3⟩ := L.key2values_offs_hash hgt
    have hh := layout_hash L hgt x1
    rw [if_pos hflag]
    simp only
    rw [x2, Nat.add_sub_cancel_left, hh, L.num_keys]
    by_cases hk : k ∈ km.items.map Prod.fst
    · obtain ⟨y1, y2⟩ := x3 k hk
      rw [if_pos hk, reader_key_record_eq L y2, if_pos ⟨y1, rfl⟩]
    · rw [if_neg hk, if_neg]
      rintro ⟨h1, h2⟩
      have hlt : E.cmph_search_packed hash k.val % U32 < ks.length := by
        rw [L.ks_length]
        exact h1
      exact hk ((L.ks_mem k).mp
        (hrec_mem _ _ (List.getElem?_eq_getElem hlt) h2))
  · have hflag : ¬ HASFLAG img.head Flag.F_HASH = true := by
      rw [HASFLAG_iff]
      exact fun h => hgt (L.flag_hash.mp h)
    rw [if_neg hflag, L.num_keys, ← L.ks_length]
    by_cases hk : k ∈ km.items.map Prod.fst
    · rw [if_pos hk]
      have hk' : k ∈ ks := (L.ks_mem k).mpr hk
      obtain ⟨i, hi, hik⟩ := List.getElem_of_mem hk'
      have hik' : ks[i]? = some k := by rw [List.getElem?_eq_getElem hi, hik]
      apply findSome_unique
      · refine ⟨i, List.mem_range.mpr hi, ?_⟩
        rw [reader_key_record_eq L hik', if_pos rfl]
      · intro j hj b' hb'
        rw [List.mem_range] at hj
        have hjk : ks[j]? = some ks[j] := List.getElem?_eq_getElem hj
        rw [reader_key_record_eq L hjk] at hb'
        by_cases he : ks[j].val = k.val
        · rw [if_pos he] at hb'
          have : ks[j] = k := Subtype.ext he
          rw [this] at hb'
          simpa using hb'.symm
        · rw [if_neg he] at hb'
          cases hb'
    · rw [if_neg hk, List.findSome?_eq_none_iff]
      intro j hj
      rw [List.mem_range] at hj
      rw [if_neg]
      intro he
      exact hk ((L.ks_mem k).mp (hrec_mem j _ (List.getElem?_eq_getElem hj) he))

theorem value_at_id {vm : ddb_map Nat} {v : ddb_entry} {id : Nat}
    (hvs : vm.items.map Prod.snd = List.range' 1 vm.items.length)
    (hmem : (v, id) ∈ vm.items) :
    1 ≤ id ∧ id - 1 < vm.items.length ∧ (vm.items.map Prod.fst)[id - 1]? = some v := by
  obtain ⟨j, hj, hjv⟩ := List.getElem_of_mem hmem
  have h1 : (vm.items.map Prod.snd)[j]? = some id := by
    rw [List.getElem?_map, List.getElem?_eq_getElem hj, hjv]
    rfl
  rw [hvs, List.getElem?_range' _ _ hj] at h1
  simp only [Nat.one_mul, Option.some.injEq] at h1
  have h2 : id - 1 = j := by omega
  refine ⟨by omega, by omega, ?_⟩
  rw [h2, List.getElem?_map, List.getElem?_eq_getElem hj, hjv]
  rfl

/-- The value the reader obtains for the id of a stored value is that value,
provided decompression under the saved codebook inverts compression. -/
theorem reader_value_eq {E : Env} {R : Reader} {km : ddb_map (Option (List Nat))}
    {vm : ddb_map Nat} {nv flags len : Nat} {img : ddb_image} {ks : List ddb_entry}
    {code : List Nat}
    (hdecomp : ∀ vm code cb v out, E.ddb_create_codemap vm = some code →
      E.ddb_save_codemap code = some cb → E.ddb_compress code v = some out →
      R.ddb_decompress cb out = v)
    (L : image_layout E km vm nv flags img len ks code)
    (hvs : vm.items.map Prod.snd = List.range' 1 vm.items.length)
    {v : ddb_entry} (hv : v ∈ vm.items.map Prod.fst) :
    reader_value R img (value_id_of vm v) = v.val := by
  obtain ⟨id, _, hid, hmem⟩ := value_lookup_of_mem hv
  obtain ⟨h1, h2, h3⟩ := value_at_id hvs hmem
  rw [hid]
  have hrec : toc_record img img.head.id2value_offs (id - 1) =
      value_record E (disable_compr_arg E flags) code v := by
    rw [layout_value_record L (id - 1) h2, List.getD_eq_getElem?_getD, List.getElem?_map, h3]
    rfl
  unfold reader_value
  simp only [hrec]
  by_cases hdc : disable_compr_arg E flags = false
  · have hflag : HASFLAG img.head Flag.F_COMPRESSED = true := by
      rw [HASFLAG_iff]
      exact L.flag_compressed.mpr hdc
    obtain ⟨c1, c2, c3⟩ := L.codebook hdc
    obtain ⟨out, hout⟩ := c3 v hv
    rw [if_pos hflag]
    have : value_record E (disable_compr_arg E flags) code v = out := by
      simp [value_record, hdc, hout]
    rw [this]
    exact hdecomp vm code _ _ out c1 c2 hout
  · have hflag : ¬ HASFLAG img.head Flag.F_COMPRESSED = true := by
      rw [HASFLAG_iff]
      exact fun h => hdc (L.flag_compressed.mp h)
    rw [if_neg hflag]
    have hdc' : disable_compr_arg E flags = true := by simpa using hdc
    simp [value_record, hdc']

/-- Claim C1 (round trip). Let a builder be obtained from a new one by successful
`ddb_add` calls and let `ddb_finalize` succeed on it. Assume the reader-side
collaborators match the writer-side ones: decoding a delta-encoded id list
yields the same ids as a multiset, and decompression under the saved codebook
inverts compression. Then for every key `k` the reader of the returned image
obtains exactly the multiset of the values added with `k`, duplicates preserved
(the empty multiset for a key that was never added). -/
theorem C1_round_trip (E : Env) (R : Reader) (l : List (add_alloc × ddb_entry × ddb_entry))
    (db db' : ddb_cons) (flags len : Nat) (img : ddb_image)
    (hdec : ∀ ids buf d, E.ddb_delta_encode ids = some (buf, d) →
      (R.ddb_delta_decode buf).Perm ids)
    (hdecomp : ∀ vm code cb v out, E.ddb_create_codemap vm = some code →
      E.ddb_save_codemap code = some cb → E.ddb_compress code v = some out →
      R.ddb_decompress cb out = v)
    (hb : built_by l db) (h : ddb_finalize E db flags = Res.ok (img, len, db')) :
    ∀ k : ddb_entry,
      (reader_lookup E R img k.val).Perm ((values_of_key l k).map Subtype.val) := by
  obtain ⟨vm, km, ks, code, hv, hk, hvf, hvs, hkf, hkl, hn, L⟩ := layout_of_built hb h
  intro k
  unfold reader_lookup
  rw [reader_find_eq L k]
  by_cases hkm : k ∈ km.items.map Prod.fst
  · rw [if_pos hkm]
    simp only
    have hka : k ∈ added_keys l := by
      rw [← mem_first_occurrences, ← hkf]
      exact hkm
    obtain ⟨ids, buf, d, x1, x2⟩ := L.ks_ok k ((L.ks_mem k).mpr hkm)
    have x3 := hkl k
    rw [if_pos hka] at x3
    have x4 : ids = (values_of_key l k).map (value_id_of vm) := by
      have : some (some ids) = some (some ((values_of_key l k).map (value_id_of vm))) := by
        rw [← x1, ← x3]
        rfl
      simpa using this
    have henc : key_encoding E km k = buf := by
      simp [key_encoding, x1, x2]
    rw [henc]
    have hperm := (hdec ids buf d x2).map (reader_value R img)
    refine hperm.trans ?_
    rw [x4, List.map_map]
    apply List.Perm.of_eq
    apply List.map_congr_left
    intro v hv'
    have hvm : v ∈ vm.items.map Prod.fst := by
      rw [hvf, mem_first_occurrences]
      exact values_of_key_subset l k v hv'
    exact reader_value_eq hdecomp L hvs hvm
  · rw [if_neg hkm]
    have hka : k ∉ added_keys l := by
      rw [← mem_first_occurrences, ← hkf]
      exact hkm
    rw [values_of_key_eq_nil l k hka]
    exact List.Perm.refl _

/-- Witness of claim C1: after `add(k,a); add(k,b); add(k,a)` the reader returns the
multiset `{a, a, b}` for the key `k`. -/
theorem C1_round_trip_witness :
    ∃ img len db',
      (∀ ids buf d, sample_env.ddb_delta_encode ids = some (buf, d) →
        (sample_reader.ddb_delta_decode buf).Perm ids) ∧
      (∀ vm code cb v out, sample_env.ddb_create_codemap vm = some code →
        sample_env.ddb_save_codemap code = some cb →
        sample_env.ddb_compress code v = some out →
        sample_reader.ddb_decompress cb out = v) ∧
      built_by sample_adds sample_db ∧
      ddb_finalize sample_env sample_db 0 = Res.ok (img, len, db') ∧
      (reader_lookup sample_env sample_reader img entry_k.val).Perm [[97], [98], [97]] := by
  obtain ⟨img, len, db', hr⟩ := sample_finalize 0 (by decide)
  have hdec : ∀ ids buf d, sample_env.ddb_delta_encode ids = some (buf, d) →
      (sample_reader.ddb_delta_decode buf).Perm ids := by
    intro ids buf d hd
    simp only [sample_env, Option.some.injEq, Prod.mk.injEq] at hd
    rw [← hd.1]
    exact List.Perm.refl _
  have hdecomp : ∀ vm code cb v out, sample_env.ddb_create_codemap vm = some code →
      sample_env.ddb_save_codemap code = some cb →
      sample_env.ddb_compress code v = some out →
      sample_reader.ddb_decompress cb out = v := by
    intro vm code cb v out _ _ hc
    simp only [sample_env, Option.some.injEq] at hc
    rw [← hc]
    rfl
  exact ⟨img, len, db', hdec, hdecomp, sample_built, hr,
    C1_round_trip sample_env sample_reader sample_adds sample_db db' 0 len img hdec hdecomp
      sample_built hr entry_k⟩

/-! ## Success of the finalizer when nothing fails -/

theorem buffer_grow_succeeds {E : Env} {p : ddb_packed} {n : Nat}
    (hre : ∀ s, E.realloc s = true) (ho : p.offs ≤ p.size)
    (hb : p.size + n + BUFFER_INC < U64) :
    ∃ p', _buffer_grow E p n = Res.ok p' ∧ p'.offs = p.offs ∧ p'.toc_offs = p.toc_offs ∧
      p.offs + n ≤ p'.size ∧ p.size ≤ p'.size ∧ p'.size ≤ p.size + n + BUFFER_INC := by
  unfold _buffer_grow
  have h1 : (p.offs + n) % U64 = p.offs + n := Nat.mod_eq_of_lt (by omega)
  have h2 : (p.size + (n + BUFFER_INC) % U64) % U64 = p.size + n + BUFFER_INC := by
    rw [Nat.mod_eq_of_lt (a := n + BUFFER_INC) (by omega), Nat.mod_eq_of_lt (by omega)]
    omega
  by_cases hc : (p.offs + n) % U64 > p.size
  · rw [if_pos hc]
    simp only [hre, if_true]
    refine ⟨_, rfl, rfl, rfl, ?_, ?_, ?_⟩
    · simp only [h2]
      omega
    · simp only [h2]
      omega
    · simp only [h2]
      omega
  · rw [if_neg hc]
    rw [h1] at hc
    exact ⟨p, rfl, rfl, rfl, by omega, by omega, by omega⟩

theorem buffer_write_data_succeeds {E : Env} (p : ddb_packed) (src : List Nat)
    (hre : ∀ s, E.realloc s = true) (ho : p.offs ≤ p.size)
    (hb : p.size + src.length + BUFFER_INC < U64) :
    ∃ p', buffer_write_data E p src = Res.ok p' ∧ p'.offs = p.offs + src.length ∧
      p'.toc_offs = p.toc_offs ∧ p'.offs ≤ p'.size ∧ p.size ≤ p'.size ∧
      p'.size ≤ p.size + src.length + BUFFER_INC := by
  obtain ⟨p1, h1, h2, h3, h4, h5, h6⟩ := buffer_grow_succeeds hre ho hb
  unfold buffer_write_data
  rw [h1]
  simp only [Res.bind]
  rw [if_neg (by omega)]
  have h7 : (p1.offs + src.length) % U64 = p.offs + src.length := by
    rw [h2]
    exact Nat.mod_eq_of_lt (by omega)
  exact ⟨_, rfl, h7, h3, by simp only [h7]; omega, h5, h6⟩

theorem buffer_toc_mark_succeeds {p : ddb_packed}
    (ht : p.toc_offs + 8 ≤ p.size) (hs : p.size < U64) :
    ∃ p', buffer_toc_mark p = Res.ok p' ∧ p'.toc_offs = p.toc_offs + 8 ∧
      p'.offs = p.offs ∧ p'.size = p.size := by
  unfold buffer_toc_mark
  rw [if_neg (by omega)]
  exact ⟨_, rfl, Nat.mod_eq_of_lt (by omega), rfl, rfl⟩

theorem buffer_new_section_succeeds {E : Env} {p : ddb_packed} {n : Nat}
    (hre : ∀ s, E.realloc s = true) (ho : p.offs ≤ p.size)
    (hb : p.size + 8 * n + BUFFER_INC < U64) :
    ∃ p', buffer_new_section E p n = Res.ok p' ∧ p'.toc_offs = p.offs ∧
      p'.offs = p.offs + 8 * n ∧ p'.offs ≤ p'.size ∧ p.size ≤ p'.size ∧
      p'.size ≤ p.size + 8 * n + BUFFER_INC := by
  have hm : (n * 8) % U64 = 8 * n := by
    rw [Nat.mod_eq_of_lt (by omega)]
    omega
  obtain ⟨p1, h1, h2, h3, h4, h5, h6⟩ :=
    buffer_grow_succeeds (n := 8 * n) hre ho hb
  unfold buffer_new_section
  rw [hm, h1]
  simp only [Res.bind]
  have h7 : (p1.offs + 8 * n) % U64 = p.offs + 8 * n := by
    rw [h2]
    exact Nat.mod_eq_of_lt (by omega)
  exact ⟨_, rfl, h2, h7, by simp only [h7]; omega, h5, h6⟩

theorem BUFFER_INC_eq : BUFFER_INC = 67108864 := by decide

theorem pack_key2values_loop_succeeds {E : Env} {km : ddb_map (Option (List Nat))}
    (hre : ∀ s, E.realloc s = true) :
    ∀ (ks : List ddb_entry) (i : Nat) (p : ddb_packed),
      (∀ k ∈ ks, ∃ ids r, ddb_map_lookup_str km k = some (some ids) ∧
        E.ddb_delta_encode ids = some r) →
      i + ks.length ≤ INT_MAX → p.offs ≤ p.size → p.toc_offs + 8 * ks.length ≤ p.size →
      p.size + total_length (ks.map (key_record E km)) + 201326592 * ks.length < U64 →
      ∃ p', pack_key2values_loop E km i (ks.map some) p = Res.ok p' ∧
        p'.offs ≤ p'.size ∧ p.size ≤ p'.size ∧
        p'.size ≤ p.size + total_length (ks.map (key_record E km)) + 201326592 * ks.length ∧
        p'.toc_offs = p.toc_offs + 8 * ks.length := by
  intro ks
  induction ks with
  | nil =>
    intro i p _ _ ho _ _
    exact ⟨p, rfl, ho, Nat.le_refl _, by simp [total_length], by simp⟩
  | cons k rest ih =>
    intro i p hks hi ho ht hb
    obtain ⟨ids, ⟨buf, dup⟩, hl, hd⟩ := hks k (List.mem_cons_self _ _)
    have hrec : key_record E km k = le_bytes 4 k.val.length ++ k.val ++ buf := by
      simp [key_record, hl, hd]
    have hreclen : (key_record E km k).length = 4 + k.val.length + buf.length := by
      rw [hrec]
      simp only [List.length_append, length_le_bytes]
    simp only [List.map_cons, total_length_cons, List.length_cons, hreclen] at hb hi ht ⊢
    have hinc := BUFFER_INC_eq
    generalize hq : (if dup = true then
      ({ p with head := SETFLAG p.head Flag.F_MULTISET } : ddb_packed) else p) = q
    have q1 : q.offs = p.offs ∧ q.toc_offs = p.toc_offs ∧ q.size = p.size := by
      subst hq
      split <;> exact ⟨rfl, rfl, rfl⟩
    obtain ⟨qo, qt, qs⟩ := q1
    obtain ⟨p2, m0, m1, m2, m3⟩ := buffer_toc_mark_succeeds (p := q)
      (by rw [qt, qs]; omega) (by rw [qs]; omega)
    obtain ⟨p3, a0, a1, a2, a3, a4, a5⟩ := buffer_write_data_succeeds
      p2 (le_bytes 4 k.val.length) hre (by omega)
      (by rw [length_le_bytes]; omega)
    rw [length_le_bytes] at a1 a5
    obtain ⟨p4, b0, b1, b2, b3, b4, b5⟩ := buffer_write_data_succeeds
      p3 (k.val) hre a3 (by omega)
    obtain ⟨p5, c0, c1, c2, c3, c4, c5⟩ := buffer_write_data_succeeds
      p4 (buf) hre b3 (by omega)
    obtain ⟨p', e0, e1, e2, e3, e4⟩ := ih (i + 1) p5
      (fun k' hk' => hks k' (List.mem_cons_of_mem _ hk')) (by omega) c3 (by omega) (by omega)
    refine ⟨p', ?_, e1, by omega, by omega, by omega⟩
    simp only [pack_key2values_loop, hl, hd, hq, m0, a0, b0, c0, Res.bind]
    rw [if_neg (by simp only [INT_MAX] at hi ⊢; omega)]
    exact e0

theorem pack_id2value_loop_succeeds {E : Env} (dc : Bool) (code : List Nat)
    (hre : ∀ s, E.realloc s = true) :
    ∀ (vs : List ddb_entry) (p : ddb_packed),
      (dc = false → ∀ v ∈ vs, ∃ out, E.ddb_compress code v.val = some out) →
      p.offs ≤ p.size → p.toc_offs + 8 * vs.length ≤ p.size →
      p.size + total_length (vs.map (value_record E dc code)) + 67108864 * vs.length < U64 →
      ∃ p', pack_id2value_loop E dc code vs p = Res.ok p' ∧
        p'.offs ≤ p'.size ∧ p.size ≤ p'.size ∧
        p'.size ≤ p.size + total_length (vs.map (value_record E dc code)) +
          67108864 * vs.length ∧
        p'.toc_offs = p.toc_offs + 8 * vs.length := by
  intro vs
  induction vs with
  | nil =>
    intro p _ ho _ _
    exact ⟨p, rfl, ho, Nat.le_refl _, by simp [total_length], by simp⟩
  | cons v rest ih =>
    intro p hvs ho ht hb
    have hinc := BUFFER_INC_eq
    have hval : (if dc = true then Res.ok v.val else
        match E.ddb_compress code v.val with
        | none => Res.null
        | some buf => Res.ok buf) = Res.ok (value_record E dc code v) := by
      unfold value_record
      by_cases hdc : dc = true
      · rw [if_pos hdc, if_pos hdc]
      · rw [if_neg hdc, if_neg hdc]
        obtain ⟨out, hout⟩ := hvs (by simpa using hdc) v (List.mem_cons_self _ _)
        rw [hout]
        rfl
    simp only [List.map_cons, total_length_cons, List.length_cons] at hb ht ⊢
    obtain ⟨p1, m0, m1, m2, m3⟩ := buffer_toc_mark_succeeds (p := p) (by omega) (by omega)
    obtain ⟨p2, a0, a1, a2, a3, a4, a5⟩ := buffer_write_data_succeeds
      p1 (value_record E dc code v) hre (by omega) (by omega)
    obtain ⟨p', e0, e1, e2, e3, e4⟩ := ih p2
      (fun hdc w hw => hvs hdc w (List.mem_cons_of_mem _ hw)) a3 (by omega) (by omega)
    refine ⟨p', ?_, e1, by omega, by omega, by omega⟩
    simp only [pack_id2value_loop, hval, m0, a0, Res.bind]
    exact e0

theorem pack_hash_loop_none_succeeds {E : Env} {n : Nat} :
    ∀ (ks : List ddb_entry) (i : Nat) (order : List (Option ddb_entry)),
      i + ks.length ≤ n → n < U32 →
      ∃ order', pack_hash_loop E none n i ks order = Res.ok order' := by
  intro ks
  induction ks with
  | nil => intro i order _ _; exact ⟨order, rfl⟩
  | cons k rest ih =>
    intro i order hi hn
    simp only [List.length_cons] at hi
    simp only [pack_hash_loop]
    rw [if_neg (by omega), Nat.mod_eq_of_lt (by omega)]
    exact ih (i + 1) _ (by omega) hn

theorem order_plain_eq {E : Env} {n : Nat} {keys : List ddb_entry}
    {order : List (Option ddb_entry)} (hn : keys.length = n) (hU : n < U32)
    (h : pack_hash_loop E none n 0 keys (List.replicate n none) = Res.ok order) :
    order = keys.map some := by
  have hk : order.take n = (order.take n) := rfl
  obtain ⟨h1, h2⟩ := pack_hash_loop_none keys 0 _ _ (by omega) hU (by simp) h
  apply List.ext_getElem?
  intro j
  rw [h2 j]
  by_cases hj : j < n
  · rw [if_pos (by omega)]
    simp
  · rw [if_neg (by omega)]
    rw [List.getElem?_eq_none (by simp; omega), List.getElem?_eq_none (by simp; omega)]

theorem INT_MAX_lt_U32 : INT_MAX < U32 := by decide

theorem pack_hash_plain_succeeds {E : Env} {km : ddb_map (Option (List Nat))} {p : ddb_packed}
    (hma : ∀ s, E.malloc s = true) (hkc : E.keys_cursor = true)
    (hn : p.head.num_keys = km.items.length)
    (hplain : km.items.length ≤ E.DDB_HASH_MIN_KEYS) (hint : km.items.length ≤ INT_MAX) :
    pack_hash E p km = Res.ok (p, (km.items.map Prod.fst).map some) := by
  have hU : km.items.length < U32 := Nat.lt_of_le_of_lt hint INT_MAX_lt_U32
  obtain ⟨order, ho⟩ := pack_hash_loop_none_succeeds (E := E) (n := km.items.length)
    (km.items.map Prod.fst) 0 (List.replicate km.items.length none) (by simp) hU
  have hoe := order_plain_eq (by simp) hU ho
  have hgt : ¬ km.items.length > E.DDB_HASH_MIN_KEYS := by omega
  unfold pack_hash
  simp only [hn, hma, hkc, Bool.true_eq_false, if_false]
  rw [if_neg hgt]
  simp only [Res.bind_ok, ho, hoe]

theorem pack_key2values_succeeds {E : Env} {km : ddb_map (Option (List Nat))} {p : ddb_packed}
    (hre : ∀ s, E.realloc s = true)
    (hn : p.head.num_keys = km.items.length) (hint : km.items.length ≤ INT_MAX)
    (hslots : ∀ k ∈ km.items.map Prod.fst, ∃ ids r, ddb_map_lookup_str km k = some (some ids) ∧
      E.ddb_delta_encode ids = some r)
    (ho : p.offs ≤ p.size)
    (hb : p.size + 8 * (km.items.length + 1) +
      total_length ((km.items.map Prod.fst).map (key_record E km)) +
      201326592 * km.items.length + 67108864 < U64) :
    ∃ p', pack_key2values E p ((km.items.map Prod.fst).map some) km = Res.ok p' ∧
      p'.offs ≤ p'.size ∧
      p'.size ≤ p.size + 8 * (km.items.length + 1) +
        total_length ((km.items.map Prod.fst).map (key_record E km)) +
        201326592 * km.items.length + 67108864 := by
  have hinc := BUFFER_INC_eq
  have hU : km.items.length < U32 := Nat.lt_of_le_of_lt hint INT_MAX_lt_U32
  have hnum : p.head.num_keys % U32 = km.items.length := by
    rw [hn, Nat.mod_eq_of_lt hU]
  have hnum1 : (km.items.length + 1) % U32 = km.items.length + 1 := by
    apply Nat.mod_eq_of_lt
    simp only [INT_MAX] at hint
    simp only [U32]
    omega
  obtain ⟨p1, s0, s1, s2, s3, s4, s5⟩ := buffer_new_section_succeeds
    (p := p) (n := km.items.length + 1) hre ho (by omega)
  obtain ⟨p2, l0, l1, l2, l3, l4⟩ := pack_key2values_loop_succeeds hre
    (km.items.map Prod.fst) 0 p1 hslots (by simpa using hint) s3
    (by simp only [List.length_map]; omega) (by simp only [List.length_map]; omega)
  simp only [List.length_map] at l3 l4
  obtain ⟨p3, m0, m1, m2, m3⟩ := buffer_toc_mark_succeeds (p := p2) (by omega) (by omega)
  refine ⟨p3, ?_, by omega, by omega⟩
  unfold pack_key2values
  simp only [hnum, hnum1, s0, Res.bind, List.length_map, Nat.lt_irrefl, if_false]
  rw [List.take_of_length_le (by simp), l0]
  exact m0

theorem value_record_disabled (E : Env) (code code' : List Nat) (v : ddb_entry) :
    value_record E true code v = value_record E true code' v := by
  simp [value_record]

theorem pack_id2value_succeeds {E : Env} {vm : ddb_map Nat} {p : ddb_packed} (dc : Bool)
    {code cb : List Nat}
    (hre : ∀ s, E.realloc s = true) (hvc : E.values_cursor = true)
    (hcode : dc = false → E.ddb_create_codemap vm = some code ∧
      E.ddb_save_codemap code = some cb ∧
      ∀ v ∈ vm.items.map Prod.fst, ∃ out, E.ddb_compress code v.val = some out)
    (ho : p.offs ≤ p.size)
    (hb : p.size + 8 * (vm.items.length + 1) +
      total_length ((vm.items.map Prod.fst).map (value_record E dc code)) +
      67108864 * vm.items.length + 4 + 134217728 < U64) :
    ∃ p', pack_id2value E p (some vm) dc = Res.ok p' := by
  have hinc := BUFFER_INC_eq
  obtain ⟨p1, s0, s1, s2, s3, s4, s5⟩ := buffer_new_section_succeeds
    (p := p) (n := vm.items.length + 1) hre ho (by omega)
  have hstage : ∃ pc : ddb_packed × List Nat,
      (if dc = false then
        match E.ddb_create_codemap vm with
        | none => Res.null
        | some code =>
          match E.ddb_save_codemap code with
          | none => Res.null
          | some codebook =>
            Res.ok (({ ({ p1 with head := SETFLAG p1.head Flag.F_COMPRESSED } : ddb_packed) with
              head := { (SETFLAG p1.head Flag.F_COMPRESSED) with codebook := codebook } } :
                ddb_packed), code)
       else Res.ok (p1, [])) = Res.ok pc ∧
      pc.1.offs = p1.offs ∧ pc.1.toc_offs = p1.toc_offs ∧ pc.1.size = p1.size ∧
      (dc = false → ∀ v ∈ vm.items.map Prod.fst, ∃ out, E.ddb_compress pc.2 v.val = some out) ∧
      (vm.items.map Prod.fst).map (value_record E dc pc.2) =
        (vm.items.map Prod.fst).map (value_record E dc code) := by
    by_cases hdc : dc = false
    · obtain ⟨c1, c2, c3⟩ := hcode hdc
      rw [if_pos hdc, c1]
      simp only [c2]
      exact ⟨_, rfl, rfl, rfl, rfl, fun _ => c3, rfl⟩
    · rw [if_neg hdc]
      have hdc' : dc = true := by simpa using hdc
      refine ⟨_, rfl, rfl, rfl, rfl, fun h => absurd h hdc, ?_⟩
      subst hdc'
      apply List.map_congr_left
      intro v _
      exact value_record_disabled E [] code v
  obtain ⟨pc, g0, g1, g2, g3, g4, g5⟩ := hstage
  obtain ⟨p3, l0, l1, l2, l3, l4⟩ := pack_id2value_loop_succeeds dc pc.2 hre
    (vm.items.map Prod.fst) pc.1 g4 (by omega)
    (by simp only [List.length_map]; omega)
    (by rw [g5]; simp only [List.length_map]; omega)
  rw [g5] at l3
  simp only [List.length_map] at l3 l4
  obtain ⟨p4, m0, m1, m2, m3⟩ := buffer_toc_mark_succeeds (p := p3) (by omega) (by omega)
  obtain ⟨p5, a0, a1, a2, a3, a4, a5⟩ := buffer_write_data_succeeds
    p4 (le_bytes 4 0) hre (by omega) (by rw [length_le_bytes]; omega)
  refine ⟨p5, ?_⟩
  unfold pack_id2value
  simp only [ddb_map_num_items, s0, Res.bind]
  rw [g0]
  simp only [hvc, Bool.true_eq_false, if_false, l0, m0]
  exact a0

theorem buffer_init_succeeds {E : Env} (hre : ∀ s, E.realloc s = true)
    (hb : 2 * E.sizeof_header + BUFFER_INC < U64) :
    ∃ p, buffer_init E = Res.ok p ∧ p.offs = E.sizeof_header ∧ p.offs ≤ p.size ∧
      p.size ≤ E.sizeof_header + BUFFER_INC := by
  have h1 : E.sizeof_header % U64 = E.sizeof_header := Nat.mod_eq_of_lt (by omega)
  have h2 : (E.sizeof_header + E.sizeof_header) % U64 = E.sizeof_header + E.sizeof_header :=
    Nat.mod_eq_of_lt (by omega)
  have h3 : (0 + (E.sizeof_header + BUFFER_INC) % U64) % U64 = E.sizeof_header + BUFFER_INC := by
    rw [Nat.zero_add, Nat.mod_mod, Nat.mod_eq_of_lt (by omega)]
  unfold buffer_init _buffer_grow
  simp only [h1, h2, h3, hre, if_true]
  by_cases hc : E.sizeof_header + E.sizeof_header > 0
  · rw [if_pos hc]
    exact ⟨_, rfl, rfl, by simp only; omega, by simp only; omega⟩
  · rw [if_neg hc]
    exact ⟨_, rfl, rfl, by simp only; omega, by simp only; omega⟩

theorem pack_header_succeeds {E : Env} {p : ddb_packed} {db : ddb_cons}
    {km : ddb_map (Option (List Nat))} {vm : ddb_map Nat}
    (hk : db.keys_map = some km) (hv : db.values_map = some vm)
    (ho : p.offs ≤ p.size) (hs : p.size < U64) :
    ∃ p', pack_header E p db = Res.ok p' ∧ p'.offs = p.offs ∧ p'.size = p.size ∧
      p'.head.num_keys = km.items.length := by
  unfold pack_header
  rw [buffer_new_section_zero ho hs]
  simp only [hk, hv]
  exact ⟨_, rfl, rfl, rfl, rfl⟩

/-- The finalizer succeeds when no allocation fails, the collaborators return
their results, the hash is not needed, every key of the map has an id list, and
the image, with the slack the growth policy adds, fits the 64-bit offsets. -/
theorem ddb_finalize_succeeds (E : Env) (db : ddb_cons) (flags : Nat)
    (km : ddb_map (Option (List Nat))) (vm : ddb_map Nat) (code cb : List Nat)
    (hk : db.keys_map = some km) (hv : db.values_map = some vm)
    (hre : ∀ s, E.realloc s = true) (hsh : ∀ s, E.realloc_shrink s = true)
    (hma : ∀ s, E.malloc s = true) (hkc : E.keys_cursor = true)
    (hvc : E.values_cursor = true)
    (hplain : km.items.length ≤ E.DDB_HASH_MIN_KEYS) (hint : km.items.length ≤ INT_MAX)
    (hslots : ∀ k ∈ km.items.map Prod.fst, ∃ ids r,
      ddb_map_lookup_str km k = some (some ids) ∧ E.ddb_delta_encode ids = some r)
    (hcode : disable_compr_arg E flags = false → E.ddb_create_codemap vm = some code ∧
      E.ddb_save_codemap code = some cb ∧
      ∀ v ∈ vm.items.map Prod.fst, ∃ out, E.ddb_compress code v.val = some out)
    (hb : 2 * E.sizeof_header + 8 * (km.items.length + 1) +
      total_length ((km.items.map Prod.fst).map (key_record E km)) +
      8 * (vm.items.length + 1) +
      total_length ((vm.items.map Prod.fst).map
        (value_record E (disable_compr_arg E flags) code)) +
      201326592 * km.items.length + 67108864 * vm.items.length + 268435460 < U64) :
    ∃ img len db', ddb_finalize E db flags = Res.ok (img, len, db') := by
  have hinc := BUFFER_INC_eq
  obtain ⟨p0, i0, i1, i2, i3⟩ := buffer_init_succeeds hre (by omega)
  obtain ⟨p1, h0, h1, h2, h3⟩ := pack_header_succeeds (E := E) hk hv i2 (by omega)
  have g0 := pack_hash_plain_succeeds
    (p := { p1 with head := { p1.head with hash_offs := p1.offs } }) hma hkc h3 hplain hint
  obtain ⟨p4, k0, k1, k2⟩ := pack_key2values_succeeds
    (p := { p1 with head := { p1.head with key2values_offs := p1.offs,
                                           hash_offs := p1.offs } })
    hre h3 hint hslots (by simp only; omega) (by simp only; omega)
  have k2' : p4.size ≤ p1.size + 8 * (km.items.length + 1) +
      total_length ((km.items.map Prod.fst).map (key_record E km)) +
      201326592 * km.items.length + 67108864 := k2
  obtain ⟨p6, v0⟩ := pack_id2value_succeeds
    (p := { p4 with head := { p4.head with id2value_offs := p4.offs } })
    (disable_compr_arg E flags) hre hvc hcode (by simp only; omega)
    (by simp only; omega)
  unfold ddb_finalize
  rw [i0]
  simp only [Res.bind_ok]
  rw [h0]
  simp only [Res.bind_ok, hk]
  rw [g0]
  simp only [Res.bind_ok]
  rw [k0]
  simp only [Res.bind_ok, hv]
  rw [v0]
  simp only [Res.bind_ok, buffer_shrink, hsh, if_true]
  exact ⟨_, _, _, rfl⟩

theorem repeated_finalize (n : Nat) (hn : n < 1099511627776) :
    ∃ img len db', ddb_finalize sample_env (repeated_db n) 0 = Res.ok (img, len, db') := by
  have hrec : key_record sample_env
      { max_num_items := UINT_MAX, items := [(entry_k, some (List.replicate n 1))] } entry_k =
      le_bytes 4 entry_k.val.length ++ entry_k.val ++ List.replicate n 1 := by
    simp [key_record, ddb_map_lookup_str, assoc_lookup, sample_env]
  apply ddb_finalize_succeeds sample_env (repeated_db n) 0
    { max_num_items := UINT_MAX, items := [(entry_k, some (List.replicate n 1))] }
    { max_num_items := UINT_MAX, items := [(entry_a, 1)] } [] [] rfl rfl
    (fun _ => rfl) (fun _ => rfl) (fun _ => rfl) rfl rfl
  · show 1 ≤ 32
    omega
  · show 1 ≤ INT_MAX
    decide
  · intro k hk
    simp only [List.map_cons, List.map_nil, List.mem_singleton] at hk
    subst hk
    refine ⟨List.replicate n 1, (List.replicate n 1, decide (¬ (List.replicate n 1).Nodup)),
      ?_, rfl⟩
    simp [ddb_map_lookup_str, assoc_lookup]
  · intro _
    refine ⟨rfl, rfl, ?_⟩
    intro v _
    exact ⟨v.val, rfl⟩
  · simp only [List.map_cons, List.map_nil, hrec, total_length, List.length_append,
      length_le_bytes, List.length_replicate, List.sum_cons, List.sum_nil, List.length_cons,
      List.length_nil, value_record]
    have h1 : sample_env.sizeof_header = 64 := rfl
    have h2 : entry_k.val.length = 1 := rfl
    have h3 : ∀ c : List Nat, (if disable_compr_arg sample_env 0 = true then entry_a.val
        else (sample_env.ddb_compress c entry_a.val).getD []).length = 1 := by
      intro c
      split <;> rfl
    rw [h1, h2, h3]
    simp only [U64]
    omega

/-- Counterexample to claim C5 as stated: for the builder left by `2^32` successful calls
`add(k,a)`, `ddb_finalize` succeeds in the sample environment and the header
field `num_values` is `0`, not the number `2^32` of pairs added. It is the
wrap-around of the `uint32_t` counter shown for C4. -/
theorem C5_counterexample :
    ∃ db img len db', built_by (repeated_adds 4294967296) db ∧
      ddb_finalize sample_env db 0 = Res.ok (img, len, db') ∧
      (repeated_adds 4294967296).length = 4294967296 ∧
      img.head.num_values = 0 ∧
      img.head.num_values ≠ (repeated_adds 4294967296).length := by
  have hb := repeated_built 4294967295
  have e : 4294967295 + 1 = 4294967296 := by norm_num
  rw [e] at hb
  obtain ⟨img, len, db', hr⟩ := repeated_finalize 4294967296 (by norm_num)
  obtain ⟨vm, km, ks, code, _, _, _, _, _, _, hn, L⟩ := layout_of_built hb hr
  have hlen : (repeated_adds 4294967296).length = 4294967296 := List.length_replicate _ _
  have h0 : img.head.num_values = 0 := by
    rw [L.num_values, hn, hlen]
    norm_num [U32]
  refine ⟨repeated_db 4294967296, img, len, db', hb, hr, hlen, h0, ?_⟩
  rw [h0, hlen]
  norm_num

/-! ## The builder after the finalizer -/

theorem finalize_builder {E : Env} {db db' : ddb_cons} {flags len : Nat} {img : ddb_image}
    (h : ddb_finalize E db flags = Res.ok (img, len, db')) :
    db' = { db with values_map := none } ∧ ∃ km, db.keys_map = some km := by
  unfold ddb_finalize at h
  simp only [Res.bind_eq_ok] at h
  obtain ⟨p0, _, p1, _, h⟩ := h
  cases hk : db.keys_map with
  | none => rw [hk] at h; cases h
  | some km =>
    rw [hk] at h
    simp only [Res.bind_eq_ok] at h
    obtain ⟨po, _, p4, _, p6, _, image, _, h⟩ := h
    simp only [Res.ok.injEq, Prod.mk.injEq] at h
    obtain ⟨_, _, h3⟩ := h
    exact ⟨h3.symm, km, rfl⟩

/-- Claim C19, amended (builder after finalization). When `ddb_finalize` returns an
image, the `values_map` of the builder has been destroyed and its pointer cleared,
while `keys_map` and the pair counter are exactly as before the call: the
builder still owns its keys map, which only `ddb_cons_free` releases. -/
theorem C19_builder_after_finalize (E : Env) (db db' : ddb_cons) (flags len : Nat)
    (img : ddb_image) (h : ddb_finalize E db flags = Res.ok (img, len, db')) :
    db'.values_map = none ∧ db'.keys_map = db.keys_map ∧ db'.num_values = db.num_values ∧
    ∃ km, db'.keys_map = some km := by
  obtain ⟨h1, km, hk⟩ := finalize_builder h
  subst h1
  exact ⟨rfl, rfl, rfl, km, hk⟩

/-- Witness of claim C19: the finalization of the builder after
`add(k,a); add(k,b); add(k,a)`. -/
theorem C19_builder_after_finalize_witness :
    ∃ img len db', ddb_finalize sample_env sample_db 0 = Res.ok (img, len, db') ∧
      db'.values_map = none ∧ db'.keys_map = sample_db.keys_map := by
  obtain ⟨img, len, db', hr⟩ := sample_finalize 0 (by decide)
  obtain ⟨h1, h2, _, _⟩ := C19_builder_after_finalize sample_env sample_db db' 0 len img hr
  exact ⟨img, len, db', hr, h1, h2⟩

/-- Counterexample to claim C19 as stated: after the successful finalization of the
builder left by `add(k,a); add(k,b); add(k,a)` the builder still holds its keys
map, with the key `k` and its id list: it is not the case that it owns neither
map. -/
theorem C19_counterexample :
    ∃ img len db', built_by sample_adds sample_db ∧
      ddb_finalize sample_env sample_db 0 = Res.ok (img, len, db') ∧
      db'.keys_map =
        some { max_num_items := UINT_MAX, items := [(entry_k, some [1, 2, 1])] } ∧
      ¬ (db'.values_map = none ∧ db'.keys_map = none) := by
  obtain ⟨img, len, db', hr⟩ := sample_finalize 0 (by decide)
  obtain ⟨h1, _⟩ := finalize_builder hr
  subst h1
  refine ⟨img, len, _, sample_built, hr, rfl, ?_⟩
  intro h
  cases h.2

/-! ## The growth policy -/

/-- Claim C18, amended (growth policy). For every buffer state and request `n` whose
sums stay below `2^64`: `_buffer_grow` leaves the state unchanged when
`offs + n ≤ capacity`; otherwise it asks `realloc` for `capacity + n + BUFFER_INC`
bytes, with `BUFFER_INC = 67108864`, and on success only the capacity changes, to
that value. In both successful cases `offs` and `toc_offs` are unchanged, and
`offs + n ≤ capacity` holds afterwards provided `offs ≤ capacity + BUFFER_INC`
held before (in particular whenever `offs ≤ capacity`). -/
theorem C18_growth_policy (E : Env) (p : ddb_packed) (n : Nat)
    (hoffs : p.offs + n < U64) (hcap : p.size + n + BUFFER_INC < U64) :
    BUFFER_INC = 67108864 ∧
    (p.offs + n ≤ p.size → _buffer_grow E p n = Res.ok p) ∧
    (p.size < p.offs + n → E.realloc (p.size + n + BUFFER_INC) = true →
      _buffer_grow E p n = Res.ok { p with size := p.size + n + BUFFER_INC }) ∧
    (p.size < p.offs + n → E.realloc (p.size + n + BUFFER_INC) = false →
      _buffer_grow E p n = Res.null) ∧
    (∀ p', _buffer_grow E p n = Res.ok p' →
      p'.offs = p.offs ∧ p'.toc_offs = p.toc_offs ∧
      (p.offs ≤ p.size + BUFFER_INC → p'.offs + n ≤ p'.size)) := by
  have h1 : (p.offs + n) % U64 = p.offs + n := Nat.mod_eq_of_lt hoffs
  have h2 : (p.size + (n + BUFFER_INC) % U64) % U64 = p.size + n + BUFFER_INC := by
    rw [Nat.mod_eq_of_lt (a := n + BUFFER_INC) (by omega), Nat.mod_eq_of_lt (by omega)]
    omega
  refine ⟨BUFFER_INC_eq, ?_, ?_, ?_, ?_⟩
  · intro hle
    unfold _buffer_grow
    rw [h1, if_neg (by omega)]
  · intro hgt hre
    unfold _buffer_grow
    rw [h1, if_pos hgt]
    simp only [h2, hre, if_true]
  · intro hgt hre
    unfold _buffer_grow
    rw [h1, if_pos hgt]
    simp only [h2, hre, Bool.false_eq_true, if_false]
  · intro p' h
    obtain ⟨g1, g2, _, _, _, g6⟩ := buffer_grow_ok h
    refine ⟨g1, g2, fun hle => ?_⟩
    rw [g1]
    rcases g6 with g6 | g6
    · rw [g6]
      unfold _buffer_grow at h
      rw [h1] at h
      by_cases hc : p.offs + n > p.size
      · rw [if_pos hc] at h
        simp only [h2] at h
        split at h
        · simp only [Res.ok.injEq] at h
          have := congrArg ddb_packed.size h
          simp only at this
          omega
        · cases h
      · omega
    · rw [g6, h2]
      omega

/-- Witness of claim C18: the first growth of `buffer_init` for a header of 64 bytes,
and a request that fits the capacity. -/
theorem C18_growth_policy_witness :
    _buffer_grow sample_env { initial_state with offs := 64, size := 0 } 64 =
      Res.ok { initial_state with offs := 64, size := 67108928 } ∧
    _buffer_grow sample_env initial_state 1000 = Res.ok initial_state := by
  have h := C18_growth_policy sample_env { initial_state with offs := 64, size := 0 } 64
    (by decide) (by decide)
  have h' := C18_growth_policy sample_env initial_state 1000 (by decide) (by decide)
  exact ⟨h.2.2.1 (by decide) rfl, h'.2.1 (by decide)⟩

/-- Counterexample to claim C18 as stated. First, in the state `buffer_init` would hand
over for a header of 128 MiB (write cursor `134217728`, capacity `0`) a request
of `134217728` bytes succeeds with capacity `0 + 134217728 + 67108864`, and
`offs + n ≤ capacity` does not hold afterwards. Second, for a write cursor two
bytes below `2^64` a request of `2` bytes exceeds the capacity, yet the 64-bit
sum wraps to `0` and the capacity is left unchanged. -/
theorem C18_counterexample :
    (∃ p', _buffer_grow sample_env large_header_state 134217728 = Res.ok p' ∧
      p'.size = large_header_state.size + 134217728 + 67108864 ∧
      ¬ (p'.offs + 134217728 ≤ p'.size)) ∧
    (∃ p', _buffer_grow sample_env wrapping_state 2 = Res.ok p' ∧
      ¬ (wrapping_state.offs + 2 ≤ wrapping_state.size) ∧
      p'.size = wrapping_state.size ∧ ¬ (p'.offs + 2 ≤ p'.size)) := by
  refine ⟨⟨{ large_header_state with size := 201326592 }, rfl, by decide, by decide⟩,
    ⟨wrapping_state, rfl, by decide, rfl, by decide⟩⟩

/-! ## Section offsets, trailing bytes and raw values -/

theorem total_length_take_all (recs : List (List Nat)) (n : Nat) (h : recs.length ≤ n) :
    total_length (recs.take n) = total_length recs := by
  rw [List.take_of_length_le h]

/-- Claim C17 (trailing dummy record). In every successfully finalized image the
four bytes at the offset recorded in the last TOC entry of the id-to-value
section are zero and the image ends right after them: `header.size` (the image
length) is that offset plus 4, so the last four bytes of the image are 0. -/
theorem C17_trailing_dummy (E : Env) (l : List (add_alloc × ddb_entry × ddb_entry))
    (db db' : ddb_cons) (flags len : Nat) (img : ddb_image)
    (hb : built_by l db) (h : ddb_finalize E db flags = Res.ok (img, len, db')) :
    slice img.buffer
      (toc_entry img img.head.id2value_offs img.head.num_uniq_values) 4 = [0, 0, 0, 0] ∧
    img.head.size = toc_entry img img.head.id2value_offs img.head.num_uniq_values + 4 ∧
    img.alloc = img.head.size ∧ len = img.head.size ∧
    slice img.buffer (img.head.size - 4) 4 = [0, 0, 0, 0] := by
  obtain ⟨vm, km, ks, code, hv, hk, hvf, hvs, hkf, hkl, hn, L⟩ := layout_of_built hb h
  have htoc := layout_value_toc L vm.items.length (Nat.le_refl _)
  rw [total_length_take_all _ _ (by simp)] at htoc
  have hlen := L.length
  unfold section_end at hlen
  simp only [List.length_map] at hlen
  have hend : toc_entry img img.head.id2value_offs img.head.num_uniq_values = len - 4 := by
    rw [L.num_uniq_values, htoc]
    omega
  have htr := layout_trailer L
  rw [hend, L.size, L.alloc]
  exact ⟨htr, by omega, rfl, rfl, htr⟩

/-- Witness of claim C17: the finalization of the builder after
`add(k,a); add(k,b); add(k,a)`. -/
theorem C17_trailing_dummy_witness :
    ∃ img len db', ddb_finalize sample_env sample_db 0 = Res.ok (img, len, db') ∧
      img.head.size =
        toc_entry img img.head.id2value_offs img.head.num_uniq_values + 4 ∧
      slice img.buffer (img.head.size - 4) 4 = [0, 0, 0, 0] := by
  obtain ⟨img, len, db', hr⟩ := sample_finalize 0 (by decide)
  have h := C17_trailing_dummy sample_env sample_adds sample_db db' 0 len img sample_built hr
  exact ⟨img, len, db', hr, h.2.1, h.2.2.2.2⟩

/-- Claim C14 (section offsets). In every successfully finalized image `hash_offs` is
`sizeof(struct ddb_header)` (a `size_t`, hence below `2^64`); `key2values_offs` is
`hash_offs` plus the length of the blob returned by `ddb_build_cmph` when the
hash is built (`num_keys > DDB_HASH_MIN_KEYS`) and equals `hash_offs` when it is
skipped; and `id2value_offs` is the last, `num_keys + 1`-th, TOC entry of the
key-to-values section. -/
theorem C14_section_offsets (E : Env) (l : List (add_alloc × ddb_entry × ddb_entry))
    (db db' : ddb_cons) (flags len : Nat) (img : ddb_image)
    (hsz : E.sizeof_header < U64)
    (hb : built_by l db) (h : ddb_finalize E db flags = Res.ok (img, len, db')) :
    img.head.hash_offs = E.sizeof_header ∧
    (img.head.num_keys > E.DDB_HASH_MIN_KEYS →
      ∃ km hash, db.keys_map = some km ∧ E.ddb_build_cmph km = some hash ∧
        img.head.key2values_offs = img.head.hash_offs + hash.length) ∧
    (img.head.num_keys ≤ E.DDB_HASH_MIN_KEYS →
      img.head.key2values_offs = img.head.hash_offs) ∧
    img.head.id2value_offs = toc_entry img img.head.key2values_offs img.head.num_keys := by
  obtain ⟨vm, km, ks, code, hv, hk, hvf, hvs, hkf, hkl, hn, L⟩ := layout_of_built hb h
  have htoc := layout_key_toc L ks.length (Nat.le_refl _)
  rw [total_length_take_all _ _ (by simp)] at htoc
  have hV := L.id2value_offs
  unfold section_end at hV
  simp only [List.length_map] at hV
  rw [L.num_keys]
  refine ⟨?_, ?_, ?_, ?_⟩
  · rw [L.hash_offs, Nat.mod_eq_of_lt hsz]
  · intro hgt
    obtain ⟨hash, x1, x2, _⟩ := L.key2values_offs_hash hgt
    exact ⟨km, hash, hk, x1, x2⟩
  · intro hle
    exact (L.key2values_offs_plain (by omega)).1
  · rw [← L.ks_length, htoc, hV]

/-- Witness of claim C14: the finalization of the builder after
`add(k,a); add(k,b); add(k,a)` under a threshold of 0 keys, where the hash is the
one-byte blob `[1]`. -/
theorem C14_section_offsets_witness :
    ∃ img len db', ddb_finalize hash_env sample_db 0 = Res.ok (img, len, db') ∧
      img.head.hash_offs = 64 ∧
      img.head.id2value_offs =
        toc_entry img img.head.key2values_offs img.head.num_keys := by
  have hok : (ddb_finalize hash_env sample_db 0).isOk = true := by decide
  obtain ⟨⟨img, len, db'⟩, hr⟩ := Res.exists_of_isOk hok
  have h := C14_section_offsets hash_env sample_adds sample_db db' 0 len img (by decide)
    sample_built hr
  exact ⟨img, len, db', hr, h.1, h.2.2.2⟩

/-- Claim C13 (raw values in id order). Let `ddb_finalize` be called with the option
`DDB_OPT_DISABLE_COMPRESSION` in `flags` (a constant that fits the `int`
parameter it is passed through) on a builder obtained by successful adds, and
succeed. Then `F_COMPRESSED` is clear and for every id `j = i + 1` in
`[1, num_uniq_values]` the bytes `[toc[j-1], toc[j])` of the id-to-value section
are exactly the bytes of the value whose assigned id is `j`, with no length
prefix; that value is the `j`-th distinct value added. -/
theorem C13_raw_values (E : Env) (l : List (add_alloc × ddb_entry × ddb_entry))
    (db db' : ddb_cons) (flags len : Nat) (img : ddb_image)
    (hopt : E.DDB_OPT_DISABLE_COMPRESSION < U32)
    (hflag : flags &&& E.DDB_OPT_DISABLE_COMPRESSION ≠ 0)
    (hb : built_by l db) (h : ddb_finalize E db flags = Res.ok (img, len, db')) :
    HASFLAG img.head Flag.F_COMPRESSED = false ∧
    ∃ vm, db.values_map = some vm ∧
      (∀ i, i < img.head.num_uniq_values →
        ∃ v, (first_occurrences (added_values l))[i]? = some v ∧
          value_id_of vm v = i + 1 ∧
          toc_record img img.head.id2value_offs i = v.val ∧
          toc_entry img img.head.id2value_offs (i + 1) =
            toc_entry img img.head.id2value_offs i + v.val.length) ∧
      (∀ v ∈ added_values l,
        1 ≤ value_id_of vm v ∧ value_id_of vm v ≤ img.head.num_uniq_values ∧
        toc_record img img.head.id2value_offs (value_id_of vm v - 1) = v.val) := by
  obtain ⟨vm, km, ks, code, hv, hk, hvf, hvs, hkf, hkl, hn, L⟩ := layout_of_built hb h
  have hdc : disable_compr_arg E flags = true := by
    have := (disable_compr_arg_eq_false E flags hopt).not.mpr hflag
    simpa using this
  have hrecs : (vm.items.map Prod.fst).map (value_record E (disable_compr_arg E flags) code) =
      (vm.items.map Prod.fst).map Subtype.val := by
    apply List.map_congr_left
    intro v _
    simp [value_record, hdc]
  have hnd : (vm.items.map Prod.fst).Nodup := by
    rw [hvf]
    exact nodup_first_occurrences _
  have hrec : ∀ i v, (vm.items.map Prod.fst)[i]? = some v → i < vm.items.length →
      toc_record img img.head.id2value_offs i = v.val := by
    intro i v hiv hi
    rw [layout_value_record L i hi, hrecs, List.getD_eq_getElem?_getD, List.getElem?_map, hiv]
    rfl
  refine ⟨?_, vm, hv, ?_, ?_⟩
  · have : ¬ HASFLAG img.head Flag.F_COMPRESSED = true := by
      rw [HASFLAG_iff, L.flag_compressed, hdc]
      simp
    simpa using this
  · intro i hi
    rw [L.num_uniq_values] at hi
    have h1 : vm.items[i]? = some vm.items[i] := List.getElem?_eq_getElem hi
    have hget : (vm.items.map Prod.fst)[i]? = some (vm.items[i]).1 := by
      rw [List.getElem?_map, h1]
      rfl
    have h2 : (vm.items.map Prod.snd)[i]? = some (vm.items[i]).2 := by
      rw [List.getElem?_map, h1]
      rfl
    rw [hvs, List.getElem?_range' _ _ hi] at h2
    simp only [Nat.one_mul, Option.some.injEq] at h2
    have hmem : ((vm.items[i]).1, i + 1) ∈ vm.items := by
      have h4 : ((vm.items[i]).1, i + 1) = vm.items[i] := by
        rw [show i + 1 = (vm.items[i]).2 by omega]
      rw [h4]
      exact List.getElem_mem hi
    have hlook := assoc_lookup_of_mem_nodup hnd hmem
    refine ⟨(vm.items[i]).1, by rw [← hvf]; exact hget, ?_, hrec i _ hget hi, ?_⟩
    · unfold value_id_of ddb_map_lookup_str
      rw [hlook]
      rfl
    · have t0 := layout_value_toc L i (by omega)
      have t1 := layout_value_toc L (i + 1) (by omega)
      have hg : (((vm.items.map Prod.fst).map Subtype.val).getD i []) = (vm.items[i]).1.val := by
        rw [List.getD_eq_getElem?_getD, List.getElem?_map, hget]
        rfl
      rw [t0, t1, hrecs, total_length_take_succ, hg]
      omega
  · intro v hv'
    have hmem : v ∈ vm.items.map Prod.fst := by
      rw [hvf, mem_first_occurrences]
      exact hv'
    obtain ⟨id, _, hid, hmem'⟩ := value_lookup_of_mem hmem
    obtain ⟨h1, h2, h3⟩ := value_at_id hvs hmem'
    rw [hid, L.num_uniq_values]
    exact ⟨h1, by omega, hrec _ _ h3 h2⟩

/-- Witness of claim C13: the finalization with `flags = 1` (the option, in the sample
environment) of the builder after `add(k,a); add(k,b); add(k,a)`: record 0 holds
the byte of `"a"` and record 1 the byte of `"b"`. -/
theorem C13_raw_values_witness :
    ∃ img len db', ddb_finalize sample_env sample_db 1 = Res.ok (img, len, db') ∧
      HASFLAG img.head Flag.F_COMPRESSED = false ∧
      toc_record img img.head.id2value_offs 0 = [97] ∧
      toc_record img img.head.id2value_offs 1 = [98] := by
  obtain ⟨img, len, db', hr⟩ := sample_finalize 1 (by decide)
  obtain ⟨hf, vm, hvm, _, hB⟩ := C13_raw_values sample_env sample_adds sample_db db' 1 len img
    (by decide) (by decide) sample_built hr
  have hvm' : vm = { max_num_items := UINT_MAX, items := [(entry_a, 1), (entry_b, 2)] } := by
    have : sample_db.values_map =
        some { max_num_items := UINT_MAX, items := [(entry_a, 1), (entry_b, 2)] } := rfl
    rw [this] at hvm
    exact (Option.some.inj hvm).symm
  subst hvm'
  have ha := (hB entry_a (by decide)).2.2
  have hb := (hB entry_b (by decide)).2.2
  exact ⟨img, len, db', hr, hf, ha, hb⟩

/-! ## The order of the key records -/

theorem layout_order_of_built {E : Env} {l : List (add_alloc × ddb_entry × ddb_entry)}
    {db db' : ddb_cons} {flags len : Nat} {img : ddb_image}
    (hb : built_by l db) (h : ddb_finalize E db flags = Res.ok (img, len, db')) :
    ∃ vm km ks code, db.values_map = some vm ∧ db.keys_map = some km ∧
      km.items.map Prod.fst = first_occurrences (added_keys l) ∧
      (∀ k, assoc_lookup k km.items =
        if k ∈ added_keys l then
          some (some ((values_of_key l k).map (value_id_of vm)))
        else none) ∧
      finalize_order E db = Res.ok (ks.map some) ∧
      image_layout E km vm db.num_values flags img len ks code := by
  obtain ⟨vm, km, hv, hk, hvmax, hkmax, hvlen, hklen, hvf, hvs, hkf, hkl, hn⟩ := built_by_inv hb
  obtain ⟨⟨ks, code, ho, L⟩, _⟩ := ddb_finalize_layout_order hk hv hklen h
  exact ⟨vm, km, ks, code, hv, hk, hkf, hkl, ho, L⟩

/-- Claim C12 (key record layout). In every successfully finalized image, with
`order` the array `pack_hash` returned in the run, for every `i < num_keys` the
entry `order[i]` is a key `k` of the keys map and the bytes `[toc[i], toc[i+1])`
of the key-to-values section are exactly the four bytes of the length of `k`,
the bytes of `k`, and the output `buf` of the delta encoder for the id list
`keys_map[k]` (the ids of the values added with `k`, in call order). Hence
`toc[i+1] - toc[i] = 4 + key length + encoded size`, and the last TOC entry,
`toc[num_keys]`, is the end offset of the last record, where the next section
starts. -/
theorem C12_key_record_layout (E : Env) (l : List (add_alloc × ddb_entry × ddb_entry))
    (db db' : ddb_cons) (flags len : Nat) (img : ddb_image)
    (hb : built_by l db) (h : ddb_finalize E db flags = Res.ok (img, len, db')) :
    ∃ km vm order, db.keys_map = some km ∧ db.values_map = some vm ∧
      finalize_order E db = Res.ok order ∧
      (∀ i, i < img.head.num_keys →
        ∃ k ids buf d, order[i]? = some (some k) ∧
          ddb_map_lookup_str km k = some (some ids) ∧
          ids = (values_of_key l k).map (value_id_of vm) ∧
          E.ddb_delta_encode ids = some (buf, d) ∧
          toc_record img img.head.key2values_offs i =
            le_bytes 4 k.val.length ++ k.val ++ buf ∧
          toc_entry img img.head.key2values_offs (i + 1) =
            toc_entry img img.head.key2values_offs i + (4 + k.val.length + buf.length)) ∧
      toc_entry img img.head.key2values_offs img.head.num_keys = img.head.id2value_offs := by
  obtain ⟨vm, km, ks, code, hv, hk, hkf, hkl, ho, L⟩ := layout_order_of_built hb h
  refine ⟨km, vm, ks.map some, hk, hv, ho, ?_, ?_⟩
  · intro i hi
    rw [L.num_keys, ← L.ks_length] at hi
    have hget : ks[i]? = some ks[i] := List.getElem?_eq_getElem hi
    have hmem : ks[i] ∈ ks := List.getElem_mem hi
    obtain ⟨ids, buf, d, h1, h2⟩ := L.ks_ok _ hmem
    have hrec : key_record E km ks[i] = le_bytes 4 ks[i].val.length ++ ks[i].val ++ buf := by
      simp [key_record, h1, h2]
    have hg : ((ks.map (key_record E km)).getD i []) =
        le_bytes 4 ks[i].val.length ++ ks[i].val ++ buf := by
      rw [List.getD_eq_getElem?_getD, List.getElem?_map, hget]
      exact hrec
    have hids : ids = (values_of_key l ks[i]).map (value_id_of vm) := by
      have := hkl ks[i]
      unfold ddb_map_lookup_str at h1
      rw [h1] at this
      split at this
      · simp only [Option.some.injEq] at this
        exact this
      · cases this
    refine ⟨ks[i], ids, buf, d, ?_, h1, hids, h2, ?_, ?_⟩
    · rw [List.getElem?_map, hget]
      rfl
    · rw [layout_key_record L i hi, hg]
    · have t0 := layout_key_toc L i (by omega)
      have t1 := layout_key_toc L (i + 1) (by omega)
      rw [t0, t1, total_length_take_succ, hg]
      simp only [List.length_append, length_le_bytes]
      omega
  · have htoc := layout_key_toc L ks.length (Nat.le_refl _)
    rw [total_length_take_all _ _ (by simp)] at htoc
    have hV := L.id2value_offs
    unfold section_end at hV
    simp only [List.length_map] at hV
    rw [L.num_keys, ← L.ks_length, htoc, hV]

/-- Witness of claim C12: the finalization of the builder after
`add(k,a); add(k,b); add(k,a)`; the only record holds the length 1, the byte of
`"k"` and the ids `1, 2, 1` as the sample encoder emits them. -/
theorem C12_key_record_layout_witness :
    ∃ img len db', ddb_finalize sample_env sample_db 0 = Res.ok (img, len, db') ∧
      toc_record img img.head.key2values_offs 0 = [1, 0, 0, 0, 107, 1, 2, 1] := by
  obtain ⟨img, len, db', hr⟩ := sample_finalize 0 (by decide)
  obtain ⟨km, vm, order, hk, hv, ho, hrec, _⟩ :=
    C12_key_record_layout sample_env sample_adds sample_db db' 0 len img sample_built hr
  have hord : finalize_order sample_env sample_db = Res.ok [some entry_k] := rfl
  rw [hord] at ho
  have ho' := Res.ok.inj ho
  subst ho'
  have hkm : km = { max_num_items := UINT_MAX, items := [(entry_k, some [1, 2, 1])] } := by
    have : sample_db.keys_map =
        some { max_num_items := UINT_MAX, items := [(entry_k, some [1, 2, 1])] } := rfl
    rw [this] at hk
    exact (Option.some.inj hk).symm
  subst hkm
  have hn : img.head.num_keys = 1 := by
    obtain ⟨_, _, _, _, _, hk', _, _, _, _, _, L⟩ := layout_of_built sample_built hr
    have : sample_db.keys_map =
        some { max_num_items := UINT_MAX, items := [(entry_k, some [1, 2, 1])] } := rfl
    rw [this] at hk'
    have hk'' := Option.some.inj hk'
    rw [L.num_keys, ← hk'']
    rfl
  obtain ⟨k, ids, buf, d, h1, h2, h3, h4, h5, _⟩ := hrec 0 (by omega)
  simp only [List.getElem?_cons_zero, Option.some.injEq] at h1
  subst h1
  have hids : ids = [1, 2, 1] := by
    have : ddb_map_lookup_str
        ({ max_num_items := UINT_MAX, items := [(entry_k, some [1, 2, 1])] } :
          ddb_map (Option (List Nat))) entry_k = some (some [1, 2, 1]) := by decide
    rw [this] at h2
    simp only [Option.some.injEq] at h2
    exact h2.symm
  subst hids
  have hbuf : buf = [1, 2, 1] := by
    have : sample_env.ddb_delta_encode [1, 2, 1] = some ([1, 2, 1], true) := by decide
    rw [this] at h4
    simp only [Option.some.injEq, Prod.mk.injEq] at h4
    exact h4.1.symm
  subst hbuf
  exact ⟨img, len, db', hr, h5⟩

theorem pack_hash_order {E : Env} {km : ddb_map (Option (List Nat))} {p p' : ddb_packed}
    {order : List (Option ddb_entry)} (h : pack_hash E p km = Res.ok (p', order)) :
    (p.head.num_keys > E.DDB_HASH_MIN_KEYS ∧ ∃ hash, E.ddb_build_cmph km = some hash ∧
      pack_hash_loop E (some hash) p.head.num_keys 0 (km.items.map Prod.fst)
        (List.replicate p.head.num_keys none) = Res.ok order) ∨
    (¬ p.head.num_keys > E.DDB_HASH_MIN_KEYS ∧
      pack_hash_loop E none p.head.num_keys 0 (km.items.map Prod.fst)
        (List.replicate p.head.num_keys none) = Res.ok order) := by
  unfold pack_hash at h
  simp only at h
  by_cases hm : E.malloc (p.head.num_keys * E.sizeof_entry % U64) = false
  · rw [if_pos hm] at h
    cases h
  · rw [if_neg hm, Res.bind_eq_ok] at h
    obtain ⟨ph, h1, h⟩ := h
    by_cases hc : E.keys_cursor = false
    · rw [if_pos hc] at h
      cases h
    · rw [if_neg hc, Res.bind_eq_ok] at h
      obtain ⟨order1, hloop, h⟩ := h
      simp only [Res.ok.injEq, Prod.mk.injEq] at h
      obtain ⟨_, hord⟩ := h
      subst hord
      by_cases hn : p.head.num_keys > E.DDB_HASH_MIN_KEYS
      · rw [if_pos hn] at h1
        cases hb : E.ddb_build_cmph km with
        | none => rw [hb] at h1; cases h1
        | some hash =>
          rw [hb] at h1
          simp only at h1
          cases hsec : buffer_new_section E p 0 with
          | ok p1 =>
            rw [hsec] at h1
            simp only [Res.bind_eq_ok] at h1
            obtain ⟨p2, _, h1⟩ := h1
            simp only [Res.ok.injEq] at h1
            subst h1
            exact Or.inl ⟨hn, hash, rfl, hloop⟩
          | null => rw [hsec] at h1; cases h1
          | out_of_bounds => rw [hsec] at h1; cases h1
          | undefined => rw [hsec] at h1; cases h1
      · rw [if_neg hn] at h1
        simp only [Res.ok.injEq] at h1
        subst h1
        exact Or.inr ⟨hn, hloop⟩

/-- With a hash that is injective on the keys, every key is found in the slot of
its hash after the loop of `pack_hash`, and the other slots are untouched. -/
theorem pack_hash_loop_some_get {E : Env} {n : Nat} {hash : List Nat} :
    ∀ (ks : List ddb_entry) (i : Nat) (order order' : List (Option ddb_entry)),
      ks.Nodup →
      (∀ a ∈ ks, ∀ b ∈ ks, E.cmph_search_packed hash a.val % U32 =
        E.cmph_search_packed hash b.val % U32 → a = b) →
      order.length = n →
      pack_hash_loop E (some hash) n i ks order = Res.ok order' →
      (∀ k ∈ ks, order'[E.cmph_search_packed hash k.val % U32]? = some (some k)) ∧
      (∀ j, (∀ k ∈ ks, E.cmph_search_packed hash k.val % U32 ≠ j) → order'[j]? = order[j]?) := by
  intro ks
  induction ks with
  | nil =>
    intro i order order' _ _ _ h
    simp only [pack_hash_loop, Res.ok.injEq] at h
    subst h
    exact ⟨by simp, fun _ _ => rfl⟩
  | cons k rest ih =>
    intro i order order' hnd hinj hlen h
    simp only [pack_hash_loop] at h
    by_cases hc : n ≤ E.cmph_search_packed hash k.val % U32
    · rw [if_pos hc] at h
      cases h
    · rw [if_neg hc] at h
      rw [List.nodup_cons] at hnd
      obtain ⟨h1, h2⟩ := ih _ _ _ hnd.2
        (fun a ha b hb => hinj a (List.mem_cons_of_mem _ ha) b (List.mem_cons_of_mem _ hb))
        (by rw [List.length_set]; exact hlen) h
      have hne : ∀ k' ∈ rest, E.cmph_search_packed hash k'.val % U32 ≠
          E.cmph_search_packed hash k.val % U32 := by
        intro k' hk' e
        have := hinj k' (List.mem_cons_of_mem _ hk') k (List.mem_cons_self _ _) e
        subst this
        exact hnd.1 hk'
      refine ⟨?_, ?_⟩
      · intro k' hk'
        rcases List.mem_cons.mp hk' with rfl | hk'
        · rw [h2 _ hne, List.getElem?_set_self (by omega)]
        · exact h1 k' hk'
      · intro j hj
        rw [h2 j (fun k' hk' => hj k' (List.mem_cons_of_mem _ hk')),
          List.getElem?_set_ne (hj k (List.mem_cons_self _ _))]

theorem mem_of_nodup_bounded {n : Nat} {xs : List Nat} (hnd : xs.Nodup)
    (hlt : ∀ x ∈ xs, x < n) (hlen : xs.length = n) (j : Nat) (hj : j < n) : j ∈ xs := by
  have hsub : xs ⊆ List.range n := fun x hx => List.mem_range.mpr (hlt x hx)
  have hsp : xs.Subperm (List.range n) := List.subperm_of_subset hnd hsub
  have hp : xs.Perm (List.range n) := hsp.perm_of_length_le (by simp [hlen])
  exact hp.mem_iff.mpr (List.mem_range.mpr hj)

theorem exists_map_some {α : Type} :
    ∀ (o : List (Option α)), (∀ x ∈ o, ∃ a, x = some a) → ∃ ks : List α, o = ks.map some := by
  intro o
  induction o with
  | nil => intro _; exact ⟨[], rfl⟩
  | cons x rest ih =>
    intro h
    obtain ⟨a, ha⟩ := h x (List.mem_cons_self _ _)
    obtain ⟨ks, hks⟩ := ih (fun y hy => h y (List.mem_cons_of_mem _ hy))
    exact ⟨a :: ks, by rw [ha, hks]; rfl⟩

/-- An `order` array in which every key sits in the slot of its hash, for a hash
that maps the keys one-to-one into `[0, n)`, is a permutation of the keys with
every slot filled. -/
theorem order_perm_of_slots {n : Nat} {keys : List ddb_entry} {f : ddb_entry → Nat}
    {order : List (Option ddb_entry)} (hlen : order.length = n) (hkeys : keys.length = n)
    (hnd : keys.Nodup) (hlt : ∀ k ∈ keys, f k < n)
    (hinj : ∀ a ∈ keys, ∀ b ∈ keys, f a = f b → a = b)
    (hslot : ∀ k ∈ keys, order[f k]? = some (some k)) :
    ∃ ks : List ddb_entry, order = ks.map some ∧ ks.Perm keys := by
  have hfnd : (keys.map f).Nodup := List.Nodup.map_on (fun a ha b hb e => hinj a ha b hb e) hnd
  have hsurj : ∀ j, j < n → ∃ k ∈ keys, f k = j := by
    intro j hj
    have := mem_of_nodup_bounded hfnd
      (fun x hx => by
        obtain ⟨k, hk, rfl⟩ := List.mem_map.mp hx
        exact hlt k hk)
      (by simp [hkeys]) j hj
    obtain ⟨k, hk, e⟩ := List.mem_map.mp this
    exact ⟨k, hk, e⟩
  have hall : ∀ x ∈ order, ∃ a, x = some a := by
    intro x hx
    obtain ⟨j, hj, e⟩ := List.getElem_of_mem hx
    obtain ⟨k, hk, hf⟩ := hsurj j (by omega)
    have := hslot k hk
    rw [hf, List.getElem?_eq_getElem hj, e] at this
    exact ⟨k, Option.some.inj this⟩
  obtain ⟨ks, hks⟩ := exists_map_some order hall
  refine ⟨ks, hks, ?_⟩
  have hkl : ks.length = n := by
    rw [← hlen, hks, List.length_map]
  have hsub : keys ⊆ ks := by
    intro k hk
    have := hslot k hk
    rw [hks, List.getElem?_map] at this
    cases hg : ks[f k]? with
    | none => rw [hg] at this; cases this
    | some k' =>
      rw [hg] at this
      simp only [Option.map_some', Option.some.injEq] at this
      subst this
      exact List.getElem?_mem hg
  have hsp : keys.Subperm ks := List.subperm_of_subset hnd hsub
  exact (hsp.perm_of_length_le (by omega)).symm

/-- Claim C11 (record placement by hash image). Let `km` be the keys map of a builder
obtained by successful adds and `keys` its keys in insertion (cursor) order.
For every call of `pack_hash` on a buffer whose header holds `num_keys = |km|`
that returns an array `order`: when the hash is built (`num_keys >
DDB_HASH_MIN_KEYS`) and `cmph_search_packed` maps the keys one-to-one into
`[0, num_keys)`, then `order[lookup(H,k)] = k` for every key `k`, and `order` is a
permutation of the keys with every slot filled; when the hash is skipped
(`num_keys ≤ DDB_HASH_MIN_KEYS`), `order` is `keys`. Moreover, in every
successful run of `ddb_finalize`, record `i` of the key-to-values section
carries the key `order[i]`, for the array `order` that `pack_hash` returned in
the run, and when the hash is built the record of every key `k` is the one at
index `lookup(H,k)`. -/
theorem C11_record_placement (E : Env) (l : List (add_alloc × ddb_entry × ddb_entry))
    (db : ddb_cons) (hb : built_by l db) :
    ∃ km, db.keys_map = some km ∧
      (∀ (pack pack' : ddb_packed) (order : List (Option ddb_entry)),
        pack.head.num_keys = km.items.length →
        pack_hash E pack km = Res.ok (pack', order) →
        (km.items.length > E.DDB_HASH_MIN_KEYS →
          ∃ hash, E.ddb_build_cmph km = some hash ∧
            ((∀ k ∈ km.items.map Prod.fst,
                E.cmph_search_packed hash k.val % U32 < km.items.length) →
             (∀ a ∈ km.items.map Prod.fst, ∀ b ∈ km.items.map Prod.fst,
                E.cmph_search_packed hash a.val % U32 =
                  E.cmph_search_packed hash b.val % U32 → a = b) →
             (∀ k ∈ km.items.map Prod.fst,
                order[E.cmph_search_packed hash k.val % U32]? = some (some k)) ∧
             ∃ ks : List ddb_entry, order = ks.map some ∧
               ks.Perm (km.items.map Prod.fst))) ∧
        (km.items.length ≤ E.DDB_HASH_MIN_KEYS →
          order = (km.items.map Prod.fst).map some)) ∧
      (∀ (flags len : Nat) (img : ddb_image) (db' : ddb_cons),
        ddb_finalize E db flags = Res.ok (img, len, db') →
        ∃ order, finalize_order E db = Res.ok order ∧
          (∀ i, i < img.head.num_keys →
            ∃ k, order[i]? = some (some k) ∧
              toc_record img img.head.key2values_offs i =
                le_bytes 4 k.val.length ++ k.val ++ key_encoding E km k) ∧
          (km.items.length > E.DDB_HASH_MIN_KEYS →
            ∃ hash, E.ddb_build_cmph km = some hash ∧
              ∀ k ∈ km.items.map Prod.fst,
                E.cmph_search_packed hash k.val % U32 < img.head.num_keys ∧
                order[E.cmph_search_packed hash k.val % U32]? = some (some k) ∧
                toc_record img img.head.key2values_offs
                    (E.cmph_search_packed hash k.val % U32) =
                  le_bytes 4 k.val.length ++ k.val ++ key_encoding E km k)) := by
  obtain ⟨vm, km, hv, hk, hvmax, hkmax, hvlen, hklen, hvf, hvs, hkf, hkl, hn⟩ := built_by_inv hb
  have hnd : (km.items.map Prod.fst).Nodup := by
    rw [hkf]
    exact nodup_first_occurrences _
  have hU : km.items.length < U32 := by
    simp only [UINT_MAX] at hklen
    simp only [U32]
    omega
  refine ⟨km, hk, ?_, ?_⟩
  · intro pack pack' order hnum hph
    have hord := pack_hash_order hph
    rw [hnum] at hord
    refine ⟨?_, ?_⟩
    · intro hgt
      rcases hord with ⟨_, hash, hbuild, hloop⟩ | ⟨hno, _⟩
      · refine ⟨hash, hbuild, fun hlt hinj => ?_⟩
        obtain ⟨g1, _⟩ := pack_hash_loop_some_get _ 0 _ _ hnd hinj (by simp) hloop
        have hlen : order.length = km.items.length := by
          have := (pack_hash_loop_some _ 0 _ _ hloop).1
          simpa using this
        exact ⟨g1, order_perm_of_slots hlen (by simp) hnd hlt hinj g1⟩
      · exact absurd hgt hno
    · intro hle
      rcases hord with ⟨hgt, _⟩ | ⟨_, hloop⟩
      · omega
      · exact order_plain_eq (by simp) hU hloop
  · intro flags len img db' h
    obtain ⟨vm', km', ks, code, hv', hk', _, _, ho, L⟩ := layout_order_of_built hb h
    rw [hk] at hk'
    have hkm := Option.some.inj hk'
    subst hkm
    have hrec : ∀ i k, ks[i]? = some k →
        toc_record img img.head.key2values_offs i =
          le_bytes 4 k.val.length ++ k.val ++ key_encoding E km k := by
      intro i k hik
      have hi : i < ks.length := by
        by_contra hc
        rw [List.getElem?_eq_none (by omega)] at hik
        cases hik
      rw [layout_key_record L i hi, List.getD_eq_getElem?_getD, List.getElem?_map, hik]
      exact key_record_eq (L.ks_ok k (List.getElem?_mem hik))
    refine ⟨ks.map some, ho, ?_, ?_⟩
    · intro i hi
      rw [L.num_keys, ← L.ks_length] at hi
      have hget : ks[i]? = some ks[i] := List.getElem?_eq_getElem hi
      refine ⟨ks[i], ?_, hrec i _ hget⟩
      rw [List.getElem?_map, hget]
      rfl
    · intro hgt
      obtain ⟨hash, x1, _, x3⟩ := L.key2values_offs_hash hgt
      refine ⟨hash, x1, fun k hkm => ?_⟩
      obtain ⟨y1, y2⟩ := x3 k hkm
      refine ⟨by rw [L.num_keys]; exact y1, ?_, hrec _ k y2⟩
      rw [List.getElem?_map, y2]
      rfl

/-- Witness of claim C11: the builder after `add(k,a); add(k,b); add(k,a)`, finalized
under a threshold of 0 keys, where the hash sends `"k"` to slot 0: the array
`order` is `["k"]` and record 0 carries `"k"`. -/
theorem C11_record_placement_witness :
    ∃ img len db', ddb_finalize hash_env sample_db 0 = Res.ok (img, len, db') ∧
      finalize_order hash_env sample_db = Res.ok [some entry_k] ∧
      ∃ enc, toc_record img img.head.key2values_offs 0 = [1, 0, 0, 0, 107] ++ enc := by
  have hok : (ddb_finalize hash_env sample_db 0).isOk = true := by decide
  obtain ⟨⟨img, len, db'⟩, hr⟩ := Res.exists_of_isOk hok
  obtain ⟨km, hk, _, h2⟩ := C11_record_placement hash_env sample_adds sample_db sample_built
  obtain ⟨order, ho, hrec, hhash⟩ := h2 0 len img db' hr
  have hord : finalize_order hash_env sample_db = Res.ok [some entry_k] := rfl
  have hkm : km = { max_num_items := UINT_MAX, items := [(entry_k, some [1, 2, 1])] } := by
    have : sample_db.keys_map =
        some { max_num_items := UINT_MAX, items := [(entry_k, some [1, 2, 1])] } := rfl
    rw [this] at hk
    exact (Option.some.inj hk).symm
  subst hkm
  obtain ⟨hash, _, hall⟩ := hhash (by decide)
  have h0 := (hall entry_k (by decide)).1
  have hlt : 0 < img.head.num_keys := by omega
  obtain ⟨k, h1, h5⟩ := hrec 0 hlt
  rw [hord] at ho
  have ho' := Res.ok.inj ho
  subst ho'
  simp only [List.getElem?_cons_zero, Option.some.injEq] at h1
  subst h1
  exact ⟨img, len, db', hr, hord, _, h5⟩

/-! ## The empty store -/

theorem pack_hash_plain_succeeds_at {E : Env} {km : ddb_map (Option (List Nat))}
    {p : ddb_packed}
    (hma : E.malloc (km.items.length * E.sizeof_entry % U64) = true)
    (hkc : E.keys_cursor = true) (hn : p.head.num_keys = km.items.length)
    (hplain : km.items.length ≤ E.DDB_HASH_MIN_KEYS) (hint : km.items.length ≤ INT_MAX) :
    pack_hash E p km = Res.ok (p, (km.items.map Prod.fst).map some) := by
  have hU : km.items.length < U32 := Nat.lt_of_le_of_lt hint INT_MAX_lt_U32
  obtain ⟨order, ho⟩ := pack_hash_loop_none_succeeds (E := E) (n := km.items.length)
    (km.items.map Prod.fst) 0 (List.replicate km.items.length none) (by simp) hU
  have hoe := order_plain_eq (by simp) hU ho
  have hgt : ¬ km.items.length > E.DDB_HASH_MIN_KEYS := by omega
  unfold pack_hash
  simp only [hn, hma, hkc, Bool.true_eq_false, if_false]
  rw [if_neg hgt]
  simp only [Res.bind_ok, ho, hoe]

/-- The finalizer succeeds when the allocations it requests succeed, the
collaborators return their results, the hash is not needed, every key of the map
has an id list, and the image, with the slack the growth policy adds, fits the
64-bit offsets. Of `malloc` only the request for the `order` array is made. -/
theorem ddb_finalize_succeeds_at (E : Env) (db : ddb_cons) (flags : Nat)
    (km : ddb_map (Option (List Nat))) (vm : ddb_map Nat) (code cb : List Nat)
    (hk : db.keys_map = some km) (hv : db.values_map = some vm)
    (hre : ∀ s, E.realloc s = true) (hsh : ∀ s, E.realloc_shrink s = true)
    (hma : E.malloc (km.items.length * E.sizeof_entry % U64) = true)
    (hkc : E.keys_cursor = true) (hvc : E.values_cursor = true)
    (hplain : km.items.length ≤ E.DDB_HASH_MIN_KEYS) (hint : km.items.length ≤ INT_MAX)
    (hslots : ∀ k ∈ km.items.map Prod.fst, ∃ ids r,
      ddb_map_lookup_str km k = some (some ids) ∧ E.ddb_delta_encode ids = some r)
    (hcode : disable_compr_arg E flags = false → E.ddb_create_codemap vm = some code ∧
      E.ddb_save_codemap code = some cb ∧
      ∀ v ∈ vm.items.map Prod.fst, ∃ out, E.ddb_compress code v.val = some out)
    (hb : 2 * E.sizeof_header + 8 * (km.items.length + 1) +
      total_length ((km.items.map Prod.fst).map (key_record E km)) +
      8 * (vm.items.length + 1) +
      total_length ((vm.items.map Prod.fst).map
        (value_record E (disable_compr_arg E flags) code)) +
      201326592 * km.items.length + 67108864 * vm.items.length + 268435460 < U64) :
    ∃ img len db', ddb_finalize E db flags = Res.ok (img, len, db') := by
  have hinc := BUFFER_INC_eq
  obtain ⟨p0, i0, i1, i2, i3⟩ := buffer_init_succeeds hre (by omega)
  obtain ⟨p1, h0, h1, h2, h3⟩ := pack_header_succeeds (E := E) hk hv i2 (by omega)
  have g0 := pack_hash_plain_succeeds_at
    (p := { p1 with head := { p1.head with hash_offs := p1.offs } }) hma hkc h3 hplain hint
  obtain ⟨p4, k0, k1, k2⟩ := pack_key2values_succeeds
    (p := { p1 with head := { p1.head with key2values_offs := p1.offs,
                                           hash_offs := p1.offs } })
    hre h3 hint hslots (by simp only; omega) (by simp only; omega)
  have k2' : p4.size ≤ p1.size + 8 * (km.items.length + 1) +
      total_length ((km.items.map Prod.fst).map (key_record E km)) +
      201326592 * km.items.length + 67108864 := k2
  obtain ⟨p6, v0⟩ := pack_id2value_succeeds
    (p := { p4 with head := { p4.head with id2value_offs := p4.offs } })
    (disable_compr_arg E flags) hre hvc hcode (by simp only; omega)
    (by simp only; omega)
  unfold ddb_finalize
  rw [i0]
  simp only [Res.bind_ok]
  rw [h0]
  simp only [Res.bind_ok, hk]
  rw [g0]
  simp only [Res.bind_ok]
  rw [k0]
  simp only [Res.bind_ok, hv]
  rw [v0]
  simp only [Res.bind_ok, buffer_shrink, hsh, if_true]
  exact ⟨_, _, _, rfl⟩

/-- Claim C16 (empty store). Let no allocation fail: `realloc` and the cursor
creations succeed, `malloc(0)`, the request for the empty `order` array, returns
a non-null pointer, and, when compression is enabled, the codebook is created
and saved. Then `ddb_finalize` on a freshly created builder succeeds, and the
image has `num_keys = num_uniq_values = num_values = 0`, `F_MULTISET` and
`F_HASH` clear, an empty hash section, a TOC of one entry in each of the
key-to-values and id-to-value sections (the entry is the end of the TOC, which
is the end of the section's records), and `header.size` equal to the image
length, `sizeof(header) + 20`. -/
theorem C16_empty_store (E : Env) (flags : Nat) (c k v : Bool) (db0 : ddb_cons)
    (hnew : ddb_cons_new c k v = some db0)
    (hsz : 2 * E.sizeof_header + 268435476 < U64)
    (hre : ∀ s, E.realloc s = true) (hsh : ∀ s, E.realloc_shrink s = true)
    (hma : E.malloc 0 = true)
    (hkc : E.keys_cursor = true) (hvc : E.values_cursor = true)
    (hcode : disable_compr_arg E flags = false →
      ∃ code cb, E.ddb_create_codemap (ddb_map_new UINT_MAX) = some code ∧
        E.ddb_save_codemap code = some cb) :
    ∃ img len db', ddb_finalize E db0 flags = Res.ok (img, len, db') ∧
      img.head.magic = E.DISCODB_MAGIC ∧
      img.head.num_keys = 0 ∧ img.head.num_uniq_values = 0 ∧ img.head.num_values = 0 ∧
      HASFLAG img.head Flag.F_MULTISET = false ∧ HASFLAG img.head Flag.F_HASH = false ∧
      img.head.hash_offs = E.sizeof_header ∧
      img.head.key2values_offs = E.sizeof_header ∧
      img.head.id2value_offs = E.sizeof_header + 8 ∧
      toc_entry img img.head.key2values_offs 0 = img.head.id2value_offs ∧
      toc_entry img img.head.id2value_offs 0 = img.head.id2value_offs + 8 ∧
      img.head.size = E.sizeof_header + 20 ∧ len = img.head.size ∧
      img.alloc = img.head.size := by
  have hdb : db0.values_map = some (ddb_map_new UINT_MAX) ∧
      db0.keys_map = some (ddb_map_new UINT_MAX) ∧ db0.num_values = 0 := by
    unfold ddb_cons_new at hnew
    split at hnew
    · cases hnew
    · split at hnew
      · have := Option.some.inj hnew
        subst this
        exact ⟨rfl, rfl, rfl⟩
      · cases hnew
  obtain ⟨hv0, hk0, hn0⟩ := hdb
  have hcode' : ∃ code cb : List Nat, disable_compr_arg E flags = false →
      E.ddb_create_codemap (ddb_map_new UINT_MAX) = some code ∧
      E.ddb_save_codemap code = some cb ∧
      ∀ v ∈ (ddb_map_new UINT_MAX : ddb_map Nat).items.map Prod.fst,
        ∃ out, E.ddb_compress code v.val = some out := by
    by_cases hdc : disable_compr_arg E flags = false
    · obtain ⟨code, cb, h1, h2⟩ := hcode hdc
      exact ⟨code, cb, fun _ => ⟨h1, h2, by simp [ddb_map_new]⟩⟩
    · exact ⟨[], [], fun h => absurd h hdc⟩
  obtain ⟨code, cb, hc⟩ := hcode'
  obtain ⟨img, len, db', hr⟩ := ddb_finalize_succeeds_at E db0 flags
    (ddb_map_new UINT_MAX) (ddb_map_new UINT_MAX) code cb hk0 hv0 hre hsh
    (by simpa [ddb_map_new] using hma) hkc hvc (by simp [ddb_map_new])
    (by simp [ddb_map_new]) (by simp [ddb_map_new]) hc
    (by simp [ddb_map_new, total_length]; omega)
  obtain ⟨⟨ks, code', L⟩, _⟩ := ddb_finalize_layout hk0 hv0 (by simp [ddb_map_new]) hr
  have hks : ks = [] := by
    have := L.ks_length
    simp only [ddb_map_new, List.length_nil] at this
    exact List.length_eq_zero.mp this
  subst hks
  have hh : img.head.hash_offs = E.sizeof_header := by
    rw [L.hash_offs, Nat.mod_eq_of_lt (by omega)]
  have hkv : img.head.key2values_offs = E.sizeof_header := by
    rw [(L.key2values_offs_plain (by simp [ddb_map_new])).1, hh]
  have hid : img.head.id2value_offs = E.sizeof_header + 8 := by
    rw [L.id2value_offs, hkv]
    simp [section_end, total_length]
  have hlen : len = E.sizeof_header + 20 := by
    rw [L.length, hid]
    simp [section_end, total_length, ddb_map_new]
  have t0 := layout_key_toc L 0 (Nat.zero_le _)
  have t1 := layout_value_toc L 0 (Nat.zero_le _)
  simp only [List.length_nil, List.take_zero, total_length, List.map_nil, List.sum_nil,
    ddb_map_new, Nat.zero_add, Nat.mul_one, Nat.add_zero] at t0 t1
  refine ⟨img, len, db', hr, L.magic, ?_, ?_, L.num_values.trans hn0, ?_, ?_, hh, hkv, hid,
    ?_, ?_, ?_, ?_, ?_⟩
  · rw [L.num_keys]; rfl
  · rw [L.num_uniq_values]; rfl
  · have : ¬ HASFLAG img.head Flag.F_MULTISET = true := by
      rw [HASFLAG_iff, L.flag_multiset]
      simp
    simpa using this
  · have : ¬ HASFLAG img.head Flag.F_HASH = true := by
      rw [HASFLAG_iff, L.flag_hash]
      simp [ddb_map_new]
    simpa using this
  · rw [t0, hid, hkv]
  · rw [t1]
  · rw [L.size, hlen]
  · rw [L.size]
  · rw [L.alloc, L.size]

/-- Witness of claim C16: a fresh builder in the sample environment, whose header has
64 bytes; the image has 84 bytes. -/
theorem C16_empty_store_witness :
    ∃ db0 img len db', ddb_cons_new true true true = some db0 ∧
      ddb_finalize sample_env db0 0 = Res.ok (img, len, db') ∧
      img.head.num_keys = 0 ∧ img.head.size = 84 ∧ len = 84 := by
  obtain ⟨img, len, db', hr, h⟩ := C16_empty_store sample_env 0 true true true
    { values_map := some (ddb_map_new UINT_MAX), keys_map := some (ddb_map_new UINT_MAX),
      num_values := 0 } rfl (by decide) (fun _ => rfl) (fun _ => rfl) rfl rfl rfl
    (fun _ => ⟨[], [], rfl, rfl⟩)
  have hs : img.head.size = 84 := h.2.2.2.2.2.2.2.2.2.2.2.1
  have hl : len = img.head.size := h.2.2.2.2.2.2.2.2.2.2.2.2.1
  exact ⟨_, img, len, db', rfl, hr, h.2.1, hs, by rw [hl, hs]⟩

/-! ## Runs without faults -/

theorem Res.safe_ok {α : Type} {a : α} {P : α → Prop} (h : P a) : (Res.ok a).safe P := h

theorem Res.safe_null {α : Type} {P : α → Prop} : (Res.null : Res α).safe P := trivial

theorem Res.safe_bind {α β : Type} {r : Res α} {f : α → Res β} {P : α → Prop} {Q : β → Prop}
    (h : r.safe P) (hf : ∀ a, P a → (f a).safe Q) : (r.bind f).safe Q := by
  cases r with
  | ok a => exact hf a h
  | null => exact trivial
  | out_of_bounds => exact h
  | undefined => exact h

theorem Res.safe_mono {α : Type} {r : Res α} {P Q : α → Prop}
    (h : r.safe P) (hpq : ∀ a, P a → Q a) : r.safe Q := by
  cases r with
  | ok a => exact hpq a h
  | null => exact trivial
  | out_of_bounds => exact h
  | undefined => exact h

theorem Res.safe_iff {α : Type} {r : Res α} {P : α → Prop} :
    r.safe P ↔ (∃ a, r = Res.ok a ∧ P a) ∨ r = Res.null := by
  cases r <;> simp [Res.safe]

theorem buffer_grow_safe {E : Env} {p : ddb_packed} {n : Nat}
    (ho : p.offs ≤ p.size) (hb : p.size + n + BUFFER_INC < U64) :
    (_buffer_grow E p n).safe fun p' =>
      p'.offs = p.offs ∧ p'.toc_offs = p.toc_offs ∧ p'.head = p.head ∧
      p.offs + n ≤ p'.size ∧ p.size ≤ p'.size ∧ p'.size ≤ p.size + n + BUFFER_INC := by
  unfold _buffer_grow
  have h1 : (p.offs + n) % U64 = p.offs + n := Nat.mod_eq_of_lt (by omega)
  have h2 : (p.size + (n + BUFFER_INC) % U64) % U64 = p.size + n + BUFFER_INC := by
    rw [Nat.mod_eq_of_lt (a := n + BUFFER_INC) (by omega), Nat.mod_eq_of_lt (by omega)]
    omega
  by_cases hc : (p.offs + n) % U64 > p.size
  · rw [if_pos hc]
    simp only [h2]
    by_cases hr : E.realloc (p.size + n + BUFFER_INC) = true
    · rw [if_pos hr]
      exact ⟨rfl, rfl, rfl, by simp only; omega, by simp only; omega, by simp only; omega⟩
    · rw [if_neg hr]
      exact trivial
  · rw [if_neg hc]
    rw [h1] at hc
    exact ⟨rfl, rfl, rfl, by omega, by omega, by omega⟩

theorem buffer_write_data_safe {E : Env} (p : ddb_packed) (src : List Nat)
    (ho : p.offs ≤ p.size) (hb : p.size + src.length + BUFFER_INC < U64) :
    (buffer_write_data E p src).safe fun p' =>
      p'.offs = p.offs + src.length ∧ p'.toc_offs = p.toc_offs ∧ p'.head = p.head ∧
      p'.offs ≤ p'.size ∧ p.size ≤ p'.size ∧ p'.size ≤ p.size + src.length + BUFFER_INC := by
  unfold buffer_write_data
  refine Res.safe_bind (buffer_grow_safe ho hb) ?_
  intro p1 ⟨h2, h3, hh, h4, h5, h6⟩
  rw [if_neg (by omega)]
  have h7 : (p1.offs + src.length) % U64 = p.offs + src.length := by
    rw [h2]
    exact Nat.mod_eq_of_lt (by omega)
  exact ⟨h7, h3, hh, by simp only [h7]; omega, h5, h6⟩

theorem buffer_new_section_safe {E : Env} {p : ddb_packed} {n : Nat}
    (ho : p.offs ≤ p.size) (hb : p.size + 8 * n + BUFFER_INC < U64) :
    (buffer_new_section E p n).safe fun p' =>
      p'.toc_offs = p.offs ∧ p'.offs = p.offs + 8 * n ∧ p'.head = p.head ∧
      p'.offs ≤ p'.size ∧ p.size ≤ p'.size ∧ p'.size ≤ p.size + 8 * n + BUFFER_INC := by
  have hm : (n * 8) % U64 = 8 * n := by
    rw [Nat.mod_eq_of_lt (by omega)]
    omega
  unfold buffer_new_section
  rw [hm]
  refine Res.safe_bind (buffer_grow_safe (n := 8 * n) ho hb) ?_
  intro p1 ⟨h2, h3, hh, h4, h5, h6⟩
  have h7 : (p1.offs + 8 * n) % U64 = p.offs + 8 * n := by
    rw [h2]
    exact Nat.mod_eq_of_lt (by omega)
  exact ⟨h2, h7, hh, by simp only [h7]; omega, h5, h6⟩

theorem buffer_toc_mark_head {p p' : ddb_packed} (h : buffer_toc_mark p = Res.ok p') :
    p'.head = p.head := by
  unfold buffer_toc_mark at h
  split at h
  · cases h
  · simp only [Res.ok.injEq] at h
    subst h
    rfl

theorem pack_key2values_loop_safe {E : Env} {km : ddb_map (Option (List Nat))} :
    ∀ (ks : List ddb_entry) (i : Nat) (p : ddb_packed),
      (∀ k ∈ ks, ∃ ids, ddb_map_lookup_str km k = some (some ids)) →
      i + ks.length ≤ INT_MAX → p.offs ≤ p.size → p.toc_offs + 8 * ks.length ≤ p.size →
      p.size + total_length (ks.map (key_record E km)) + 201326592 * ks.length < U64 →
      (pack_key2values_loop E km i (ks.map some) p).safe fun p' =>
        p'.offs ≤ p'.size ∧ p.size ≤ p'.size ∧
        p'.size ≤ p.size + total_length (ks.map (key_record E km)) +
          201326592 * ks.length ∧
        p'.toc_offs = p.toc_offs + 8 * ks.length := by
  intro ks
  induction ks with
  | nil =>
    intro i p _ _ ho _ _
    exact ⟨ho, Nat.le_refl _, by simp [total_length], by simp⟩
  | cons k rest ih =>
    intro i p hks hi ho ht hb
    obtain ⟨ids, hl⟩ := hks k (List.mem_cons_self _ _)
    have hinc := BUFFER_INC_eq
    simp only [List.map_cons, pack_key2values_loop, hl]
    cases hd : E.ddb_delta_encode ids with
    | none => exact trivial
    | some r =>
      obtain ⟨buf, dup⟩ := r
      have hrec : key_record E km k = le_bytes 4 k.val.length ++ k.val ++ buf := by
        simp [key_record, hl, hd]
      have hreclen : (key_record E km k).length = 4 + k.val.length + buf.length := by
        rw [hrec]
        simp only [List.length_append, length_le_bytes]
      simp only [List.map_cons, total_length_cons, List.length_cons, hreclen] at hb hi ht ⊢
      generalize hq : (if dup = true then
        ({ p with head := SETFLAG p.head Flag.F_MULTISET } : ddb_packed) else p) = q
      have q1 : q.offs = p.offs ∧ q.toc_offs = p.toc_offs ∧ q.size = p.size := by
        subst hq
        split <;> exact ⟨rfl, rfl, rfl⟩
      obtain ⟨qo, qt, qs⟩ := q1
      obtain ⟨p2, m0, m1, m2, m3⟩ := buffer_toc_mark_succeeds (p := q)
        (by rw [qt, qs]; omega) (by rw [qs]; omega)
      rw [m0, Res.bind_ok]
      refine Res.safe_bind (buffer_write_data_safe p2 (le_bytes 4 k.val.length) (by omega)
        (by rw [length_le_bytes]; omega)) ?_
      intro p3 ⟨a1, a2, _, a3, a4, a5⟩
      rw [length_le_bytes] at a1 a5
      refine Res.safe_bind (buffer_write_data_safe p3 k.val a3 (by omega)) ?_
      intro p4 ⟨b1, b2, _, b3, b4, b5⟩
      refine Res.safe_bind (buffer_write_data_safe p4 buf b3 (by omega)) ?_
      intro p5 ⟨c1, c2, _, c3, c4, c5⟩
      rw [if_neg (by simp only [INT_MAX] at hi ⊢; omega)]
      refine Res.safe_mono (ih (i + 1) p5
        (fun k' hk' => hks k' (List.mem_cons_of_mem _ hk')) (by omega) c3 (by omega)
        (by omega)) ?_
      intro p' ⟨e1, e2, e3, e4⟩
      exact ⟨e1, by omega, by omega, by omega⟩

theorem pack_id2value_loop_safe {E : Env} (dc : Bool) (code : List Nat) :
    ∀ (vs : List ddb_entry) (p : ddb_packed),
      p.offs ≤ p.size → p.toc_offs + 8 * vs.length ≤ p.size →
      p.size + total_length (vs.map (value_record E dc code)) + 67108864 * vs.length < U64 →
      (pack_id2value_loop E dc code vs p).safe fun p' =>
        p'.offs ≤ p'.size ∧ p.size ≤ p'.size ∧
        p'.size ≤ p.size + total_length (vs.map (value_record E dc code)) +
          67108864 * vs.length ∧
        p'.toc_offs = p.toc_offs + 8 * vs.length := by
  intro vs
  induction vs with
  | nil =>
    intro p ho _ _
    exact ⟨ho, Nat.le_refl _, by simp [total_length], by simp⟩
  | cons v rest ih =>
    intro p ho ht hb
    have hinc := BUFFER_INC_eq
    simp only [List.map_cons, total_length_cons, List.length_cons] at hb ht ⊢
    simp only [pack_id2value_loop]
    have hval : (if dc = true then Res.ok v.val else
        match E.ddb_compress code v.val with
        | none => Res.null
        | some buf => Res.ok buf).safe (fun val => val = value_record E dc code v) := by
      unfold value_record
      by_cases hdc : dc = true
      · rw [if_pos hdc, if_pos hdc]
        exact rfl
      · rw [if_neg hdc, if_neg hdc]
        cases hc : E.ddb_compress code v.val with
        | none => exact trivial
        | some out => exact rfl
    refine Res.safe_bind hval ?_
    intro val hv
    subst hv
    obtain ⟨p1, m0, m1, m2, m3⟩ := buffer_toc_mark_succeeds (p := p) (by omega) (by omega)
    rw [m0, Res.bind_ok]
    refine Res.safe_bind (buffer_write_data_safe p1 (value_record E dc code v) (by omega)
      (by omega)) ?_
    intro p2 ⟨a1, a2, _, a3, a4, a5⟩
    refine Res.safe_mono (ih p2 a3 (by omega) (by omega)) ?_
    intro p' ⟨e1, e2, e3, e4⟩
    exact ⟨e1, by omega, by omega, by omega⟩

theorem total_length_perm {α : Type} {l₁ l₂ : List α} (f : α → List Nat) (h : l₁.Perm l₂) :
    total_length (l₁.map f) = total_length (l₂.map f) := by
  unfold total_length
  exact ((h.map f).map List.length).sum_eq

theorem pack_hash_loop_some_succeeds {E : Env} {n : Nat} {hash : List Nat} :
    ∀ (ks : List ddb_entry) (i : Nat) (order : List (Option ddb_entry)),
      (∀ k ∈ ks, E.cmph_search_packed hash k.val % U32 < n) →
      ∃ order', pack_hash_loop E (some hash) n i ks order = Res.ok order' := by
  intro ks
  induction ks with
  | nil => intro i order _; exact ⟨order, rfl⟩
  | cons k rest ih =>
    intro i order hlt
    simp only [pack_hash_loop]
    rw [if_neg (by have := hlt k (List.mem_cons_self _ _); omega)]
    exact ih _ _ (fun k' hk' => hlt k' (List.mem_cons_of_mem _ hk'))

/-- The call `pack_hash` of a run: with a hash that maps the keys one-to-one
into `[0, num_keys)` it returns the error value or an `order` array that is a
permutation of the keys, and the write cursor stays inside the capacity. -/
theorem pack_hash_safe {E : Env} {km : ddb_map (Option (List Nat))} {p : ddb_packed}
    (hn : p.head.num_keys = km.items.length) (hnd : (km.items.map Prod.fst).Nodup)
    (hU : km.items.length < U32)
    (hmph : km.items.length > E.DDB_HASH_MIN_KEYS → ∀ hash, E.ddb_build_cmph km = some hash →
      (∀ k ∈ km.items.map Prod.fst,
        E.cmph_search_packed hash k.val % U32 < km.items.length) ∧
      (∀ a ∈ km.items.map Prod.fst, ∀ b ∈ km.items.map Prod.fst,
        E.cmph_search_packed hash a.val % U32 = E.cmph_search_packed hash b.val % U32 →
        a = b))
    (ho : p.offs ≤ p.size)
    (hb : p.size + ((E.ddb_build_cmph km).getD []).length + BUFFER_INC < U64) :
    (pack_hash E p km).safe fun po =>
      (∃ ks : List ddb_entry, po.2 = ks.map some ∧ ks.Perm (km.items.map Prod.fst)) ∧
      po.1.offs ≤ po.1.size ∧ p.size ≤ po.1.size ∧
      po.1.size ≤ p.size + ((E.ddb_build_cmph km).getD []).length + BUFFER_INC ∧
      po.1.head.num_keys = p.head.num_keys := by
  unfold pack_hash
  simp only
  by_cases hm : E.malloc (p.head.num_keys * E.sizeof_entry % U64) = false
  · rw [if_pos hm]
    exact trivial
  · rw [if_neg hm]
    have hX : (if p.head.num_keys > E.DDB_HASH_MIN_KEYS then
        match E.ddb_build_cmph km with
        | none => Res.null
        | some hash =>
          match buffer_new_section E p 0 with
          | Res.ok pack1 =>
            (buffer_write_data E pack1 hash).bind fun pack2 =>
              Res.ok (({ pack2 with head := SETFLAG pack2.head Flag.F_HASH } : ddb_packed),
                some hash)
          | _ => Res.undefined
        else Res.ok (p, none)).safe (fun ph =>
          ph.1.offs ≤ ph.1.size ∧ p.size ≤ ph.1.size ∧
          ph.1.size ≤ p.size + ((E.ddb_build_cmph km).getD []).length + BUFFER_INC ∧
          ph.1.head.num_keys = p.head.num_keys ∧
          ((km.items.length > E.DDB_HASH_MIN_KEYS ∧ ∃ hash, E.ddb_build_cmph km = some hash ∧
              ph.2 = some hash) ∨
            (¬ km.items.length > E.DDB_HASH_MIN_KEYS ∧ ph.2 = none))) := by
      rw [hn]
      by_cases hgt : km.items.length > E.DDB_HASH_MIN_KEYS
      · rw [if_pos hgt]
        cases hbuild : E.ddb_build_cmph km with
        | none => exact trivial
        | some hash =>
          simp only
          rw [hbuild] at hb
          simp only [Option.getD_some] at hb ⊢
          rw [buffer_new_section_zero ho (by omega)]
          simp only
          refine Res.safe_bind (buffer_write_data_safe _ hash (by simp only; exact ho)
            (by simp only; exact hb)) ?_
          intro p2 ⟨a1, a2, a3, a4, a5, a6⟩
          simp only at a1 a2 a3 a4 a5 a6
          exact ⟨a4, a5, a6, by simp only [SETFLAG, a3]; exact hn,
            Or.inl ⟨hgt, hash, rfl, rfl⟩⟩
      · rw [if_neg hgt]
        exact ⟨ho, Nat.le_refl _, by show p.size ≤ _; omega, hn, Or.inr ⟨hgt, rfl⟩⟩
    refine Res.safe_bind hX ?_
    intro ph ⟨x1, x2, x3, x4, x5⟩
    by_cases hc : E.keys_cursor = false
    · rw [if_pos hc]
      exact trivial
    · rw [if_neg hc, hn]
      rw [hn] at x4
      rcases x5 with ⟨hgt, hash, hbuild, hph⟩ | ⟨hgt, hph⟩
      · rw [hph]
        obtain ⟨hlt, hinj⟩ := hmph hgt hash hbuild
        obtain ⟨order, hloop⟩ := @pack_hash_loop_some_succeeds E km.items.length hash
          (km.items.map Prod.fst) 0 (List.replicate km.items.length none) hlt
        rw [hloop, Res.bind_ok]
        obtain ⟨g1, _⟩ := pack_hash_loop_some_get _ 0 _ _ hnd hinj (by simp) hloop
        have hlen : order.length = km.items.length := by
          have := (pack_hash_loop_some _ 0 _ _ hloop).1
          simpa using this
        exact ⟨order_perm_of_slots hlen (by simp) hnd hlt hinj g1, x1, x2, x3, x4⟩
      · rw [hph]
        obtain ⟨order, hloop⟩ := pack_hash_loop_none_succeeds (E := E) (n := km.items.length)
          (km.items.map Prod.fst) 0 (List.replicate km.items.length none) (by simp) hU
        have hoe := order_plain_eq (by simp) hU hloop
        rw [hloop, Res.bind_ok]
        exact ⟨⟨_, hoe, List.Perm.refl _⟩, x1, x2, x3, x4⟩

theorem pack_key2values_safe {E : Env} {km : ddb_map (Option (List Nat))} {p : ddb_packed}
    {ks : List ddb_entry}
    (hn : p.head.num_keys = km.items.length) (hint : km.items.length ≤ INT_MAX)
    (hperm : ks.Perm (km.items.map Prod.fst))
    (hslots : ∀ k ∈ km.items.map Prod.fst, ∃ ids, ddb_map_lookup_str km k = some (some ids))
    (ho : p.offs ≤ p.size)
    (hb : p.size + 8 * (km.items.length + 1) +
      total_length ((km.items.map Prod.fst).map (key_record E km)) +
      201326592 * km.items.length + 67108864 < U64) :
    (pack_key2values E p (ks.map some) km).safe fun p' =>
      p'.offs ≤ p'.size ∧ p.size ≤ p'.size ∧
      p'.size ≤ p.size + 8 * (km.items.length + 1) +
        total_length ((km.items.map Prod.fst).map (key_record E km)) +
        201326592 * km.items.length + 67108864 ∧
      p'.toc_offs = p.offs + 8 * (km.items.length + 1) := by
  have hinc := BUFFER_INC_eq
  have hU : km.items.length < U32 := Nat.lt_of_le_of_lt hint INT_MAX_lt_U32
  have hnum : p.head.num_keys % U32 = km.items.length := by
    rw [hn, Nat.mod_eq_of_lt hU]
  have hnum1 : (km.items.length + 1) % U32 = km.items.length + 1 := by
    apply Nat.mod_eq_of_lt
    simp only [INT_MAX] at hint
    simp only [U32]
    omega
  have hlen : ks.length = km.items.length := by
    rw [hperm.length_eq, List.length_map]
  have htl : total_length (ks.map (key_record E km)) =
      total_length ((km.items.map Prod.fst).map (key_record E km)) :=
    total_length_perm _ hperm
  unfold pack_key2values
  simp only [hnum, hnum1]
  refine Res.safe_bind (buffer_new_section_safe (n := km.items.length + 1) ho (by omega)) ?_
  intro p1 ⟨s1, s2, _, s3, s4, s5⟩
  rw [if_neg (by simp only [List.length_map]; omega),
    List.take_of_length_le (by simp only [List.length_map]; omega)]
  refine Res.safe_bind (pack_key2values_loop_safe ks 0 p1
    (fun k hk => hslots k (hperm.mem_iff.mp hk)) (by omega) s3 (by omega)
    (by rw [htl, hlen]; omega)) ?_
  intro p2 ⟨l1, l2, l3, l4⟩
  rw [htl, hlen] at l3
  rw [hlen] at l4
  obtain ⟨p3, m0, m1, m2, m3⟩ := buffer_toc_mark_succeeds (p := p2) (by omega) (by omega)
  rw [m0]
  exact ⟨by omega, by omega, by omega, by omega⟩

theorem pack_id2value_safe {E : Env} {vm : ddb_map Nat} {p : ddb_packed} (dc : Bool)
    (ho : p.offs ≤ p.size)
    (hb : p.size + 8 * (vm.items.length + 1) +
      total_length ((vm.items.map Prod.fst).map
        (value_record E dc ((E.ddb_create_codemap vm).getD []))) +
      67108864 * vm.items.length + 4 + 134217728 < U64) :
    (pack_id2value E p (some vm) dc).safe fun p' =>
      p'.offs ≤ p'.size ∧ p'.toc_offs = p.offs + 8 * (vm.items.length + 1) := by
  have hinc := BUFFER_INC_eq
  unfold pack_id2value
  simp only [ddb_map_num_items]
  refine Res.safe_bind (buffer_new_section_safe (n := vm.items.length + 1) ho (by omega)) ?_
  intro p1 ⟨s1, s2, _, s3, s4, s5⟩
  have hstage : (if dc = false then
        match E.ddb_create_codemap vm with
        | none => Res.null
        | some code =>
          match E.ddb_save_codemap code with
          | none => Res.null
          | some codebook =>
            Res.ok (({ ({ p1 with head := SETFLAG p1.head Flag.F_COMPRESSED } : ddb_packed) with
              head := { (SETFLAG p1.head Flag.F_COMPRESSED) with codebook := codebook } } :
                ddb_packed), code)
       else Res.ok (p1, [])).safe (fun pc =>
      pc.1.offs = p1.offs ∧ pc.1.toc_offs = p1.toc_offs ∧ pc.1.size = p1.size ∧
      (vm.items.map Prod.fst).map (value_record E dc pc.2) =
        (vm.items.map Prod.fst).map
          (value_record E dc ((E.ddb_create_codemap vm).getD []))) := by
    by_cases hdc : dc = false
    · rw [if_pos hdc]
      cases hcm : E.ddb_create_codemap vm with
      | none => exact trivial
      | some code =>
        simp only
        cases hsv : E.ddb_save_codemap code with
        | none => exact trivial
        | some cb => exact ⟨rfl, rfl, rfl, rfl⟩
    · rw [if_neg hdc]
      have hdc' : dc = true := by simpa using hdc
      refine ⟨rfl, rfl, rfl, ?_⟩
      subst hdc'
      apply List.map_congr_left
      intro v _
      exact value_record_disabled E [] _ v
  refine Res.safe_bind hstage ?_
  intro pc ⟨g1, g2, g3, g5⟩
  by_cases hvc : E.values_cursor = false
  · rw [if_pos hvc]
    exact trivial
  · rw [if_neg hvc]
    refine Res.safe_bind (pack_id2value_loop_safe dc pc.2 (vm.items.map Prod.fst) pc.1
      (by omega) (by simp only [List.length_map]; omega)
      (by rw [g5]; simp only [List.length_map]; omega)) ?_
    intro p3 ⟨l1, l2, l3, l4⟩
    rw [g5] at l3
    simp only [List.length_map] at l3 l4
    obtain ⟨p4, m0, m1, m2, m3⟩ := buffer_toc_mark_succeeds (p := p3) (by omega) (by omega)
    rw [m0, Res.bind_ok]
    refine Res.safe_mono (buffer_write_data_safe p4 (le_bytes 4 0) (by omega)
      (by rw [length_le_bytes]; omega)) ?_
    intro p5 ⟨a1, a2, _, a3, a4, a5⟩
    exact ⟨a3, by omega⟩

theorem buffer_init_safe {E : Env} (hb : 2 * E.sizeof_header + BUFFER_INC < U64) :
    (buffer_init E).safe fun p =>
      p.offs = E.sizeof_header ∧ p.offs ≤ p.size ∧ p.size ≤ E.sizeof_header + BUFFER_INC := by
  have h1 : E.sizeof_header % U64 = E.sizeof_header := Nat.mod_eq_of_lt (by omega)
  have h2 : (E.sizeof_header + E.sizeof_header) % U64 = E.sizeof_header + E.sizeof_header :=
    Nat.mod_eq_of_lt (by omega)
  have h3 : (0 + (E.sizeof_header + BUFFER_INC) % U64) % U64 = E.sizeof_header + BUFFER_INC := by
    rw [Nat.zero_add, Nat.mod_mod, Nat.mod_eq_of_lt (by omega)]
  unfold buffer_init _buffer_grow
  simp only [h1, h2, h3]
  by_cases hc : E.sizeof_header + E.sizeof_header > 0
  · rw [if_pos hc]
    by_cases hr : E.realloc (E.sizeof_header + BUFFER_INC) = true
    · rw [if_pos hr]
      exact ⟨rfl, by simp only; omega, by simp only; omega⟩
    · rw [if_neg hr]
      exact trivial
  · rw [if_neg hc]
    exact ⟨rfl, by simp only; omega, by simp only; omega⟩

/-- A run of `ddb_finalize` without faults. For a builder whose keys are distinct,
at most `INT_MAX` in number and all have an id list, a hash that (when built)
maps the keys one-to-one into `[0, num_keys)`, and sizes that fit the 64-bit
offsets, `ddb_finalize` returns an image or the error value: no write leaves
the capacity of the buffer and no undefined behaviour occurs, whatever the
allocations and the other collaborators answer. -/
theorem ddb_finalize_safe (E : Env) (db : ddb_cons) (flags : Nat)
    (km : ddb_map (Option (List Nat))) (vm : ddb_map Nat)
    (hk : db.keys_map = some km) (hv : db.values_map = some vm)
    (hint : km.items.length ≤ INT_MAX) (hnd : (km.items.map Prod.fst).Nodup)
    (hslots : ∀ k ∈ km.items.map Prod.fst, ∃ ids, ddb_map_lookup_str km k = some (some ids))
    (hmph : km.items.length > E.DDB_HASH_MIN_KEYS → ∀ hash, E.ddb_build_cmph km = some hash →
      (∀ k ∈ km.items.map Prod.fst,
        E.cmph_search_packed hash k.val % U32 < km.items.length) ∧
      (∀ a ∈ km.items.map Prod.fst, ∀ b ∈ km.items.map Prod.fst,
        E.cmph_search_packed hash a.val % U32 = E.cmph_search_packed hash b.val % U32 →
        a = b))
    (hfit : image_bound E km vm flags < U64) :
    (ddb_finalize E db flags).safe fun r =>
      r.2.1 = r.1.alloc ∧ r.2.2 = { db with values_map := none } := by
  have hinc := BUFFER_INC_eq
  unfold image_bound at hfit
  have hU : km.items.length < U32 := Nat.lt_of_le_of_lt hint INT_MAX_lt_U32
  unfold ddb_finalize
  refine Res.safe_bind (buffer_init_safe (by omega)) ?_
  intro p0 ⟨i1, i2, i3⟩
  obtain ⟨p1, h0, h1, h2, h3⟩ := pack_header_succeeds (E := E) hk hv i2 (by omega)
  rw [h0, Res.bind_ok]
  simp only [hk]
  refine Res.safe_bind (pack_hash_safe
    (p := { p1 with head := { p1.head with hash_offs := p1.offs } }) h3 hnd hU hmph
    (by simp only; omega) (by simp only; omega)) ?_
  intro po ⟨⟨ks, hks, hperm⟩, g1, g2, g3, g4⟩
  simp only at g2 g3 g4
  rw [hks]
  refine Res.safe_bind (pack_key2values_safe
    (p := { po.1 with head := { po.1.head with key2values_offs := po.1.offs } })
    (by simp only; rw [g4]; exact h3) hint hperm hslots (by simp only; omega)
    (by simp only; omega)) ?_
  intro p4 ⟨k1, k2, k3, _⟩
  simp only at k2 k3
  rw [hv]
  refine Res.safe_bind (pack_id2value_safe
    (p := { p4 with head := { p4.head with id2value_offs := p4.offs } })
    (disable_compr_arg E flags) (by simp only; omega) (by simp only; omega)) ?_
  intro p6 _
  unfold buffer_shrink
  simp only
  by_cases hs : E.realloc_shrink p6.offs = true
  · rw [if_pos hs, Res.bind_ok]
    exact ⟨rfl, rfl⟩
  · rw [if_neg hs]
    exact trivial

theorem Res.safe_of_eq_ok {α : Type} {r : Res α} {P : α → Prop} {a : α}
    (h : r.safe P) (he : r = Res.ok a) : P a := by
  subst he
  exact h

theorem Res.safe_ok_or_null {α : Type} {r : Res α} {P : α → Prop} (h : r.safe P) :
    (∃ a, r = Res.ok a) ∨ r = Res.null := by
  cases r with
  | ok a => exact Or.inl ⟨a, rfl⟩
  | null => exact Or.inr rfl
  | out_of_bounds => exact absurd h id
  | undefined => exact absurd h id

/-- The calls `pack_hash` makes before its loop have succeeded when it returns
an array. -/
theorem pack_hash_calls_ok {E : Env} {km : ddb_map (Option (List Nat))} {p : ddb_packed}
    {po : ddb_packed × List (Option ddb_entry)} (h : pack_hash E p km = Res.ok po) :
    E.malloc (p.head.num_keys * E.sizeof_entry % U64) = true ∧ E.keys_cursor = true := by
  unfold pack_hash at h
  simp only at h
  by_cases hm : E.malloc (p.head.num_keys * E.sizeof_entry % U64) = false
  · rw [if_pos hm] at h
    cases h
  · rw [if_neg hm, Res.bind_eq_ok] at h
    obtain ⟨ph, _, h⟩ := h
    by_cases hc : E.keys_cursor = false
    · rw [if_pos hc] at h
      cases h
    · exact ⟨by simpa using hm, by simpa using hc⟩

theorem pack_id2value_calls_ok {E : Env} {vm : ddb_map Nat} {p p' : ddb_packed} {dc : Bool}
    (h : pack_id2value E p (some vm) dc = Res.ok p') : E.values_cursor = true := by
  unfold pack_id2value at h
  simp only [Res.bind_eq_ok] at h
  obtain ⟨p1, _, pc, _, h⟩ := h
  by_cases hc : E.values_cursor = false
  · rw [if_pos hc] at h
    cases h
  · simpa using hc

/-- The allocations and cursor creations of a successful run have succeeded. -/
theorem finalize_calls_ok {E : Env} {db db' : ddb_cons} {flags len : Nat} {img : ddb_image}
    {km : ddb_map (Option (List Nat))} {vm : ddb_map Nat}
    (hk : db.keys_map = some km) (hv : db.values_map = some vm)
    (h : ddb_finalize E db flags = Res.ok (img, len, db')) :
    (∃ p0, buffer_init E = Res.ok p0) ∧
    E.malloc (km.items.length * E.sizeof_entry % U64) = true ∧
    E.keys_cursor = true ∧ E.values_cursor = true ∧ E.realloc_shrink len = true := by
  unfold ddb_finalize at h
  simp only [Res.bind_eq_ok] at h
  obtain ⟨p0, hinit, p1, hhead, h⟩ := h
  rw [hk] at h
  simp only [Res.bind_eq_ok] at h
  obtain ⟨po, hhash, p4, hkeys, p6, hvals, image, hshrink, h⟩ := h
  simp only [Res.ok.injEq, Prod.mk.injEq] at h
  obtain ⟨_, rfl, _⟩ := h
  rw [hv] at hvals
  obtain ⟨i1, i2, i3⟩ := buffer_init_ok hinit
  have io : p0.offs < U64 := by rw [i1]; exact Nat.mod_lt _ U64_pos
  obtain ⟨km', vm', hk', hv', h1, h2, h3, h4⟩ := pack_header_ok i2 io hhead
  rw [hk] at hk'
  have hkm := Option.some.inj hk'
  subst hkm
  obtain ⟨m1, m2⟩ := pack_hash_calls_ok hhash
  have hnum : p1.head.num_keys = km.items.length := by rw [h4]
  simp only [hnum] at m1
  refine ⟨⟨p0, hinit⟩, m1, m2, pack_id2value_calls_ok hvals, ?_⟩
  unfold buffer_shrink at hshrink
  simp only at hshrink
  by_cases hs : E.realloc_shrink p6.offs = true
  · exact hs
  · rw [if_neg hs] at hshrink
    cases hshrink

/-- A stage of `ddb_finalize` that returns its error value makes `ddb_finalize`
return `NULL`. -/
theorem finalize_stage_null (E : Env) (db : ddb_cons) (flags : Nat)
    (km : ddb_map (Option (List Nat))) (vm : ddb_map Nat)
    (hk : db.keys_map = some km) (hv : db.values_map = some vm) :
    (buffer_init E = Res.null → ddb_finalize E db flags = Res.null) ∧
    (∀ p0 p1, buffer_init E = Res.ok p0 → pack_header E p0 db = Res.ok p1 →
      (pack_hash E { p1 with head := { p1.head with hash_offs := p1.offs } } km = Res.null →
        ddb_finalize E db flags = Res.null) ∧
      (∀ p3 order,
        pack_hash E { p1 with head := { p1.head with hash_offs := p1.offs } } km =
          Res.ok (p3, order) →
        (pack_key2values E { p3 with head := { p3.head with key2values_offs := p3.offs } }
            order km = Res.null → ddb_finalize E db flags = Res.null) ∧
        (∀ p4,
          pack_key2values E { p3 with head := { p3.head with key2values_offs := p3.offs } }
            order km = Res.ok p4 →
          (pack_id2value E { p4 with head := { p4.head with id2value_offs := p4.offs } }
              (some vm) (disable_compr_arg E flags) = Res.null →
            ddb_finalize E db flags = Res.null) ∧
          (∀ p6,
            pack_id2value E { p4 with head := { p4.head with id2value_offs := p4.offs } }
              (some vm) (disable_compr_arg E flags) = Res.ok p6 →
            E.realloc_shrink p6.offs = false → ddb_finalize E db flags = Res.null)))) := by
  refine ⟨?_, ?_⟩
  · intro h
    unfold ddb_finalize
    rw [h]
    rfl
  · intro p0 p1 hinit hhead
    have hpre : ddb_finalize E db flags =
        (pack_hash E { p1 with head := { p1.head with hash_offs := p1.offs } } km).bind
          fun po =>
          (pack_key2values E { po.1 with head := { po.1.head with key2values_offs := po.1.offs } }
            po.2 km).bind fun pack4 =>
          (pack_id2value E { pack4 with head := { pack4.head with id2value_offs := pack4.offs } }
            db.values_map (disable_compr_arg E flags)).bind fun pack6 =>
          (buffer_shrink E { pack6 with head := { pack6.head with size := pack6.offs } }).bind
            fun image => Res.ok (image, pack6.offs, { db with values_map := none }) := by
      unfold ddb_finalize
      rw [hinit, Res.bind_ok, hhead, Res.bind_ok]
      simp only [hk]
    rw [hpre]
    refine ⟨?_, ?_⟩
    · intro h
      rw [h]
      rfl
    · intro p3 order hhash
      rw [hhash, Res.bind_ok]
      refine ⟨?_, ?_⟩
      · intro h
        rw [h]
        rfl
      · intro p4 hkeys
        rw [hkeys, Res.bind_ok, hv]
        refine ⟨?_, ?_⟩
        · intro h
          rw [h]
          rfl
        · intro p6 hvals hs
          rw [hvals, Res.bind_ok]
          unfold buffer_shrink
          simp only [hs, Bool.false_eq_true, if_false]
          rfl

/-- The two calls `buffer_new_section(pack, 0)` whose result the source ignores,
in `pack_header` and in `pack_hash`: in the states in which `ddb_finalize` makes
them the write cursor lies inside the capacity, so the calls cannot fail, ask
for no memory and leave `offs` alone. -/
theorem unchecked_sections (E : Env) (db : ddb_cons)
    (hsz : 2 * E.sizeof_header + BUFFER_INC < U64) :
    (∀ p : ddb_packed, p.offs ≤ p.size → p.size < U64 →
      buffer_new_section E p 0 = Res.ok { p with toc_offs := p.offs }) ∧
    (∀ p0, buffer_init E = Res.ok p0 → p0.offs ≤ p0.size ∧ p0.size < U64 ∧
      ∀ p1, pack_header E p0 db = Res.ok p1 →
        p1.offs = p0.offs ∧ p1.size = p0.size ∧ p1.offs ≤ p1.size ∧ p1.size < U64) := by
  refine ⟨fun p ho hs => buffer_new_section_zero ho hs, ?_⟩
  intro p0 hinit
  obtain ⟨i1, i2, i3⟩ := Res.safe_of_eq_ok (buffer_init_safe hsz) hinit
  have hs : p0.size < U64 := by omega
  refine ⟨i2, hs, ?_⟩
  intro p1 hhead
  obtain ⟨km, vm, hk, hv, _⟩ := pack_header_ok hs (by omega) hhead
  obtain ⟨p1', h0, h1, h2, _⟩ := pack_header_succeeds (E := E) hk hv i2 hs
  rw [hhead] at h0
  have := Res.ok.inj h0
  subst this
  exact ⟨h1, h2, by omega, by omega⟩

/-! ## Buffer discipline and error propagation -/

/-- Claim C20 (buffer discipline). Let the builder be obtained by successful adds, with
at most `INT_MAX` keys (the range of the loop counter `int i`), let the hash,
when built, map the keys one-to-one into `[0, num_keys)`, and let the sizes fit
the 64-bit offsets (`image_bound`). Then, whatever the allocations and the
collaborators answer:
* `ddb_finalize` returns an image or `NULL`; in the embedding a write outside
  the capacity is the result `out_of_bounds` and a failed unchecked call is
  `undefined`, and neither occurs;
* `buffer_write_data` and `buffer_new_section`, called with `offs ≤ capacity`,
  fail or leave `offs ≤ capacity`, and `buffer_toc_mark` writes its 8 bytes
  inside the capacity and moves the TOC cursor by 8;
* the two unchecked calls `buffer_new_section(pack, 0)` are made in states with
  `offs ≤ capacity`, where they succeed without asking for memory and without
  moving `offs`;
* a section that is completed has received as many marks as TOC entries were
  reserved: after `pack_key2values` the TOC cursor is the section start plus
  `8 * (num_keys + 1)` and after `pack_id2value` it is the section start plus
  `8 * (num_uniq_values + 1)`, which are the offsets stored in `toc[0]` of the
  two sections of the image. -/
theorem C20_buffer_discipline (E : Env) (l : List (add_alloc × ddb_entry × ddb_entry))
    (db : ddb_cons) (flags : Nat) (km : ddb_map (Option (List Nat))) (vm : ddb_map Nat)
    (hb : built_by l db) (hk : db.keys_map = some km) (hv : db.values_map = some vm)
    (hint : km.items.length ≤ INT_MAX)
    (hmph : km.items.length > E.DDB_HASH_MIN_KEYS → ∀ hash, E.ddb_build_cmph km = some hash →
      (∀ k ∈ km.items.map Prod.fst,
        E.cmph_search_packed hash k.val % U32 < km.items.length) ∧
      (∀ a ∈ km.items.map Prod.fst, ∀ b ∈ km.items.map Prod.fst,
        E.cmph_search_packed hash a.val % U32 = E.cmph_search_packed hash b.val % U32 →
        a = b))
    (hfit : image_bound E km vm flags < U64) :
    ((∃ img len db', ddb_finalize E db flags = Res.ok (img, len, db')) ∨
      ddb_finalize E db flags = Res.null) ∧
    (∀ (p : ddb_packed) (src : List Nat),
      p.offs ≤ p.size → p.size + src.length + BUFFER_INC < U64 →
      (buffer_write_data E p src).safe fun p' =>
        p'.offs = p.offs + src.length ∧ p'.offs ≤ p'.size) ∧
    (∀ (p : ddb_packed) (n : Nat),
      p.offs ≤ p.size → p.size + 8 * n + BUFFER_INC < U64 →
      (buffer_new_section E p n).safe fun p' =>
        p'.toc_offs = p.offs ∧ p'.offs = p.offs + 8 * n ∧ p'.offs ≤ p'.size) ∧
    (∀ p : ddb_packed, p.toc_offs + 8 ≤ p.size → p.size < U64 →
      ∃ p', buffer_toc_mark p = Res.ok p' ∧ p'.toc_offs = p.toc_offs + 8 ∧
        p'.offs = p.offs ∧ p'.size = p.size) ∧
    (∀ p : ddb_packed, p.offs ≤ p.size → p.size < U64 →
      buffer_new_section E p 0 = Res.ok { p with toc_offs := p.offs }) ∧
    (∀ p0, buffer_init E = Res.ok p0 → p0.offs ≤ p0.size ∧ p0.size < U64 ∧
      ∀ p1, pack_header E p0 db = Res.ok p1 →
        p1.offs = p0.offs ∧ p1.size = p0.size ∧ p1.offs ≤ p1.size ∧ p1.size < U64) ∧
    (∀ (p : ddb_packed) (ks : List ddb_entry),
      p.head.num_keys = km.items.length → ks.Perm (km.items.map Prod.fst) →
      p.offs ≤ p.size →
      p.size + 8 * (km.items.length + 1) +
        total_length ((km.items.map Prod.fst).map (key_record E km)) +
        201326592 * km.items.length + 67108864 < U64 →
      (pack_key2values E p (ks.map some) km).safe fun p' =>
        p'.offs ≤ p'.size ∧ p'.toc_offs = p.offs + 8 * (km.items.length + 1)) ∧
    (∀ p : ddb_packed, p.offs ≤ p.size →
      p.size + 8 * (vm.items.length + 1) +
        total_length ((vm.items.map Prod.fst).map
          (value_record E (disable_compr_arg E flags)
            ((E.ddb_create_codemap vm).getD []))) +
        67108864 * vm.items.length + 4 + 134217728 < U64 →
      (pack_id2value E p (some vm) (disable_compr_arg E flags)).safe fun p' =>
        p'.offs ≤ p'.size ∧ p'.toc_offs = p.offs + 8 * (vm.items.length + 1)) ∧
    (∀ img len db', ddb_finalize E db flags = Res.ok (img, len, db') →
      toc_entry img img.head.key2values_offs 0 =
        img.head.key2values_offs + 8 * (km.items.length + 1) ∧
      toc_entry img img.head.id2value_offs 0 =
        img.head.id2value_offs + 8 * (vm.items.length + 1)) := by
  obtain ⟨vm', km', hv', hk', hvmax, hkmax, hvlen, hklen, hvf, hvs, hkf, hkl, hn⟩ :=
    built_by_inv hb
  rw [hk] at hk'
  rw [hv] at hv'
  have e1 := Option.some.inj hk'
  have e2 := Option.some.inj hv'
  subst e1 e2
  have hnd : (km.items.map Prod.fst).Nodup := by
    rw [hkf]
    exact nodup_first_occurrences _
  have hslots : ∀ k ∈ km.items.map Prod.fst,
      ∃ ids, ddb_map_lookup_str km k = some (some ids) := by
    intro k hkm
    rw [hkf, mem_first_occurrences] at hkm
    refine ⟨(values_of_key l k).map (value_id_of vm), ?_⟩
    unfold ddb_map_lookup_str
    rw [hkl k, if_pos hkm]
  have hsz : 2 * E.sizeof_header + BUFFER_INC < U64 := by
    have := BUFFER_INC_eq
    unfold image_bound at hfit
    omega
  have hsafe := ddb_finalize_safe E db flags km vm hk hv hint hnd hslots hmph hfit
  have hun := unchecked_sections E db hsz
  refine ⟨?_, ?_, ?_, ?_, hun.1, hun.2, ?_, ?_, ?_⟩
  · rcases Res.safe_ok_or_null hsafe with ⟨⟨img, len, db'⟩, h⟩ | h
    · exact Or.inl ⟨img, len, db', h⟩
    · exact Or.inr h
  · intro p src ho hbd
    exact Res.safe_mono (buffer_write_data_safe p src ho hbd)
      (fun p' ⟨a1, _, _, a4, _, _⟩ => ⟨a1, a4⟩)
  · intro p n ho hbd
    exact Res.safe_mono (buffer_new_section_safe ho hbd)
      (fun p' ⟨a1, a2, _, a4, _, _⟩ => ⟨a1, a2, a4⟩)
  · intro p ht hs
    exact buffer_toc_mark_succeeds ht hs
  · intro p ks hnum hperm ho hbd
    exact Res.safe_mono (pack_key2values_safe hnum hint hperm hslots ho hbd)
      (fun p' ⟨a1, _, _, a4⟩ => ⟨a1, a4⟩)
  · intro p ho hbd
    exact pack_id2value_safe (disable_compr_arg E flags) ho hbd
  · intro img len db' h
    obtain ⟨⟨ks, code, L⟩, _⟩ := ddb_finalize_layout hk hv hklen h
    have t0 := layout_key_toc L 0 (Nat.zero_le _)
    have t1 := layout_value_toc L 0 (Nat.zero_le _)
    simp only [List.take_zero, total_length, List.map_nil, List.sum_nil, Nat.add_zero] at t0 t1
    rw [L.ks_length] at t0
    exact ⟨t0, t1⟩

/-- Witness of claim C20: the builder after `add(k,a); add(k,b); add(k,a)` under a
threshold of 0 keys, where the hash `[1]` sends the only key to slot 0. -/
theorem C20_buffer_discipline_witness :
    (∃ img len db', ddb_finalize hash_env sample_db 0 = Res.ok (img, len, db')) ∨
      ddb_finalize hash_env sample_db 0 = Res.null :=
  (C20_buffer_discipline hash_env sample_adds sample_db 0
    { max_num_items := UINT_MAX, items := [(entry_k, some [1, 2, 1])] }
    { max_num_items := UINT_MAX, items := [(entry_a, 1), (entry_b, 2)] }
    sample_built rfl rfl (by decide)
    (fun _ hash hbuild => by
      have hh : [1] = hash := Option.some.inj hbuild
      subst hh
      decide)
    (by decide)).1

/-- A growth whose `realloc` fails makes `_buffer_grow` return `-1`, and
`buffer_write_data` and `buffer_new_section` pass the failure on. -/
theorem buffer_grow_null (E : Env) (p : ddb_packed) (n : Nat)
    (hneed : (p.offs + n) % U64 > p.size)
    (hre : E.realloc ((p.size + (n + BUFFER_INC) % U64) % U64) = false) :
    _buffer_grow E p n = Res.null ∧
    (∀ src : List Nat, src.length = n → buffer_write_data E p src = Res.null) ∧
    (∀ k, (k * 8) % U64 = n → buffer_new_section E p k = Res.null) := by
  have hg : _buffer_grow E p n = Res.null := by
    unfold _buffer_grow
    rw [if_pos hneed]
    simp only [hre, Bool.false_eq_true, if_false]
  refine ⟨hg, ?_, ?_⟩
  · intro src hs
    unfold buffer_write_data
    rw [hs, hg]
    rfl
  · intro k hk
    unfold buffer_new_section
    rw [hk, hg]
    rfl

/-- Claim C15 (error propagation in finalize). Let the builder be obtained by successful
adds, with at most `INT_MAX` keys, a hash that (when built) maps the keys
one-to-one into `[0, num_keys)`, and sizes that fit the 64-bit offsets. Then:
* `ddb_finalize` returns an image or `NULL`, nothing else;
* when it returns an image, no call it made has reported a failure: the buffer
  was allocated, `malloc` returned the `order` array, the hash was built when it
  was needed, both cursors were created, the delta encoder succeeded for every
  key, the codebook was created and serialized and every value was compressed
  when compression is enabled, and the final `realloc` succeeded; hence a
  failure of any of these calls makes `ddb_finalize` return `NULL`;
* a `realloc` that fails when the buffer has to grow makes `_buffer_grow`,
  `buffer_write_data` and `buffer_new_section` return their error value;
* a stage of `ddb_finalize` (`buffer_init`, `pack_hash`, `pack_key2values`,
  `pack_id2value`, the final `realloc`) that fails makes `ddb_finalize` return
  `NULL`;
* the two calls `buffer_new_section(pack, 0)` whose result is ignored cannot fail
  in the states in which they are made, so no failure is swallowed there. -/
theorem C15_error_propagation (E : Env) (l : List (add_alloc × ddb_entry × ddb_entry))
    (db : ddb_cons) (flags : Nat) (km : ddb_map (Option (List Nat))) (vm : ddb_map Nat)
    (hb : built_by l db) (hk : db.keys_map = some km) (hv : db.values_map = some vm)
    (hint : km.items.length ≤ INT_MAX)
    (hmph : km.items.length > E.DDB_HASH_MIN_KEYS → ∀ hash, E.ddb_build_cmph km = some hash →
      (∀ k ∈ km.items.map Prod.fst,
        E.cmph_search_packed hash k.val % U32 < km.items.length) ∧
      (∀ a ∈ km.items.map Prod.fst, ∀ b ∈ km.items.map Prod.fst,
        E.cmph_search_packed hash a.val % U32 = E.cmph_search_packed hash b.val % U32 →
        a = b))
    (hfit : image_bound E km vm flags < U64) :
    ((∃ img len db', ddb_finalize E db flags = Res.ok (img, len, db')) ∨
      ddb_finalize E db flags = Res.null) ∧
    (∀ img len db', ddb_finalize E db flags = Res.ok (img, len, db') →
      (∃ p0, buffer_init E = Res.ok p0) ∧
      E.malloc (km.items.length * E.sizeof_entry % U64) = true ∧
      (km.items.length > E.DDB_HASH_MIN_KEYS → ∃ hash, E.ddb_build_cmph km = some hash) ∧
      E.keys_cursor = true ∧
      (∀ k ∈ km.items.map Prod.fst, ∃ ids buf d,
        ddb_map_lookup_str km k = some (some ids) ∧
        E.ddb_delta_encode ids = some (buf, d)) ∧
      (disable_compr_arg E flags = false → ∃ code cb,
        E.ddb_create_codemap vm = some code ∧ E.ddb_save_codemap code = some cb ∧
        ∀ v ∈ vm.items.map Prod.fst, ∃ out, E.ddb_compress code v.val = some out) ∧
      E.values_cursor = true ∧ E.realloc_shrink len = true) ∧
    (∀ (p : ddb_packed) (n : Nat), (p.offs + n) % U64 > p.size →
      E.realloc ((p.size + (n + BUFFER_INC) % U64) % U64) = false →
      _buffer_grow E p n = Res.null ∧
      (∀ src : List Nat, src.length = n → buffer_write_data E p src = Res.null) ∧
      (∀ k, (k * 8) % U64 = n → buffer_new_section E p k = Res.null)) ∧
    ((buffer_init E = Res.null → ddb_finalize E db flags = Res.null) ∧
      (∀ p0 p1, buffer_init E = Res.ok p0 → pack_header E p0 db = Res.ok p1 →
        (pack_hash E { p1 with head := { p1.head with hash_offs := p1.offs } } km = Res.null →
          ddb_finalize E db flags = Res.null) ∧
        (∀ p3 order,
          pack_hash E { p1 with head := { p1.head with hash_offs := p1.offs } } km =
            Res.ok (p3, order) →
          (pack_key2values E { p3 with head := { p3.head with key2values_offs := p3.offs } }
              order km = Res.null → ddb_finalize E db flags = Res.null) ∧
          (∀ p4,
            pack_key2values E { p3 with head := { p3.head with key2values_offs := p3.offs } }
              order km = Res.ok p4 →
            (pack_id2value E { p4 with head := { p4.head with id2value_offs := p4.offs } }
                (some vm) (disable_compr_arg E flags) = Res.null →
              ddb_finalize E db flags = Res.null) ∧
            (∀ p6,
              pack_id2value E { p4 with head := { p4.head with id2value_offs := p4.offs } }
                (some vm) (disable_compr_arg E flags) = Res.ok p6 →
              E.realloc_shrink p6.offs = false → ddb_finalize E db flags = Res.null))))) ∧
    ((∀ p : ddb_packed, p.offs ≤ p.size → p.size < U64 →
        buffer_new_section E p 0 = Res.ok { p with toc_offs := p.offs }) ∧
      (∀ p0, buffer_init E = Res.ok p0 → p0.offs ≤ p0.size ∧ p0.size < U64 ∧
        ∀ p1, pack_header E p0 db = Res.ok p1 →
          p1.offs = p0.offs ∧ p1.size = p0.size ∧ p1.offs ≤ p1.size ∧ p1.size < U64)) := by
  obtain ⟨vm', km', hv', hk', hvmax, hkmax, hvlen, hklen, hvf, hvs, hkf, hkl, hn⟩ :=
    built_by_inv hb
  rw [hk] at hk'
  rw [hv] at hv'
  have e1 := Option.some.inj hk'
  have e2 := Option.some.inj hv'
  subst e1 e2
  have hnd : (km.items.map Prod.fst).Nodup := by
    rw [hkf]
    exact nodup_first_occurrences _
  have hslots : ∀ k ∈ km.items.map Prod.fst,
      ∃ ids, ddb_map_lookup_str km k = some (some ids) := by
    intro k hkm
    rw [hkf, mem_first_occurrences] at hkm
    refine ⟨(values_of_key l k).map (value_id_of vm), ?_⟩
    unfold ddb_map_lookup_str
    rw [hkl k, if_pos hkm]
  have hsz : 2 * E.sizeof_header + BUFFER_INC < U64 := by
    have := BUFFER_INC_eq
    unfold image_bound at hfit
    omega
  have hsafe := ddb_finalize_safe E db flags km vm hk hv hint hnd hslots hmph hfit
  refine ⟨?_, ?_, fun p n => buffer_grow_null E p n, finalize_stage_null E db flags km vm hk hv,
    unchecked_sections E db hsz⟩
  · rcases Res.safe_ok_or_null hsafe with ⟨⟨img, len, db'⟩, h⟩ | h
    · exact Or.inl ⟨img, len, db', h⟩
    · exact Or.inr h
  · intro img len db' h
    obtain ⟨c1, c2, c3, c4, c5⟩ := finalize_calls_ok hk hv h
    obtain ⟨⟨ks, code, L⟩, _⟩ := ddb_finalize_layout hk hv hklen h
    refine ⟨c1, c2, ?_, c3, ?_, ?_, c4, c5⟩
    · intro hgt
      obtain ⟨hash, x1, _⟩ := L.key2values_offs_hash hgt
      exact ⟨hash, x1⟩
    · intro k hkm
      exact L.ks_ok k ((L.ks_mem k).mpr hkm)
    · intro hdc
      obtain ⟨x1, x2, x3⟩ := L.codebook hdc
      exact ⟨code, _, x1, x2, x3⟩

/-- Witness of claim C15: the builder after `add(k,a); add(k,b); add(k,a)` under a
threshold of 0 keys; the run returns an image, and `malloc` had returned the
`order` array of one entry (16 bytes). -/
theorem C15_error_propagation_witness :
    ∃ img len db', ddb_finalize hash_env sample_db 0 = Res.ok (img, len, db') ∧
      hash_env.malloc 16 = true ∧ hash_env.realloc_shrink len = true := by
  have hok : (ddb_finalize hash_env sample_db 0).isOk = true := by decide
  obtain ⟨⟨img, len, db'⟩, hr⟩ := Res.exists_of_isOk hok
  have h := (C15_error_propagation hash_env sample_adds sample_db 0
    { max_num_items := UINT_MAX, items := [(entry_k, some [1, 2, 1])] }
    { max_num_items := UINT_MAX, items := [(entry_a, 1), (entry_b, 2)] }
    sample_built rfl rfl (by decide)
    (fun _ hash hbuild => by
      have hh : [1] = hash := Option.some.inj hbuild
      subst hh
      decide)
    (by decide)).2.1 img len db' hr
  exact ⟨img, len, db', hr, h.2.1, h.2.2.2.2.2.2.2⟩

end Discodb
